import Mathlib

/-!
Verification of the `kvs` key-value store against its specification.

The development shallowly embeds the relevant parts of the Rust sources:

* `src/cp/ser.rs`, `src/cp/de.rs`, `src/cp/mod.rs` — the wire codec for the
  client/server protocol (`Serializer`, `SizeSerializer`, `Deserializer`,
  the `Message`/`MessagePayload` serde implementations, and the framed-read
  helpers `KvServer::recv_payload` / `KvClient::recv_payload`).
* `src/kvstore.rs` — the log-structured storage engine (`KvStore`), with the
  bincode encoding of `Command` records, the index, the segment files, the
  writer control data, compaction and open/recovery.

Bytes are modelled as `Nat` (with a well-formedness predicate `< 256` where
it matters); Rust `String`s are modelled by their UTF-8 byte lists
(`List Nat`).  UTF-8 validation performed by `std::str::from_utf8` /
`String::from_utf8` on the decode paths is modelled as the identity on the
byte list: on every path proved here the bytes being validated were produced
by serializing a Rust `String`, for which `from_utf8(s.as_bytes()) == Ok(s)`
holds, so the validation cannot fail; conversely no claim below depends on a
UTF-8 validation failure.

Stateful Rust code (methods taking `&self`/`&mut self` that mutate files,
the index, counters or the cached reader) is embedded as explicit state
passing: an operation takes a `KvState` and returns a pair of its result and
the successor state, so that partial mutation before an early `?`-return is
represented faithfully.  Fallible operations return `Except`.  A Rust panic
(the `u64` division by zero reachable in `should_run_compaction`) is
modelled by `Option`: `none` is the panic.
-/

set_option maxRecDepth 4096

namespace KvsProof

/-! ## Part 1: wire codec (src/cp)

`cp/error.rs` defines `enum Error { Message(String), IoError(String),
InvalidUtf8Encoding(..), NotEnoughSpaceInBuffer, Eof }`.  The payload strings
carry no information any claim depends on, so the model drops them. -/

inductive CpError where
  /-- `Error::Message(_)` — the catch-all `serde` custom error (raised for
  oversized strings on encode and for invalid discriminants on decode). -/
  | message
  /-- `Error::IoError(_)` — converted from `std::io::Error` by the framed
  read paths. -/
  | ioErr
  /-- `Error::InvalidUtf8Encoding(_)`. -/
  | invalidUtf8
  /-- `Error::NotEnoughSpaceInBuffer`. -/
  | notEnoughSpaceInBuffer
  /-- `Error::Eof`. -/
  | eof
  deriving DecidableEq, Repr

instance {ε α : Type} [DecidableEq ε] [DecidableEq α] : DecidableEq (Except ε α) := fun a b =>
  match a, b with
  | .ok x, .ok y =>
    if h : x = y then .isTrue (by rw [h]) else .isFalse (by simp [h])
  | .ok _, .error _ => .isFalse (by simp)
  | .error _, .ok _ => .isFalse (by simp)
  | .error x, .error y =>
    if h : x = y then .isTrue (by rw [h]) else .isFalse (by simp [h])

/-- `PROTOCOL_VERSION: u8 = 0xC1` (cp/mod.rs). -/
def PROTOCOL_VERSION : Nat := 0xC1

/-- `HEADER_SIZE: usize = 5` (cp/mod.rs). -/
def HEADER_SIZE : Nat := 5

/-- Maximum value of a Rust `u32` (`u32::MAX`). -/
def u32Max : Nat := 4294967295

/-- `enum StatusCode { Ok = 0, KeyNotFound = 1, FatalError = 2 }` (cp/mod.rs). -/
inductive StatusCode where
  | ok
  | keyNotFound
  | fatalError
  deriving DecidableEq, Repr

/-- `ToPrimitive::to_u8` for `StatusCode` (derived from the `Primitive`
discriminants in cp/mod.rs). -/
def StatusCode.toU8 : StatusCode → Nat
  | .ok => 0
  | .keyNotFound => 1
  | .fatalError => 2

/-- `FromPrimitive::from_u8` for `StatusCode`. -/
def statusCodeFromU8 (v : Nat) : Option StatusCode :=
  if v = 0 then some .ok
  else if v = 1 then some .keyNotFound
  else if v = 2 then some .fatalError
  else none

/-- The six message payloads of the protocol (cp/mod.rs).  The Rust code
nests them as `MessagePayload::{Request,Response}` around
`Request::{Set,Get,Remove}` / `Response::{Set,Get,Remove}` wrapping the six
field structs `RequestSet`, …, `ResponseRemove`; serialization treats the
six cases uniformly through the `MessageType` discriminant byte, so the
model flattens the nesting into one inductive with six constructors.
String fields are modelled by their UTF-8 byte lists. -/
inductive MessagePayload where
  /-- `Request::Set(RequestSet { key, value })`, discriminant `0x00`. -/
  | reqSet (key value : List Nat)
  /-- `Request::Get(RequestGet { key })`, discriminant `0x01`. -/
  | reqGet (key : List Nat)
  /-- `Request::Remove(RequestRemove { key })`, discriminant `0x02`. -/
  | reqRemove (key : List Nat)
  /-- `Response::Set(ResponseSet { code })`, discriminant `0x80`. -/
  | respSet (code : StatusCode)
  /-- `Response::Get(ResponseGet { code, value })`, discriminant `0x81`. -/
  | respGet (code : StatusCode) (value : Option (List Nat))
  /-- `Response::Remove(ResponseRemove { code })`, discriminant `0x82`. -/
  | respRemove (code : StatusCode)
  deriving DecidableEq, Repr

/-- The `MessageType` discriminant byte written for each payload
(cp/mod.rs, `enum MessageType`). -/
def msgTypeByte : MessagePayload → Nat
  | .reqSet _ _ => 0x00
  | .reqGet _ => 0x01
  | .reqRemove _ => 0x02
  | .respSet _ => 0x80
  | .respGet _ _ => 0x81
  | .respRemove _ => 0x82

/-- Big-endian 4-byte encoding, as produced by `u32::to_be_bytes`. -/
def be32 (n : Nat) : List Nat :=
  [n / 2 ^ 24 % 256, n / 2 ^ 16 % 256, n / 2 ^ 8 % 256, n % 256]

/-- Big-endian reassembly, as performed by `u32::from_be_bytes`. -/
def bytesToNatBE (l : List Nat) : Nat :=
  l.foldl (fun a b => a * 256 + b) 0

/-- The state of `ser::Serializer<'ser>`: a fixed-capacity caller buffer
`buf: &mut [u8]` and a write cursor `wr_idx`.  The model keeps the capacity
`bufLen = buf.len()` and the list `out` of bytes written so far
(`wr_idx = out.length`); bytes of the caller buffer beyond `wr_idx` are
never read by the code, so they are not modelled. -/
structure Serializer where
  bufLen : Nat
  out : List Nat
  deriving DecidableEq, Repr

/-- `Serializer::write_bytes` (cp/ser.rs lines 13–23): copy `bytes` at
`wr_idx` if they fit, else `Error::NotEnoughSpaceInBuffer`. -/
def writeBytes (s : Serializer) (bytes : List Nat) : Except CpError Serializer :=
  if s.out.length + bytes.length ≤ s.bufLen then
    .ok ⟨s.bufLen, s.out ++ bytes⟩
  else
    .error .notEnoughSpaceInBuffer

/-- `serialize_u8` for the buffer serializer: one byte. -/
def serializeU8 (s : Serializer) (v : Nat) : Except CpError Serializer :=
  writeBytes s [v]

/-- `serialize_u32`: `v.to_be_bytes()`.  The argument is a Rust `u32`, i.e.
already reduced mod `2^32`; the reduction here makes the model total on
`Nat` and is the identity at every call site except the `as u32` cast in
`Message::serialize`, where Rust also truncates. -/
def serializeU32 (s : Serializer) (v : Nat) : Except CpError Serializer :=
  writeBytes s (be32 (v % 2 ^ 32))

/-- `serialize_str` (cp/ser.rs lines 121–132): reject byte lengths above
`u32::MAX` with `Error::Message(..)`, else write the 4-byte big-endian
length then the bytes. -/
def serializeStr (s : Serializer) (str : List Nat) : Except CpError Serializer :=
  if u32Max < str.length then .error .message
  else do
    let s ← serializeU32 s str.length
    writeBytes s str

/-- `serialize_none` / `serialize_some` for `Option<String>`: a one-byte
tag `0`/`1`, then the string if present. -/
def serializeOptionStr (s : Serializer) : Option (List Nat) → Except CpError Serializer
  | none => writeBytes s [0]
  | some v => do
    let s ← writeBytes s [1]
    serializeStr s v

/-- `impl Serialize for StatusCode` (cp/mod.rs lines 480–490):
`serializer.serialize_u8(to_u8(self))`. -/
def serializeStatusCode (s : Serializer) (c : StatusCode) : Except CpError Serializer :=
  serializeU8 s c.toU8

/-- `impl Serialize for MessagePayload` together with `serialize_content`
(cp/mod.rs lines 311–399): a 2-tuple of the `MessageType` byte and the
derived encoding of the content struct (its fields in order). -/
def serializePayload (s : Serializer) (p : MessagePayload) : Except CpError Serializer := do
  let s ← serializeU8 s (msgTypeByte p)
  match p with
  | .reqSet key value => do
    let s ← serializeStr s key
    serializeStr s value
  | .reqGet key => serializeStr s key
  | .reqRemove key => serializeStr s key
  | .respSet code => serializeStatusCode s code
  | .respGet code value => do
    let s ← serializeStatusCode s code
    serializeOptionStr s value
  | .respRemove code => serializeStatusCode s code

/-- `ser::calc_len` restricted to a `MessagePayload`, i.e. the byte count
accumulated by `SizeSerializer` (cp/ser.rs lines 403–615): `u8` counts 1,
`u32` counts 4, a string counts `4 + len`, an option counts 1 plus its
content.  `SizeSerializer::serialize_str` performs no `u32::MAX` bound
check and never fails on these shapes, so the model is a total function. -/
def calcLenPayload : MessagePayload → Nat
  | .reqSet key value => 1 + (4 + key.length) + (4 + value.length)
  | .reqGet key => 1 + (4 + key.length)
  | .reqRemove key => 1 + (4 + key.length)
  | .respSet _ => 1 + 1
  | .respGet _ value =>
    1 + 1 + (match value with
      | none => 1
      | some v => 1 + (4 + v.length))
  | .respRemove _ => 1 + 1

/-- `ser::calc_len` applied to a whole `Message` (as the server and client
do to size their write buffers): header (1 + 4) plus the payload length. -/
def calcLenMessage (p : MessagePayload) : Nat :=
  5 + calcLenPayload p

/-- `impl Serialize for Message` (cp/mod.rs lines 326–339): a 3-tuple of
`PROTOCOL_VERSION`, `calc_len(&self.payload) as u32`, and the payload. -/
def serializeMessage (s : Serializer) (p : MessagePayload) : Except CpError Serializer := do
  let s ← serializeU8 s PROTOCOL_VERSION
  let s ← serializeU32 s (calcLenPayload p)
  serializePayload s p

/-- `ser::to_bytes` (cp/ser.rs lines 25–32) applied to a `Message` whose
payload is `p`, into a caller buffer of length `bufLen`; the result is the
byte list written (the caller reads back exactly the bytes it sized the
buffer for). -/
def toBytesMessage (p : MessagePayload) (bufLen : Nat) : Except CpError (List Nat) :=
  (serializeMessage ⟨bufLen, []⟩ p).map (·.out)

/-- The state of `de::Deserializer<'de>`: the input buffer and the read
cursor `rd_idx`. -/
structure Deserializer where
  buf : List Nat
  rdIdx : Nat
  deriving DecidableEq, Repr

/-- `Deserializer::read_byte` (cp/de.rs lines 18–27). -/
def readByte (d : Deserializer) : Except CpError (Nat × Deserializer) :=
  if h : d.rdIdx < d.buf.length then
    .ok (d.buf.get ⟨d.rdIdx, h⟩, ⟨d.buf, d.rdIdx + 1⟩)
  else
    .error .eof

/-- `Deserializer::read_bytes` (cp/de.rs lines 29–38). -/
def readBytes (d : Deserializer) (len : Nat) : Except CpError (List Nat × Deserializer) :=
  if d.rdIdx + len ≤ d.buf.length then
    .ok ((d.buf.drop d.rdIdx).take len, ⟨d.buf, d.rdIdx + len⟩)
  else
    .error .eof

/-- `Deserializer::read_u32` (cp/de.rs lines 53–64): four bytes,
`u32::from_be_bytes`. -/
def readU32 (d : Deserializer) : Except CpError (Nat × Deserializer) :=
  (readBytes d 4).map (fun r => (bytesToNatBE r.1, r.2))

/-- `deserialize_string` (cp/de.rs lines 224–234): a 4-byte big-endian
length, then that many bytes.  The `from_utf8` validation is modelled as
the identity on the bytes (see the header comment). -/
def deserializeString (d : Deserializer) : Except CpError (List Nat × Deserializer) := do
  let (len, d) ← readU32 d
  readBytes d len

/-- `impl Deserialize for StatusCode` (cp/mod.rs lines 492–521):
`deserialize_u8`, then `from_u8`, with `invalid_value` (an
`Error::Message`) on an unknown discriminant. -/
def deserializeStatusCode (d : Deserializer) : Except CpError (StatusCode × Deserializer) := do
  let (v, d) ← readByte d
  match statusCodeFromU8 v with
  | some c => .ok (c, d)
  | none => .error .message

/-- `deserialize_option` (cp/de.rs lines 255–264) at `Option<String>`:
tag byte `0` is none, `1` is some, anything else is an `Error::Message`. -/
def deserializeOptionString (d : Deserializer) :
    Except CpError (Option (List Nat) × Deserializer) := do
  let (tag, d) ← readByte d
  if tag = 0 then .ok (none, d)
  else if tag = 1 then
    let (v, d) ← deserializeString d
    .ok (some v, d)
  else .error .message

/-- `impl Deserialize for MessagePayload` (cp/mod.rs lines 420–478): read
the `MessageType` byte, dispatch on it to the derived field-by-field
decoder of the matching content struct; an unknown discriminant is an
`invalid_type` custom error (`Error::Message`). -/
def deserializePayload (d : Deserializer) :
    Except CpError (MessagePayload × Deserializer) := do
  let (t, d) ← readByte d
  if t = 0x00 then
    let (key, d) ← deserializeString d
    let (value, d) ← deserializeString d
    .ok (.reqSet key value, d)
  else if t = 0x01 then
    let (key, d) ← deserializeString d
    .ok (.reqGet key, d)
  else if t = 0x02 then
    let (key, d) ← deserializeString d
    .ok (.reqRemove key, d)
  else if t = 0x80 then
    let (code, d) ← deserializeStatusCode d
    .ok (.respSet code, d)
  else if t = 0x81 then
    let (code, d) ← deserializeStatusCode d
    let (value, d) ← deserializeOptionString d
    .ok (.respGet code value, d)
  else if t = 0x82 then
    let (code, d) ← deserializeStatusCode d
    .ok (.respRemove code, d)
  else .error .message

/-- The derived `Deserialize` of `Header` (cp/mod.rs lines 32–36): a `u8`
`protocol_version` and a `u32` `payload_length`, read field by field.
No comparison against `PROTOCOL_VERSION` is performed anywhere on this
path. -/
def deserializeHeader (d : Deserializer) :
    Except CpError ((Nat × Nat) × Deserializer) := do
  let (ver, d) ← readByte d
  let (len, d) ← readU32 d
  .ok ((ver, len), d)

/-- `impl Deserialize for Message` (cp/mod.rs lines 341–372) composed with
`de::from_bytes` (cp/de.rs lines 106–112): read a `Header` (whose values
are dropped without any check), then a `MessagePayload`; a `Message` holds
only the payload. -/
def fromBytesMessage (bytes : List Nat) : Except CpError MessagePayload := do
  let (_, d) ← deserializeHeader ⟨bytes, 0⟩
  let (p, _) ← deserializePayload d
  .ok p

/-- `de::from_bytes::<Header>` on a header buffer, returning the decoded
`(protocol_version, payload_length)` pair. -/
def fromBytesHeader (bytes : List Nat) : Except CpError (Nat × Nat) :=
  (deserializeHeader ⟨bytes, 0⟩).map (·.1)

/-- `KvServer::recv_payload` (kvserver.rs lines 388–397) and the verbatim
`KvClient::recv_payload` (kvclient.rs lines 152–161), with the TCP stream
modelled as the byte list it delivers: `read_exact` 5 header bytes
(an `std::io::Error`, hence `Error::IoError`, if the stream is short),
decode the `Header`, `read_exact` `payload_length` bytes, and decode the
payload from exactly those bytes. -/
def recvPayload (stream : List Nat) : Except CpError MessagePayload :=
  if stream.length < HEADER_SIZE then .error .ioErr
  else
    match fromBytesHeader (stream.take HEADER_SIZE) with
    | .error e => .error e
    | .ok (_, payloadLen) =>
      if (stream.drop HEADER_SIZE).length < payloadLen then .error .ioErr
      else
        (deserializePayload ⟨(stream.drop HEADER_SIZE).take payloadLen, 0⟩).map (·.1)

/-- Sequential composition of `write_bytes` calls: running a serializer
program that is a plain sequence of chunk writes.  Every serializer method
used by a `Message` bottoms out in `write_bytes`, so each payload's
encoding is provably equal to `writeAll` of its chunk list (once the
string-length guards are discharged). -/
def writeAll (s : Serializer) : List (List Nat) → Except CpError Serializer
  | [] => .ok s
  | c :: cs => do
    let s ← writeBytes s c
    writeAll s cs

/-- The chunk sequence written for a payload by `serializePayload`. -/
def payloadChunks : MessagePayload → List (List Nat)
  | .reqSet key value =>
    [[0x00], be32 key.length, key, be32 value.length, value]
  | .reqGet key => [[0x01], be32 key.length, key]
  | .reqRemove key => [[0x02], be32 key.length, key]
  | .respSet code => [[0x80], [code.toU8]]
  | .respGet code value =>
    [[0x81], [code.toU8]] ++
      (match value with
       | none => [[0]]
       | some v => [[1], be32 v.length, v])
  | .respRemove code => [[0x82], [code.toU8]]

/-- The chunk sequence written for a whole `Message`. -/
def messageChunks (p : MessagePayload) : List (List Nat) :=
  [[PROTOCOL_VERSION], be32 (calcLenPayload p % 2 ^ 32)] ++ payloadChunks p

/-- The byte list obtained by concatenating a chunk sequence in order. -/
def chunksBytes (chunks : List (List Nat)) : List Nat :=
  chunks.foldr (fun c acc => c ++ acc) []

/-- Every string field of the payload fits the protocol's 32-bit length
fields (`≤ u32::MAX` bytes).  This is the bound §1 of the spec imposes on
keys and values; `Serializer::serialize_str` enforces it at encode time. -/
def PayloadFits : MessagePayload → Prop
  | .reqSet key value => key.length ≤ u32Max ∧ value.length ≤ u32Max
  | .reqGet key => key.length ≤ u32Max
  | .reqRemove key => key.length ≤ u32Max
  | .respSet _ => True
  | .respGet _ value =>
    (match value with
     | none => True
     | some v => v.length ≤ u32Max)
  | .respRemove _ => True

instance : DecidablePred PayloadFits := by
  intro p
  cases p with
  | reqSet key value => exact inferInstanceAs (Decidable (_ ∧ _))
  | reqGet key => exact inferInstanceAs (Decidable (_ ≤ _))
  | reqRemove key => exact inferInstanceAs (Decidable (_ ≤ _))
  | respSet code => exact inferInstanceAs (Decidable True)
  | respGet code value =>
    cases value with
    | none => exact inferInstanceAs (Decidable True)
    | some v => exact inferInstanceAs (Decidable (_ ≤ _))
  | respRemove code => exact inferInstanceAs (Decidable True)

/-! ## Part 2: the storage engine (src/kvstore.rs)

Keys and values are Rust `String`s, modelled by their UTF-8 byte lists.
Records are appended with `bincode::serialize` under bincode 1.x's default
(legacy) options: little-endian, fixed-width integers, trailing bytes
allowed on deserialize.  An enum variant index is a 4-byte `u32`, a string
is an 8-byte `u64` byte length followed by the bytes. -/

/-- `enum Command { Set { key, value }, Remove { key } }` (kvstore.rs). -/
inductive Command where
  | set (key value : List Nat)
  | remove (key : List Nat)
  deriving DecidableEq, Repr

/-- The key of a command. -/
def Command.key : Command → List Nat
  | .set k _ => k
  | .remove k => k

/-- Little-endian 4-byte encoding (bincode fixed-width `u32`). -/
def le32 (n : Nat) : List Nat :=
  [n % 256, n / 2 ^ 8 % 256, n / 2 ^ 16 % 256, n / 2 ^ 24 % 256]

/-- Little-endian 8-byte encoding (bincode fixed-width `u64`). -/
def le64 (n : Nat) : List Nat :=
  [n % 256, n / 2 ^ 8 % 256, n / 2 ^ 16 % 256, n / 2 ^ 24 % 256,
   n / 2 ^ 32 % 256, n / 2 ^ 40 % 256, n / 2 ^ 48 % 256, n / 2 ^ 56 % 256]

/-- Little-endian reassembly (`u64::from_le_bytes`). -/
def bytesToNatLE (l : List Nat) : Nat :=
  l.foldr (fun b a => a * 256 + b) 0

/-- `bincode::serialize(&cmd)`: variant index (`u32`), then the fields
(strings as `u64` length plus bytes). -/
def bincodeSerialize : Command → List Nat
  | .set key value =>
    le32 0 ++ le64 key.length ++ key ++ le64 value.length ++ value
  | .remove key => le32 1 ++ le64 key.length ++ key

/-- The two classes of `bincode::Error` the engine distinguishes:
`ErrorKind::Io` with `UnexpectedEof` (tolerated at a log tail) versus every
other decode error (fatal). -/
inductive BincodeErr where
  | eof
  | other
  deriving DecidableEq, Repr

/-- Read `n` leading bytes of the stream or fail with end-of-input. -/
def binTake (n : Nat) (l : List Nat) : Except BincodeErr (List Nat × List Nat) :=
  if n ≤ l.length then .ok (l.take n, l.drop n) else .error .eof

/-- Decode a bincode string: `u64` length, then that many bytes.  UTF-8
validation by `String`'s deserializer is modelled as the identity (see the
header comment); an actual UTF-8 failure in Rust would be a non-`Io`
bincode error, which every caller in kvstore.rs treats as fatal. -/
def binReadString (l : List Nat) : Except BincodeErr (List Nat × List Nat) := do
  let (lenBytes, l) ← binTake 8 l
  binTake (bytesToNatLE lenBytes) l

/-- `bincode::deserialize::<Command>` on the leading bytes of a stream:
variant index, then the fields; unknown variant indices are a non-`Io`
(fatal) error; running out of bytes is `UnexpectedEof`.  Returns the
decoded command and the unconsumed remainder (bincode's legacy options
allow trailing bytes). -/
def bincodeDeserialize (l : List Nat) : Except BincodeErr (Command × List Nat) := do
  let (tagBytes, l) ← binTake 4 l
  let tag := bytesToNatLE tagBytes
  if tag = 0 then
    let (key, l) ← binReadString l
    let (value, l) ← binReadString l
    .ok (.set key value, l)
  else if tag = 1 then
    let (key, l) ← binReadString l
    .ok (.remove key, l)
  else .error .other

/-- Result of scanning one log file record by record (the
`bincode::deserialize_from` loops in `build_index` and `do_compaction`):
either the decoded `(offset, command)` list together with the offset at
which decoding stopped with `UnexpectedEof`, or a fatal decode error. -/
inductive ScanOut where
  | ok (records : List (Nat × Command)) (stop : Nat)
  | fatal
  deriving DecidableEq, Repr

/-- One record-scanning loop, structurally recursive on explicit fuel
(any fuel larger than the byte count is enough, since every decoded record
consumes at least four bytes). -/
def scanAux : Nat → List Nat → Nat → ScanOut
  | 0, _, _ => .fatal
  | fuel + 1, rem, off =>
    match bincodeDeserialize rem with
    | .error .eof => .ok [] off
    | .error .other => .fatal
    | .ok (c, rest) =>
      match scanAux fuel rest (off + (rem.length - rest.length)) with
      | .ok records stop => .ok ((off, c) :: records) stop
      | .fatal => .fatal

/-- Scan a whole log file from offset 0. -/
def scanFile (content : List Nat) : ScanOut :=
  scanAux (content.length + 1) content 0

/-- The records of a log file (empty on a fatal scan). -/
def recordsOf (content : List Nat) : List (Nat × Command) :=
  match scanFile content with
  | .ok records _ => records
  | .fatal => []

/-- The offset at which scanning a log file stopped. -/
def scanStop (content : List Nat) : Nat :=
  match scanFile content with
  | .ok _ stop => stop
  | .fatal => 0

/-- Whether scanning a log file succeeds (its tail may be a partial
record). -/
def scanOk (content : List Nat) : Bool :=
  match scanFile content with
  | .ok _ _ => true
  | .fatal => false

/-- `struct CommandIndex { log_id: u64, offset: u64, len: u64 }`
(kvstore.rs lines 59–64). -/
structure CommandIndex where
  log_id : Nat
  offset : Nat
  len : Nat
  deriving DecidableEq, Repr

/-- The writer-relevant fields of `struct LogFileWriter` (kvstore.rs lines
74–80); the `File` handle itself is represented by the file map of the
state. -/
structure LogFileWriter where
  id : Nat
  cmd_counter : Nat
  offset : Nat
  deriving DecidableEq, Repr

/-- Errors of `enum KvStoreError` (error.rs) reachable from the modelled
operations. -/
inductive KvErr where
  /-- `KvStoreError::Bincode(_)`. -/
  | bincode
  /-- `KvStoreError::Io(_)`. -/
  | ioErrK
  /-- `KvStoreError::RemoveNonExistentKey`. -/
  | removeNonExistentKey
  /-- `KvStoreError::WrongFileOffset`. -/
  | wrongFileOffset
  deriving DecidableEq, Repr

/-- The sequential state of a `KvStore` handle together with the data
directory it owns.  `files` is the directory: one `(log id, contents)`
entry per `db<12-digit-id>.log` file, kept in ascending id order (the
directory listing in `list_log_ids_files_sorted` sorts by file name, which
for the zero-padded names coincides with id order).  `io_ok = false`
models an underlying file system whose writes fail with an
`std::io::Error` (used for the failure-semantics claims); reads of
existing files are assumed to succeed. -/
structure KvState where
  /-- The concurrent index map, modelled as an association list with
  pairwise-distinct keys. -/
  storage_index : List (List Nat × CommandIndex)
  /-- The data directory contents. -/
  files : List (Nat × List Nat)
  /-- `WriterControlData::curr_log`. -/
  curr_log : LogFileWriter
  /-- `WriterControlData::total_cmd_counter`. -/
  total_cmd_counter : Nat
  /-- The id of the segment the cached `curr_log_r : LogFileReader`
  currently has open. -/
  curr_log_r : Nat
  /-- `last_collected_file_index : AtomicI64`. -/
  last_collected_file_index : Int
  /-- Whether appends to the data directory succeed. -/
  io_ok : Bool
  deriving DecidableEq, Repr

/-- Look a file up by id in the directory. -/
def fileLookup (files : List (Nat × List Nat)) (id : Nat) : Option (List Nat) :=
  (files.find? (fun f => f.1 = id)).map (·.2)

/-- Append bytes to the file with the given id (the handle the writer holds
is open in append mode). -/
def fileAppendBytes (files : List (Nat × List Nat)) (id : Nat) (bytes : List Nat) :
    List (Nat × List Nat) :=
  files.map (fun f => if f.1 = id then (f.1, f.2 ++ bytes) else f)

/-- Remove the file with the given id (`fs::remove_file`). -/
def fileDelete (files : List (Nat × List Nat)) (id : Nat) : List (Nat × List Nat) :=
  files.filter (fun f => ¬ f.1 = id)

/-- Index lookup (`storage_index.get`). -/
def idxLookup (idx : List (List Nat × CommandIndex)) (k : List Nat) : Option CommandIndex :=
  (idx.find? (fun e => e.1 = k)).map (·.2)

/-- Index insert (`storage_index.insert`): replace the binding if the key
is present, else add it. -/
def idxInsert (idx : List (List Nat × CommandIndex)) (k : List Nat) (ci : CommandIndex) :
    List (List Nat × CommandIndex) :=
  if idx.any (fun e => e.1 = k) then
    idx.map (fun e => if e.1 = k then (k, ci) else e)
  else
    idx ++ [(k, ci)]

/-- Index removal (`storage_index.remove`). -/
def idxRemove (idx : List (List Nat × CommandIndex)) (k : List Nat) :
    List (List Nat × CommandIndex) :=
  idx.filter (fun e => ¬ e.1 = k)

/-- `CMD_KEY_FACTOR: f64 = 1.5` enters only through the comparison
`(total/keys as f64) > 1.5`, which for the exactly-represented `u64`
quotient is equivalent to `2 ≤ total / keys`; `CMDS_THRESHOLD: u64 =
10000`; `CURR_FILE_OFFSET_THRESHOLD: u64 = 1073741824`. -/
def CMDS_THRESHOLD : Nat := 10000

/-- `CURR_FILE_OFFSET_THRESHOLD` (kvstore.rs line 36). -/
def CURR_FILE_OFFSET_THRESHOLD : Nat := 1073741824

/-- `LogFileWriter::append_cmd` (kvstore.rs lines 136–144): serialize,
`write_all` + `flush` (failing with an `io` error when the file system
does), then advance `offset` and `cmd_counter` by the serialized length
and one.  On failure nothing has been written and no field is updated. -/
def appendCmd (st : KvState) (cmd : Command) : Except KvErr Nat × KvState :=
  if st.io_ok then
    let bytes := bincodeSerialize cmd
    (.ok bytes.length,
      { st with
        files := fileAppendBytes st.files st.curr_log.id bytes
        curr_log :=
          { st.curr_log with
            offset := st.curr_log.offset + bytes.length
            cmd_counter := st.curr_log.cmd_counter + 1 } })
  else
    (.error .ioErrK, st)

/-- `KvStore::write_cmd_to_curr_log` (kvstore.rs lines 338–347): append,
then bump the total command counter. -/
def write_cmd_to_curr_log (st : KvState) (cmd : Command) : Except KvErr Nat × KvState :=
  match appendCmd st cmd with
  | (.ok n, st1) =>
    (.ok n, { st1 with total_cmd_counter := st1.total_cmd_counter + 1 })
  | (.error e, st1) => (.error e, st1)

/-- `KvStore::insert_entry` (kvstore.rs lines 514–539): record the active
segment id and current offset, append the `Set` record, and only after the
write has returned insert the `CommandIndex` into the index. -/
def insert_entry (st : KvState) (key value : List Nat) : Except KvErr Unit × KvState :=
  let log_id := st.curr_log.id
  let offset := st.curr_log.offset
  match write_cmd_to_curr_log st (.set key value) with
  | (.ok len, st1) =>
    (.ok (),
      { st1 with storage_index := idxInsert st1.storage_index key ⟨log_id, offset, len⟩ })
  | (.error e, st1) => (.error e, st1)

/-- `KvStore::_set` (kvstore.rs lines 431–436). -/
def kvSet (st : KvState) (key value : List Nat) : Except KvErr Unit × KvState :=
  insert_entry st key value

/-- `KvStore::read_value_from_log_at` (kvstore.rs lines 350–371).  The
method loads the cached reader into the local borrow `curr_log_r`; when
the requested `log_id` differs from the cached reader's id it opens a
reader for `log_id` and stores it into the cache — but the subsequent
`read_cmd_at` goes through the *old* borrow, i.e. reads the previously
cached segment's file.  (`LogFileReader::open` fails with an `io` error if
the segment file does not exist.  A still-open handle to a file already
deleted by compaction keeps the old bytes readable under POSIX; no claim
exercises that corner, and the model returns an `io` error if the cached
segment's file is gone.) -/
def read_value_from_log_at (st : KvState) (log_id offset len : Nat) :
    Except KvErr (List Nat) × KvState :=
  let oldId := st.curr_log_r
  let step :=
    if log_id ≠ oldId then
      match fileLookup st.files log_id with
      | none => none
      | some _ => some { st with curr_log_r := log_id }
    else some st
  match step with
  | none => (.error .ioErrK, st)
  | some st1 =>
    match fileLookup st1.files oldId with
    | none => (.error .ioErrK, st1)
    | some content =>
      if offset + len ≤ content.length then
        match bincodeDeserialize ((content.drop offset).take len) with
        | .ok (.set _ value, _) => (.ok value, st1)
        | .ok (.remove _, _) => (.error .wrongFileOffset, st1)
        | .error _ => (.error .bincode, st1)
      else
        (.error .ioErrK, st1)

/-- `KvStore::_get` (kvstore.rs lines 438–449): clone the index entry if
present and read the value at the recorded location; a miss is
`Ok(None)`. -/
def kvGet (st : KvState) (key : List Nat) : Except KvErr (Option (List Nat)) × KvState :=
  match idxLookup st.storage_index key with
  | none => (.ok none, st)
  | some ci =>
    match read_value_from_log_at st ci.log_id ci.offset ci.len with
    | (.ok v, st1) => (.ok (some v), st1)
    | (.error e, st1) => (.error e, st1)

/-- `KvStore::_remove` (kvstore.rs lines 451–460): remove the key from the
index first; a miss is `RemoveNonExistentKey`; on a hit append the
`Remove` record afterwards (so a failing append leaves the key already
evicted). -/
def kvRemove (st : KvState) (key : List Nat) : Except KvErr Unit × KvState :=
  match idxLookup st.storage_index key with
  | none => (.error .removeNonExistentKey, st)
  | some _ =>
    let st1 := { st with storage_index := idxRemove st.storage_index key }
    match write_cmd_to_curr_log st1 (.remove key) with
    | (.ok _, st2) => (.ok (), st2)
    | (.error e, st2) => (.error e, st2)

/-- `KvStore::should_run_compaction` (kvstore.rs lines 239–246):
`total > CMDS_THRESHOLD && (total / index.len()) as f64 > CMD_KEY_FACTOR`.
`&&` short-circuits, so the `u64` division only runs when `total > 10000`;
dividing by an empty index's length 0 is a Rust panic, modelled as `none`.
The cast of the quotient to `f64` is exact below `2^53` and the comparison
with `1.5` is `≥ 2` on integers (for quotients at or above `2^53` the cast
rounds among integers `≥ 2^52`, which compare above `1.5` all the same). -/
def should_run_compaction (st : KvState) : Option Bool :=
  if st.total_cmd_counter ≤ CMDS_THRESHOLD then some false
  else if st.storage_index.length = 0 then none
  else some (2 ≤ st.total_cmd_counter / st.storage_index.length)

/-- `KvStore::should_create_new_file` (kvstore.rs lines 249–256). -/
def should_create_new_file (st : KvState) : Bool :=
  CURR_FILE_OFFSET_THRESHOLD < st.curr_log.offset
    || CMDS_THRESHOLD / 2 < st.curr_log.cmd_counter

/-- `KvStore::do_create_new_file` with `LogFileWriter::open_another`
(kvstore.rs lines 260–269 and 107–119): open (creating if absent) the file
of id `curr + 1` in append mode and reset the writer to it with
`cmd_counter = 0`, `offset = 0`. -/
def do_create_new_file (st : KvState) : Except KvErr Unit × KvState :=
  if st.io_ok then
    let newId := st.curr_log.id + 1
    let files' :=
      match fileLookup st.files newId with
      | none => st.files ++ [(newId, [])]
      | some _ => st.files
    (.ok (), { st with files := files', curr_log := ⟨newId, 0, 0⟩ })
  else
    (.error .ioErrK, st)

/-- The offsets of index entries pointing into the given segment, i.e. the
set `get_active_file_id_offsets_map(..).get(&log_id)` (kvstore.rs lines
501–512) built from an index snapshot. -/
def activeOffsetsFor (idx : List (List Nat × CommandIndex)) (fid : Nat) : List Nat :=
  (idx.filter (fun e => e.2.log_id = fid)).map (·.2.offset)

/-- The inner loop of `do_compaction` (kvstore.rs lines 302–326) over one
sealed segment's bytes: decode records in sequence; every decoded record
bumps the per-file counter; a `Set` whose offset is in the active-offset
set is re-appended through `insert_entry`; decode `UnexpectedEof` ends the
file normally, any other decode error (or a failed re-append) aborts
compaction with the error.  Structural recursion on fuel, as in
`scanAux`. -/
def compactScan (fuel : Nat) (rem : List Nat) (off : Nat) (active : List Nat)
    (counter : Nat) (st : KvState) : Except KvErr Nat × KvState :=
  match fuel with
  | 0 => (.error .bincode, st)
  | fuel + 1 =>
    match bincodeDeserialize rem with
    | .error .eof => (.ok counter, st)
    | .error .other => (.error .bincode, st)
    | .ok (c, rest) =>
      let n := rem.length - rest.length
      match c with
      | .set key value =>
        if off ∈ active then
          match insert_entry st key value with
          | (.ok _, st1) => compactScan fuel rest (off + n) active (counter + 1) st1
          | (.error e, st1) => (.error e, st1)
        else
          compactScan fuel rest (off + n) active (counter + 1) st
      | .remove _ =>
        compactScan fuel rest (off + n) active (counter + 1) st

/-- The outer loop of `do_compaction` (kvstore.rs lines 292–332) over the
selected sealed segment ids: open and scan each segment's current file
(an `io` error if it is gone), then subtract its record count from the
total, advance the watermark, and delete the file. -/
def processFiles (idx0 : List (List Nat × CommandIndex)) :
    List Nat → KvState → Except KvErr Unit × KvState
  | [], st => (.ok (), st)
  | fid :: rest, st =>
    match fileLookup st.files fid with
    | none => (.error .ioErrK, st)
    | some content =>
      match compactScan (content.length + 1) content 0 (activeOffsetsFor idx0 fid) 0 st with
      | (.error e, st1) => (.error e, st1)
      | (.ok counter, st1) =>
        let st2 :=
          { st1 with
            total_cmd_counter := st1.total_cmd_counter - counter
            last_collected_file_index := (fid : Int)
            files := fileDelete st1.files fid }
        processFiles idx0 rest st2

/-- `KvStore::do_compaction` (kvstore.rs lines 277–335): snapshot the
active-offset map and the selection bounds, list the sealed segments with
`last_collected_file_index < id < curr_log.id` in ascending order, and
process them in turn. -/
def do_compaction (st : KvState) : Except KvErr Unit × KvState :=
  let idx0 := st.storage_index
  let currId := st.curr_log.id
  let watermark := st.last_collected_file_index
  let selected :=
    (st.files.filter (fun f => f.1 < currId ∧ watermark < (f.1 : Int))).map (·.1)
  processFiles idx0 selected st

/-- `KvStore::_compact` (kvstore.rs lines 541–552): roll the active
segment over if warranted, then run compaction if warranted.  `none` is
the division-by-zero panic inside `should_run_compaction`. -/
def kvCompact (st : KvState) : Option (Except KvErr Unit × KvState) :=
  match (if should_create_new_file st then do_create_new_file st else (.ok (), st)) with
  | (.error e, st1) => some (.error e, st1)
  | (.ok _, st1) =>
    match should_run_compaction st1 with
    | none => none
    | some true => some (do_compaction st1)
    | some false => some (.ok (), st1)

/-- One step of the `build_index` replay (kvstore.rs lines 396–425): a
`Set` is inserted into the index under its start offset with
`len = bincode::serialized_size(&cmd)`; a `Remove` evicts the key; both
bump the total and per-file counters.  The accumulator is
`(index, total_cmds_counter, cmd_counter)`. -/
def replayRecord (log_id : Nat)
    (acc : List (List Nat × CommandIndex) × Nat × Nat) (rec : Nat × Command) :
    List (List Nat × CommandIndex) × Nat × Nat :=
  match rec.2 with
  | .set key value =>
    (idxInsert acc.1 key ⟨log_id, rec.1, (bincodeSerialize (.set key value)).length⟩,
      acc.2.1 + 1, acc.2.2 + 1)
  | .remove key => (idxRemove acc.1 key, acc.2.1 + 1, acc.2.2 + 1)

/-- `KvStore::build_index` (kvstore.rs lines 376–429): scan the log files
in ascending id order, replaying each decoded record; decoding that stops
with `UnexpectedEof` moves on to the next file, any other decode error
aborts.  Returns `(index, total_cmds_counter, curr_log_id, cmd_counter)`
where `curr_log_id`/`cmd_counter` describe the last file scanned (0 and 0
when the directory has no log files). -/
def build_index (disk : List (Nat × List Nat)) :
    Except KvErr (List (List Nat × CommandIndex) × Nat × Nat × Nat) :=
  disk.foldlM
    (fun acc f =>
      match scanFile f.2 with
      | .fatal => .error .bincode
      | .ok records _ =>
        let r := records.foldl (replayRecord f.1) (acc.1, acc.2.1, 0)
        .ok (r.1, r.2.1, f.1, r.2.2))
    ([], 0, 0, 0)

/-- `KvStore::open` (kvstore.rs lines 210–236): build the index, open the
file of the resulting `log_id` for append — `LogFileWriter::open` creates
it if absent and seeks to `SeekFrom::End(0)`, so the writer offset is the
existing file length — open the cached reader on the same segment, and
set the compaction watermark to `log_id - 1`. -/
def openStore (disk : List (Nat × List Nat)) : Except KvErr KvState := do
  let (idx, total, logId, cmdCounter) ← build_index disk
  let files :=
    match fileLookup disk logId with
    | none => disk ++ [(logId, [])]
    | some _ => disk
  let offset := ((fileLookup files logId).getD []).length
  .ok
    { storage_index := idx
      files := files
      curr_log := ⟨logId, cmdCounter, offset⟩
      total_cmd_counter := total
      curr_log_r := logId
      last_collected_file_index := (logId : Int) - 1
      io_ok := true }

/-! ### Well-formedness and the index invariant (claims C2 and C8)

`WfCmd` bounds string lengths by what a Rust `String` can hold (`usize`,
at most `2^64 - 1` bytes); `bytesLt` states that a modelled byte list
consists of actual bytes.  A log file written by the engine is a
concatenation of bincode-encoded commands; `WfFile` states this through
the scanner (scanning succeeds and consumes the whole file), and
`ScanTolerant` is the weaker condition of claim C8 (scanning succeeds but
may stop before the end, at a trailing partial record). -/

/-- Rust strings hold at most `usize::MAX < 2^64` bytes. -/
def WfCmd : Command → Prop
  | .set key value => key.length < 2 ^ 64 ∧ value.length < 2 ^ 64
  | .remove key => key.length < 2 ^ 64

instance : DecidablePred WfCmd := by
  intro c
  cases c with
  | set key value => exact inferInstanceAs (Decidable (_ ∧ _))
  | remove key => exact inferInstanceAs (Decidable (_ < _))

/-- Every command of the list is well formed. -/
def WfCmds (cmds : List Command) : Prop := ∀ c ∈ cmds, WfCmd c

/-- The string fields of the command consist of byte values (every Rust
`String` does). -/
def CmdBytesOk : Command → Prop
  | .set key value => (∀ b ∈ key, b < 256) ∧ ∀ b ∈ value, b < 256
  | .remove key => ∀ b ∈ key, b < 256

instance : DecidablePred CmdBytesOk := by
  intro c
  cases c with
  | set key value => exact inferInstanceAs (Decidable (_ ∧ _))
  | remove key => exact inferInstanceAs (Decidable (∀ b ∈ key, b < 256))

/-- The bytes of the log file holding the given commands in order. -/
def cmdsBytes (cmds : List Command) : List Nat :=
  cmds.foldr (fun c acc => bincodeSerialize c ++ acc) []

/-- The `(offset, command)` records of a file holding `cmds`, the first at
the given offset. -/
def recordsFrom : Nat → List Command → List (Nat × Command)
  | _, [] => []
  | off, c :: cs => (off, c) :: recordsFrom (off + (bincodeSerialize c).length) cs

/-- All members are byte values. -/
def bytesLt (l : List Nat) : Prop := ∀ b ∈ l, b < 256

instance : DecidablePred bytesLt := by
  intro l
  exact inferInstanceAs (Decidable (∀ b ∈ l, b < 256))

/-- The file scans fully: it is a dense sequence of records. -/
def WfFile (content : List Nat) : Prop :=
  scanOk content = true ∧ scanStop content = content.length ∧ bytesLt content

instance : DecidablePred WfFile := by
  intro l
  exact inferInstanceAs (Decidable (_ ∧ _ ∧ _))

/-- The file scans, possibly stopping early at a trailing partial
record. -/
def ScanTolerant (content : List Nat) : Prop :=
  scanOk content = true ∧ bytesLt content

instance : DecidablePred ScanTolerant := by
  intro l
  exact inferInstanceAs (Decidable (_ ∧ _))

/-- A data directory of fully well-formed segments, listed in ascending id
order with no duplicate ids (the on-disk names `db<12-digit-id>.log` sort
this way). -/
def WfDisk (disk : List (Nat × List Nat)) : Prop :=
  disk.Pairwise (fun a b => a.1 < b.1) ∧ ∀ f ∈ disk, WfFile f.2

instance : DecidablePred WfDisk := by
  intro l
  exact inferInstanceAs (Decidable (_ ∧ _))

/-- A data directory whose segments all scan, the last possibly ending in
a partial record. -/
def TolerantDisk (disk : List (Nat × List Nat)) : Prop :=
  disk.Pairwise (fun a b => a.1 < b.1) ∧ ∀ f ∈ disk, ScanTolerant f.2

instance : DecidablePred TolerantDisk := by
  intro l
  exact inferInstanceAs (Decidable (_ ∧ _))

/-- No record for key `k` on disk is later than the position named by
`ci`: every record whose key is `k` lies in a lower-id segment, or in the
same segment at an offset no greater than `ci.offset`. -/
def NoLaterRecord (files : List (Nat × List Nat)) (k : List Nat) (ci : CommandIndex) : Prop :=
  ∀ f ∈ files, ∀ r ∈ recordsOf (f : Nat × List Nat).2, (r : Nat × Command).2.key = k →
    f.1 < ci.log_id ∨ (f.1 = ci.log_id ∧ r.1 ≤ ci.offset)

/-- The index entry `(k, ci)` points at a live `Set k v` record: the named
segment exists, one of its records is `Set k v` at exactly `ci.offset`,
the stored length is that record's encoded length, and no later record
for `k` exists on disk. -/
def EntryOk (files : List (Nat × List Nat)) (k : List Nat) (ci : CommandIndex) : Prop :=
  ∃ content v,
    fileLookup files ci.log_id = some content ∧
    (ci.offset, Command.set k v) ∈ recordsOf content ∧
    WfCmd (.set k v) ∧ CmdBytesOk (.set k v) ∧
    ci.len = (bincodeSerialize (.set k v)).length ∧
    NoLaterRecord files k ci

/-- The engine invariant: the directory is sorted with well-formed
segments, the active segment exists and the writer offset is its length,
the active segment has the largest id, index keys are distinct, and every
index entry satisfies `EntryOk`.  (`curr_log_r`, the counters and the
compaction watermark are not constrained.) -/
structure Inv (st : KvState) : Prop where
  filesSorted : st.files.Pairwise (fun a b => a.1 < b.1)
  filesWf : ∀ f ∈ st.files, WfFile f.2
  active : ∃ c, fileLookup st.files st.curr_log.id = some c ∧ st.curr_log.offset = c.length
  maxId : ∀ f ∈ st.files, f.1 ≤ st.curr_log.id
  keysUnique : st.storage_index.Pairwise (fun a b => a.1 ≠ b.1)
  entries : ∀ e ∈ st.storage_index, EntryOk st.files (e : List Nat × CommandIndex).1 e.2

/-- The property claim C2 states: every index entry's byte range, in the
segment it names, decodes to a `Set` record for that key (consuming the
whole range), and no later record for the key exists on disk. -/
def IndexClaim (st : KvState) : Prop :=
  ∀ k ci, idxLookup st.storage_index k = some ci →
    ∃ content v,
      fileLookup st.files ci.log_id = some content ∧
      ci.offset + ci.len ≤ content.length ∧
      bincodeDeserialize ((content.drop ci.offset).take ci.len) = .ok (.set k v, []) ∧
      NoLaterRecord st.files k ci

/-- The engine operations of the public API, as invoked by callers after
`open`. -/
inductive Op where
  | opSet (key value : List Nat)
  | opGet (key : List Nat)
  | opRemove (key : List Nat)
  | opCompact
  deriving DecidableEq, Repr

/-- Apply one operation; results (`Ok` or a returned error) are discarded,
the successor state is kept; `none` is a panic inside `compact`. -/
def applyOp (st : KvState) : Op → Option KvState
  | .opSet key value => some (kvSet st key value).2
  | .opGet key => some (kvGet st key).2
  | .opRemove key => some (kvRemove st key).2
  | .opCompact => (kvCompact st).map (·.2)

/-- Run a sequence of operations, stopping at a panic. -/
def runOps (st : KvState) : List Op → Option KvState
  | [] => some st
  | op :: ops =>
    match applyOp st op with
    | none => none
    | some st1 => runOps st1 ops

/-- Open a directory and run a sequence of operations. -/
def openRun (disk : List (Nat × List Nat)) (ops : List Op) : Option KvState :=
  match openStore disk with
  | .error _ => none
  | .ok st => runOps st ops

/-- Keys and values passed to the API are Rust strings: byte lists of
byte values, at most `usize::MAX < 2^64` long. -/
def WfOp : Op → Prop
  | .opSet key value =>
    (key.length < 2 ^ 64 ∧ bytesLt key) ∧ value.length < 2 ^ 64 ∧ bytesLt value
  | .opGet key => key.length < 2 ^ 64 ∧ bytesLt key
  | .opRemove key => key.length < 2 ^ 64 ∧ bytesLt key
  | .opCompact => True

instance : DecidablePred WfOp := by
  intro op
  cases op with
  | opSet key value => exact inferInstanceAs (Decidable (_ ∧ _))
  | opGet key => exact inferInstanceAs (Decidable (_ ∧ _))
  | opRemove key => exact inferInstanceAs (Decidable (_ ∧ _))
  | opCompact => exact inferInstanceAs (Decidable True)

/-- Every operation of the list is well formed. -/
def WfOps (ops : List Op) : Prop := ∀ op ∈ ops, WfOp op

instance : DecidablePred WfOps := by
  intro ops
  exact inferInstanceAs (Decidable (∀ op ∈ ops, WfOp op))

/-- `IndexClaim` holds of the resulting state when the run completed
(vacuous if open failed or a panic occurred). -/
def IndexClaimOpt : Option KvState → Prop
  | some st => IndexClaim st
  | none => True

/-- `EntryOk` as established during `build_index` replay: the entry points
into one of the already-replayed (`done`) segments, and no record for its
key in a replayed segment is later than the entry's position.  (`disk` is
the whole directory; when `done = disk` this implies `EntryOk`.) -/
def EntryOkDone (disk done : List (Nat × List Nat)) (k : List Nat) (ci : CommandIndex) :
    Prop :=
  ∃ content v,
    fileLookup disk ci.log_id = some content ∧
    (ci.offset, Command.set k v) ∈ recordsOf content ∧
    WfCmd (.set k v) ∧ CmdBytesOk (.set k v) ∧
    ci.len = (bincodeSerialize (.set k v)).length ∧
    (∃ cf ∈ done, (cf : Nat × List Nat).1 = ci.log_id) ∧
    ∀ f ∈ done, ∀ r ∈ recordsOf (f : Nat × List Nat).2,
      (r : Nat × Command).2.key = k →
        f.1 < ci.log_id ∨ (f.1 = ci.log_id ∧ r.1 ≤ ci.offset)

/-- The mid-file strengthening of `EntryOkDone` while replaying segment
`fid`, of which the commands `pre` have been replayed so far: the entry
points into `done` or at an already-replayed record of `fid`, and no
replayed record for its key is later than the entry. -/
def EntryOkMid (disk done : List (Nat × List Nat)) (fid : Nat) (pre : List Command)
    (k : List Nat) (ci : CommandIndex) : Prop :=
  ∃ content v,
    fileLookup disk ci.log_id = some content ∧
    (ci.offset, Command.set k v) ∈ recordsOf content ∧
    WfCmd (.set k v) ∧ CmdBytesOk (.set k v) ∧
    ci.len = (bincodeSerialize (.set k v)).length ∧
    ((∃ cf ∈ done, (cf : Nat × List Nat).1 = ci.log_id) ∨
      (ci.log_id = fid ∧ (ci.offset, Command.set k v) ∈ recordsFrom 0 pre)) ∧
    (∀ f ∈ done, ∀ r ∈ recordsOf (f : Nat × List Nat).2,
      (r : Nat × Command).2.key = k →
        f.1 < ci.log_id ∨ (f.1 = ci.log_id ∧ r.1 ≤ ci.offset)) ∧
    (∀ r ∈ recordsFrom 0 pre, (r : Nat × Command).2.key = k →
      fid < ci.log_id ∨ (fid = ci.log_id ∧ r.1 ≤ ci.offset))

/-! ### Concrete states used by the counterexample and evaluation theorems -/

/-- A reachable state in which the active segment (id 1) is not the segment
the cached reader has open (id 0): reached from a fresh directory by 5001
`set`s (filling segment 0, whose first record is `Set("a","x")`) followed
by one `compact()`, whose rollover opens segment 1 for the writer while the
cached reader stays on segment 0.  Keys and values are byte lists:
`"a" = [97]`, `"x" = [120]`, `"k" = [107]`, `"v" = [118]`.  Only the first
record of segment 0 matters for the read that follows, so the remaining
5000 records are elided; counters are set accordingly. -/
def staleReaderState : KvState :=
  { storage_index := [([97], ⟨0, 0, 22⟩)]
    files := [(0, bincodeSerialize (.set [97] [120])), (1, [])]
    curr_log := ⟨1, 0, 0⟩
    total_cmd_counter := 5001
    curr_log_r := 0
    last_collected_file_index := -1
    io_ok := true }

/-- A state with index entry `"k" ↦ (segment 1, offset 0, len 22)` while the
cached reader is on segment 0; segment 1 holds `Set("k","v")` at that
range and segment 0 begins with `Set("a","x")`. -/
def crossSegmentState : KvState :=
  { storage_index := [([107], ⟨1, 0, 22⟩)]
    files := [(0, bincodeSerialize (.set [97] [120])), (1, bincodeSerialize (.set [107] [118]))]
    curr_log := ⟨1, 1, 22⟩
    total_cmd_counter := 5002
    curr_log_r := 0
    last_collected_file_index := -1
    io_ok := true }

/-- A state whose index holds `"k"`, over a file system whose appends fail
(`io_ok = false`). -/
def ioFailState : KvState :=
  { storage_index := [([107], ⟨0, 0, 22⟩)]
    files := [(0, bincodeSerialize (.set [107] [120]))]
    curr_log := ⟨0, 1, 22⟩
    total_cmd_counter := 1
    curr_log_r := 0
    last_collected_file_index := -1
    io_ok := false }

/-- A reachable state with an empty index and a total command count above
`CMDS_THRESHOLD`: 10001 sets of distinct keys followed by 10001 removes
leave `total_cmd_counter = 20002` and no live key (the segment contents do
not matter for the compaction trigger, so they are elided). -/
def emptyIndexState : KvState :=
  { storage_index := []
    files := [(0, [])]
    curr_log := ⟨0, 20002, 0⟩
    total_cmd_counter := 20002
    curr_log_r := 0
    last_collected_file_index := -1
    io_ok := true }

/-- A data directory whose single (hence highest-id) segment ends in a
truncated record: a full `Set("a","x")` encoding (22 bytes) followed by the
first 3 bytes of a record.  Decoding the tail fails with `UnexpectedEof`
at offset 22; the file is 25 bytes long. -/
def truncatedDisk : List (Nat × List Nat) :=
  [(0, bincodeSerialize (.set [97] [120]) ++ [0, 0, 0])]

/-! ## Theorems -/

/-! ### Association-list lemmas for the index map -/

theorem find_replace (t : List (List Nat × CommandIndex)) (k : List Nat) (ci : CommandIndex)
    (h : t.any (fun e => e.1 = k)) :
    (t.map (fun e => if e.1 = k then (k, ci) else e)).find?
      (fun e => e.1 = k) = some (k, ci) := by
  induction t with
  | nil => simp at h
  | cons e t ih =>
    by_cases he : e.1 = k
    · simp only [List.map_cons, if_pos he]
      exact List.find?_cons_of_pos _ (by simp)
    · simp only [List.any_cons, Bool.or_eq_true, decide_eq_true_eq, he, false_or] at h
      simp only [List.map_cons, if_neg he]
      rw [List.find?_cons_of_neg _ (by simpa using he)]
      exact ih (by simpa using h)

theorem find_append_single_of_not_any (t : List (List Nat × CommandIndex)) (k : List Nat)
    (ci : CommandIndex) (h : ¬ t.any (fun e => e.1 = k)) :
    (t ++ [(k, ci)]).find? (fun e => e.1 = k) = some (k, ci) := by
  induction t with
  | nil => exact List.find?_cons_of_pos _ (by simp)
  | cons e t ih =>
    simp only [List.any_cons, Bool.or_eq_true, decide_eq_true_eq, not_or] at h
    rw [List.cons_append, List.find?_cons_of_neg _ (by simpa using h.1)]
    exact ih (by simpa using h.2)

theorem idxLookup_idxInsert_self (idx : List (List Nat × CommandIndex)) (k : List Nat)
    (ci : CommandIndex) : idxLookup (idxInsert idx k ci) k = some ci := by
  unfold idxLookup idxInsert
  by_cases h : idx.any (fun e => e.1 = k)
  · simp [h, find_replace idx k ci h]
  · simp [h, find_append_single_of_not_any idx k ci h]

theorem find_map_replace_ne (t : List (List Nat × CommandIndex)) (k : List Nat)
    (ci : CommandIndex) (k' : List Nat) (h : k' ≠ k) :
    (t.map (fun e => if e.1 = k then (k, ci) else e)).find? (fun e => e.1 = k') =
      t.find? (fun e => e.1 = k') := by
  induction t with
  | nil => rfl
  | cons e t ih =>
    have hkk' : ¬ k = k' := fun hk => h hk.symm
    by_cases he : e.1 = k
    · have h2 : ¬ e.1 = k' := by rw [he]; exact hkk'
      simp only [List.map_cons, if_pos he]
      rw [List.find?_cons_of_neg _ (by simpa using hkk'),
        List.find?_cons_of_neg _ (by simpa using h2), ih]
    · simp only [List.map_cons, if_neg he]
      by_cases he' : e.1 = k'
      · rw [List.find?_cons_of_pos _ (by simpa using he'),
          List.find?_cons_of_pos _ (by simpa using he')]
      · rw [List.find?_cons_of_neg _ (by simpa using he'),
          List.find?_cons_of_neg _ (by simpa using he'), ih]

theorem find_append_single_ne (t : List (List Nat × CommandIndex)) (k : List Nat)
    (ci : CommandIndex) (k' : List Nat) (h : k' ≠ k) :
    (t ++ [(k, ci)]).find? (fun e => e.1 = k') = t.find? (fun e => e.1 = k') := by
  induction t with
  | nil =>
    have hkk' : ¬ k = k' := fun hk => h hk.symm
    simp only [List.nil_append]
    rw [List.find?_cons_of_neg _ (by simpa using hkk')]
  | cons e t ih =>
    by_cases he' : e.1 = k'
    · rw [List.cons_append, List.find?_cons_of_pos _ (by simpa using he'),
        List.find?_cons_of_pos _ (by simpa using he')]
    · rw [List.cons_append, List.find?_cons_of_neg _ (by simpa using he'),
        List.find?_cons_of_neg _ (by simpa using he'), ih]

theorem idxLookup_idxInsert_ne (idx : List (List Nat × CommandIndex)) (k : List Nat)
    (ci : CommandIndex) (k' : List Nat) (h : k' ≠ k) :
    idxLookup (idxInsert idx k ci) k' = idxLookup idx k' := by
  unfold idxLookup idxInsert
  by_cases hany : idx.any (fun e => e.1 = k)
  · rw [if_pos hany, find_map_replace_ne idx k ci k' h]
  · rw [if_neg hany, find_append_single_ne idx k ci k' h]

theorem idxLookup_idxRemove_self (idx : List (List Nat × CommandIndex)) (k : List Nat) :
    idxLookup (idxRemove idx k) k = none := by
  unfold idxLookup idxRemove
  rw [List.find?_eq_none.mpr]
  · rfl
  · intro e he
    have := List.of_mem_filter he
    simpa using this

theorem idxLookup_idxRemove_ne (idx : List (List Nat × CommandIndex)) (k k' : List Nat)
    (h : k' ≠ k) : idxLookup (idxRemove idx k) k' = idxLookup idx k' := by
  unfold idxLookup idxRemove
  congr 1
  induction idx with
  | nil => rfl
  | cons e t ih =>
    by_cases he : e.1 = k
    · have he' : ¬ e.1 = k' := by rw [he]; exact Ne.symm h
      rw [List.filter_cons_of_neg (by simpa using he),
        List.find?_cons_of_neg _ (by simpa using he'), ih]
    · by_cases he' : e.1 = k'
      · rw [List.filter_cons_of_pos (by simpa using he),
          List.find?_cons_of_pos _ (by simpa using he'),
          List.find?_cons_of_pos _ (by simpa using he')]
      · rw [List.filter_cons_of_pos (by simpa using he),
          List.find?_cons_of_neg _ (by simpa using he'),
          List.find?_cons_of_neg _ (by simpa using he'), ih]

/-! ### Small facts about the engine operations -/

theorem kvSet_io_ok (st : KvState) (key value : List Nat) :
    (kvSet st key value).2.io_ok = st.io_ok := by
  unfold kvSet insert_entry write_cmd_to_curr_log appendCmd
  by_cases h : st.io_ok <;> simp [h]

theorem kvSet_ok (st : KvState) (key value : List Nat) (h : st.io_ok = true) :
    kvSet st key value =
      (.ok (),
        { st with
          files := fileAppendBytes st.files st.curr_log.id (bincodeSerialize (.set key value))
          curr_log :=
            { st.curr_log with
              offset := st.curr_log.offset + (bincodeSerialize (.set key value)).length
              cmd_counter := st.curr_log.cmd_counter + 1 }
          total_cmd_counter := st.total_cmd_counter + 1
          storage_index :=
            idxInsert st.storage_index key
              ⟨st.curr_log.id, st.curr_log.offset, (bincodeSerialize (.set key value)).length⟩ }) := by
  unfold kvSet insert_entry write_cmd_to_curr_log appendCmd
  simp [h]

theorem kvRemove_hit (st : KvState) (key : List Nat) (ci : CommandIndex)
    (hlk : idxLookup st.storage_index key = some ci) (h : st.io_ok = true) :
    kvRemove st key =
      (.ok (),
        { st with
          storage_index := idxRemove st.storage_index key
          files := fileAppendBytes st.files st.curr_log.id (bincodeSerialize (.remove key))
          curr_log :=
            { st.curr_log with
              offset := st.curr_log.offset + (bincodeSerialize (.remove key)).length
              cmd_counter := st.curr_log.cmd_counter + 1 }
          total_cmd_counter := st.total_cmd_counter + 1 }) := by
  unfold kvRemove write_cmd_to_curr_log appendCmd
  simp [hlk, h]

/-- The `RemoveNonExistentKey` outcome is taken exactly on an index miss:
on a hit the operation either succeeds or fails with the append's `io`
error, never with `RemoveNonExistentKey`. -/
theorem kvRemove_notFound_iff (st : KvState) (key : List Nat) :
    (kvRemove st key).1 = .error .removeNonExistentKey ↔
      idxLookup st.storage_index key = none := by
  unfold kvRemove write_cmd_to_curr_log appendCmd
  cases hlk : idxLookup st.storage_index key with
  | none => simp
  | some ci => by_cases h : st.io_ok <;> simp [h]

/-! ### C3 -/

/-- C3: after `set(K, V); remove(K)` a `get(K)` returns `None` and a second
`remove(K)` fails with `RemoveNonExistentKey`; moreover `remove` returns
`RemoveNonExistentKey` exactly when the key is absent from the index.
The hypothesis `io_ok` makes the two appends of the prefix succeed, as
presupposed by the claim's "after set(K,V) then remove(K)". -/
theorem c3_set_remove_get_none_second_remove_not_found
    (st : KvState) (key value : List Nat) (h : st.io_ok = true) :
    (kvSet st key value).1 = .ok () ∧
    (kvRemove (kvSet st key value).2 key).1 = .ok () ∧
    (kvGet (kvRemove (kvSet st key value).2 key).2 key).1 = .ok none ∧
    (kvRemove (kvRemove (kvSet st key value).2 key).2 key).1 =
      .error .removeNonExistentKey ∧
    (∀ st' : KvState, ∀ k : List Nat,
      (kvRemove st' k).1 = .error .removeNonExistentKey ↔
        idxLookup st'.storage_index k = none) := by
  rw [kvSet_ok st key value h]
  set ci : CommandIndex :=
    ⟨st.curr_log.id, st.curr_log.offset, (bincodeSerialize (.set key value)).length⟩ with hci
  set st1 : KvState :=
    { st with
      files := fileAppendBytes st.files st.curr_log.id (bincodeSerialize (.set key value))
      curr_log :=
        { st.curr_log with
          offset := st.curr_log.offset + (bincodeSerialize (.set key value)).length
          cmd_counter := st.curr_log.cmd_counter + 1 }
      total_cmd_counter := st.total_cmd_counter + 1
      storage_index := idxInsert st.storage_index key ci } with hst1
  have hlk1 : idxLookup st1.storage_index key = some ci := by
    rw [hst1]; exact idxLookup_idxInsert_self _ _ _
  rw [kvRemove_hit st1 key ci hlk1 (by rw [hst1]; exact h)]
  have hlk2 : idxLookup (idxRemove st1.storage_index key) key = none :=
    idxLookup_idxRemove_self _ _
  refine ⟨rfl, rfl, ?_, ?_, fun st' k => kvRemove_notFound_iff st' k⟩
  · unfold kvGet
    simp [hlk2]
  · unfold kvRemove
    simp [hlk2]

/-- Witness for `c3_set_remove_get_none_second_remove_not_found` at the
concrete state `emptyIndexState` with `K = "k"`, `V = "v"`. -/
theorem c3_witness :
    emptyIndexState.io_ok = true ∧
    ((kvSet emptyIndexState [107] [118]).1 = .ok () ∧
     (kvRemove (kvSet emptyIndexState [107] [118]).2 [107]).1 = .ok () ∧
     (kvGet (kvRemove (kvSet emptyIndexState [107] [118]).2 [107]).2 [107]).1 = .ok none ∧
     (kvRemove (kvRemove (kvSet emptyIndexState [107] [118]).2 [107]).2 [107]).1 =
       .error .removeNonExistentKey ∧
     (∀ st' : KvState, ∀ k : List Nat,
       (kvRemove st' k).1 = .error .removeNonExistentKey ↔
         idxLookup st'.storage_index k = none)) :=
  ⟨by decide,
    c3_set_remove_get_none_second_remove_not_found emptyIndexState [107] [118] (by decide)⟩

/-! ### C1 -/

/-- C1 fails on the code: from the reachable state `staleReaderState`
(writer on segment 1, cached reader still on segment 0), `set("k","v")`
returns success, yet the immediately following `get("k")` returns
`Some("x")` — the value of the first record of segment 0, read through the
stale cached reader — instead of `Some("v")`. -/
theorem c1_set_then_get_returns_stale_value :
    (kvSet staleReaderState [107] [118]).1 = .ok () ∧
    (kvGet (kvSet staleReaderState [107] [118]).2 [107]).1 = .ok (some [120]) ∧
    some [120] ≠ some ([118] : List Nat) := by decide

/-! ### C4 -/

/-- C4 fails on the code: in `crossSegmentState` the index entry for `"k"`
names segment 1, whose bytes `[0, 22)` decode to `Set("k","v")`; but with
the cached reader on segment 0, `get("k")` reads segment 0 through the
stale borrow (`read_cmd_at` is called on the old `curr_log_r` after the
new reader has been stored) and returns segment 0's value `"x"`. -/
theorem c4_get_reads_stale_segment :
    (kvGet crossSegmentState [107]).1 = .ok (some [120]) ∧
    (kvGet crossSegmentState [107]).2.curr_log_r = 1 ∧
    bincodeDeserialize
        (((fileLookup crossSegmentState.files 1).getD []).drop 0 |>.take 22) =
      .ok (.set [107] [118], []) ∧
    [120] ≠ [118] := by decide

/-! ### C5 -/

/-- C5 as stated is false: at `ioFailState` (key `"k"` present, appends
failing), `remove("k")` returns the `io` error but the index no longer
holds `"k"` — the eviction performed before the append is not rolled
back. -/
theorem c5_counterexample_failing_remove_evicts_key :
    (kvRemove ioFailState [107]).1 = .error .ioErrK ∧
    (kvRemove ioFailState [107]).2.storage_index ≠ ioFailState.storage_index := by decide

/-- C5 amended: when the append fails with an I/O error the operation
returns that error; a failing `set` leaves the entire state (in particular
the index) unchanged, while a failing `remove` of a present key has
already evicted the key from the index (a `remove` of an absent key still
returns `RemoveNonExistentKey` without touching anything). -/
theorem c5_amended_set_unchanged_remove_evicted
    (st : KvState) (key value : List Nat) (h : st.io_ok = false) :
    ((kvSet st key value).1 = .error .ioErrK ∧ (kvSet st key value).2 = st) ∧
    (idxLookup st.storage_index key = none →
      (kvRemove st key).1 = .error .removeNonExistentKey ∧ (kvRemove st key).2 = st) ∧
    (∀ ci, idxLookup st.storage_index key = some ci →
      (kvRemove st key).1 = .error .ioErrK ∧
      (kvRemove st key).2 =
        { st with storage_index := idxRemove st.storage_index key }) := by
  refine ⟨?_, ?_, ?_⟩
  · unfold kvSet insert_entry write_cmd_to_curr_log appendCmd
    simp [h]
  · intro hlk
    unfold kvRemove
    simp [hlk]
  · intro ci hlk
    unfold kvRemove write_cmd_to_curr_log appendCmd
    simp [hlk, h]

/-- Witness for `c5_amended_set_unchanged_remove_evicted` at
`ioFailState`. -/
theorem c5_witness :
    ioFailState.io_ok = false ∧
    (((kvSet ioFailState [97] [98]).1 = .error .ioErrK ∧
        (kvSet ioFailState [97] [98]).2 = ioFailState) ∧
      (idxLookup ioFailState.storage_index [97] = none →
        (kvRemove ioFailState [97]).1 = .error .removeNonExistentKey ∧
          (kvRemove ioFailState [97]).2 = ioFailState) ∧
      (∀ ci, idxLookup ioFailState.storage_index [97] = some ci →
        (kvRemove ioFailState [97]).1 = .error .ioErrK ∧
        (kvRemove ioFailState [97]).2 =
          { ioFailState with storage_index := idxRemove ioFailState.storage_index [97] })) :=
  ⟨by decide, c5_amended_set_unchanged_remove_evicted ioFailState [97] [98] (by decide)⟩

/-! ### C6 -/

/-- C6 fails on the code: the 7-byte buffer whose header byte is `0x00`
(not `PROTOCOL_VERSION = 0xC1`) decodes successfully — both by the plain
`Message` decode and by the framed-read path shared by
`KvServer::recv_payload` and `KvClient::recv_payload` — to
`ResponseSet(Ok)`.  No component of the decode path compares the version
byte with `PROTOCOL_VERSION`. -/
theorem c6_decode_accepts_wrong_version_byte :
    fromBytesMessage [0x00, 0, 0, 0, 2, 0x80, 0x00] = .ok (.respSet .ok) ∧
    recvPayload [0x00, 0, 0, 0, 2, 0x80, 0x00] = .ok (.respSet .ok) ∧
    (0x00 : Nat) ≠ PROTOCOL_VERSION := by decide

/-! ### C9 -/

/-- C9 fails on the code: from the reachable state `emptyIndexState`
(total command count 20002 > `CMDS_THRESHOLD`, zero live keys),
`compact()` evaluates `total_cmd_counter / storage_index.len()` with a
zero divisor and panics (`none`) instead of returning. -/
theorem c9_compact_panics_on_empty_index : kvCompact emptyIndexState = none := by decide

/-! ### Wire-codec lemmas for C7 and C10 -/

theorem except_bind_assoc {α β γ : Type} (x : Except CpError α) (f : α → Except CpError β)
    (g : β → Except CpError γ) : (x >>= f) >>= g = x >>= fun a => f a >>= g := by
  cases x <;> rfl

theorem except_bind_pure {α : Type} (x : Except CpError α) :
    (x >>= fun a => (Except.ok a : Except CpError α)) = x := by
  cases x <;> rfl

theorem writeAll_ok (chunks : List (List Nat)) (L : Nat) (out : List Nat)
    (h : out.length + (chunksBytes chunks).length ≤ L) :
    writeAll ⟨L, out⟩ chunks = .ok ⟨L, out ++ chunksBytes chunks⟩ := by
  induction chunks generalizing out with
  | nil => simp [writeAll, chunksBytes]
  | cons c cs ih =>
    have hc : out.length + c.length ≤ L := by
      simp [chunksBytes] at h ⊢; omega
    have : writeBytes ⟨L, out⟩ c = .ok ⟨L, out ++ c⟩ := by
      simp [writeBytes, hc]
    simp only [writeAll, this, Except.bind]
    rw [show (Except.ok (⟨L, out ++ c⟩ : Serializer) >>= fun s => writeAll s cs) = writeAll ⟨L, out ++ c⟩ cs from rfl]
    rw [ih (out ++ c) (by simp [chunksBytes] at h ⊢; omega)]
    simp [chunksBytes]

theorem writeAll_err (chunks : List (List Nat)) (L : Nat) (out : List Nat)
    (h1 : out.length ≤ L) (h2 : L < out.length + (chunksBytes chunks).length) :
    writeAll ⟨L, out⟩ chunks = .error .notEnoughSpaceInBuffer := by
  induction chunks generalizing out with
  | nil => simp [chunksBytes] at h2; omega
  | cons c cs ih =>
    by_cases hc : out.length + c.length ≤ L
    · have : writeBytes ⟨L, out⟩ c = .ok ⟨L, out ++ c⟩ := by simp [writeBytes, hc]
      simp only [writeAll, this]
      rw [show ((Except.ok (⟨L, out ++ c⟩ : Serializer) : Except CpError Serializer) >>= fun s => writeAll s cs) = writeAll ⟨L, out ++ c⟩ cs from rfl]
      exact ih (out ++ c) (by simpa using hc) (by simp [chunksBytes] at h2 ⊢; omega)
    · have : writeBytes ⟨L, out⟩ c = .error .notEnoughSpaceInBuffer := by
        simp [writeBytes, hc]
      simp only [writeAll, this]
      rfl

theorem serializeStr_eq (s : Serializer) (str : List Nat) (h : str.length ≤ u32Max) :
    serializeStr s str = writeBytes s (be32 str.length) >>= fun s => writeBytes s str := by
  have h2 : ¬ u32Max < str.length := by omega
  have h3 : str.length % 4294967296 = str.length := Nat.mod_eq_of_lt (by unfold u32Max at h; omega)
  simp [serializeStr, serializeU32, h2, h3]

theorem serializeMessage_eq (s : Serializer) (p : MessagePayload) (h : PayloadFits p) :
    serializeMessage s p = writeAll s (messageChunks p) := by
  cases p with
  | reqSet key value =>
    obtain ⟨h1, h2⟩ := h
    simp [serializeMessage, serializePayload, serializeU8, serializeStr_eq _ _ h1,
      serializeStr_eq _ _ h2, serializeU32, writeAll, messageChunks, payloadChunks,
      msgTypeByte, except_bind_assoc, except_bind_pure]
  | reqGet key =>
    simp [serializeMessage, serializePayload, serializeU8, serializeStr_eq _ _ h,
      serializeU32, writeAll, messageChunks, payloadChunks, msgTypeByte,
      except_bind_assoc, except_bind_pure]
  | reqRemove key =>
    simp [serializeMessage, serializePayload, serializeU8, serializeStr_eq _ _ h,
      serializeU32, writeAll, messageChunks, payloadChunks, msgTypeByte,
      except_bind_assoc, except_bind_pure]
  | respSet code =>
    simp [serializeMessage, serializePayload, serializeU8, serializeStatusCode,
      serializeU32, writeAll, messageChunks, payloadChunks, msgTypeByte,
      except_bind_assoc, except_bind_pure]
  | respGet code value =>
    cases value with
    | none =>
      simp [serializeMessage, serializePayload, serializeU8, serializeStatusCode,
        serializeOptionStr, serializeU32, writeAll, messageChunks, payloadChunks,
        msgTypeByte, except_bind_assoc, except_bind_pure]
    | some v =>
      simp only [PayloadFits] at h
      simp [serializeMessage, serializePayload, serializeU8, serializeStatusCode,
        serializeOptionStr, serializeStr_eq _ _ h, serializeU32, writeAll,
        messageChunks, payloadChunks, msgTypeByte, except_bind_assoc, except_bind_pure]
  | respRemove code =>
    simp [serializeMessage, serializePayload, serializeU8, serializeStatusCode,
      serializeU32, writeAll, messageChunks, payloadChunks, msgTypeByte,
      except_bind_assoc, except_bind_pure]

theorem chunksBytes_len (p : MessagePayload) :
    (chunksBytes (messageChunks p)).length = calcLenMessage p := by
  cases p with
  | respGet code value =>
    cases value <;>
      simp [chunksBytes, messageChunks, payloadChunks, calcLenMessage, calcLenPayload, be32] <;>
      omega
  | _ =>
    simp [chunksBytes, messageChunks, payloadChunks, calcLenMessage, calcLenPayload, be32]
    try omega

/-- C10: the codec's compute-encoded-length operation agrees with its
encode operation.  For every payload whose string fields fit the 32-bit
length fields (the bound the protocol itself imposes), encoding the
message into a buffer of exactly `calc_len` bytes succeeds and fills the
buffer completely, while encoding into any strictly shorter buffer fails
with `Error::NotEnoughSpaceInBuffer`. -/
theorem c10_calc_len_agrees_with_encode (p : MessagePayload) (h : PayloadFits p) :
    (toBytesMessage p (calcLenMessage p) = .ok (chunksBytes (messageChunks p)) ∧
      (chunksBytes (messageChunks p)).length = calcLenMessage p) ∧
    (∀ n, n < calcLenMessage p → toBytesMessage p n = .error .notEnoughSpaceInBuffer) := by
  refine ⟨⟨?_, chunksBytes_len p⟩, ?_⟩
  · unfold toBytesMessage
    rw [serializeMessage_eq _ p h,
      writeAll_ok (messageChunks p) (calcLenMessage p) []
        (by simp [chunksBytes_len p])]
    simp [Except.map]
  · intro n hn
    unfold toBytesMessage
    rw [serializeMessage_eq _ p h,
      writeAll_err (messageChunks p) n [] (by simp) (by simp [chunksBytes_len p]; omega)]
    simp [Except.map]

/-- Witness for `c10_calc_len_agrees_with_encode` at the concrete payload
`ResponseGet(Ok, Some("value"))`. -/
theorem c10_witness :
    PayloadFits (.respGet .ok (some [118, 97, 108, 117, 101])) ∧
    ((toBytesMessage (.respGet .ok (some [118, 97, 108, 117, 101]))
        (calcLenMessage (.respGet .ok (some [118, 97, 108, 117, 101]))) =
          .ok (chunksBytes (messageChunks (.respGet .ok (some [118, 97, 108, 117, 101])))) ∧
      (chunksBytes
          (messageChunks (.respGet .ok (some [118, 97, 108, 117, 101])))).length =
        calcLenMessage (.respGet .ok (some [118, 97, 108, 117, 101]))) ∧
    (∀ n, n < calcLenMessage (.respGet .ok (some [118, 97, 108, 117, 101])) →
      toBytesMessage (.respGet .ok (some [118, 97, 108, 117, 101])) n =
        .error .notEnoughSpaceInBuffer)) :=
  ⟨by decide,
    c10_calc_len_agrees_with_encode (.respGet .ok (some [118, 97, 108, 117, 101])) (by decide)⟩

theorem readByte_at (pre : List Nat) (b : Nat) (rest : List Nat) :
    readByte ⟨pre ++ b :: rest, pre.length⟩ =
      .ok (b, ⟨pre ++ b :: rest, pre.length + 1⟩) := by
  have hlt : pre.length < (pre ++ b :: rest).length := by simp
  have hget : (pre ++ b :: rest).get ⟨pre.length, hlt⟩ = b := by
    rw [List.get_eq_getElem, List.getElem_append_right (le_refl pre.length)]
    simp
  rw [readByte, dif_pos hlt, hget]

theorem readBytes_at (pre mid rest : List Nat) :
    readBytes ⟨pre ++ (mid ++ rest), pre.length⟩ mid.length =
      .ok (mid, ⟨pre ++ (mid ++ rest), pre.length + mid.length⟩) := by
  have hle : pre.length + mid.length ≤ (pre ++ (mid ++ rest)).length := by
    simp only [List.length_append]; omega
  rw [readBytes, if_pos hle]
  have hdrop : ({ buf := pre ++ (mid ++ rest), rdIdx := pre.length } : Deserializer).buf.drop
      pre.length = mid ++ rest := List.drop_left pre (mid ++ rest)
  rw [hdrop, List.take_left]

theorem bytesToNatBE_be32 (n : Nat) (h : n < 2 ^ 32) : bytesToNatBE (be32 n) = n := by
  simp [be32, bytesToNatBE]
  omega

theorem be32_length (n : Nat) : (be32 n).length = 4 := rfl

theorem readU32_at (pre : List Nat) (n : Nat) (rest : List Nat) (h : n < 2 ^ 32) :
    readU32 ⟨pre ++ (be32 n ++ rest), pre.length⟩ =
      .ok (n, ⟨pre ++ (be32 n ++ rest), pre.length + 4⟩) := by
  unfold readU32
  rw [show (4 : Nat) = (be32 n).length from rfl, readBytes_at pre (be32 n) rest]
  simp [Except.map, bytesToNatBE_be32 n h, be32_length]

theorem deserializeString_at (pre s rest : List Nat) (h : s.length ≤ u32Max) :
    deserializeString ⟨pre ++ ((be32 s.length ++ s) ++ rest), pre.length⟩ =
      .ok (s, ⟨pre ++ ((be32 s.length ++ s) ++ rest), pre.length + (4 + s.length)⟩) := by
  have h32 : s.length < 2 ^ 32 := by unfold u32Max at h; omega
  unfold deserializeString
  rw [show pre ++ ((be32 s.length ++ s) ++ rest) = pre ++ (be32 s.length ++ (s ++ rest)) by
    simp [List.append_assoc]]
  rw [readU32_at pre s.length (s ++ rest) h32]
  rw [show (Except.ok (s.length, (⟨pre ++ (be32 s.length ++ (s ++ rest)), pre.length + 4⟩ : Deserializer)) >>= fun r => readBytes r.2 r.1) = readBytes ⟨pre ++ (be32 s.length ++ (s ++ rest)), pre.length + 4⟩ s.length from rfl]
  rw [show pre ++ (be32 s.length ++ (s ++ rest)) = (pre ++ be32 s.length) ++ (s ++ rest) by
    simp [List.append_assoc]]
  rw [show pre.length + 4 = (pre ++ be32 s.length).length by simp [be32_length]]
  rw [show pre.length + (4 + s.length) = (pre ++ be32 s.length).length + s.length by
    simp [be32_length]; omega]
  exact readBytes_at (pre ++ be32 s.length) s rest

theorem except_ok_bind {α β : Type} (a : α) (f : α → Except CpError β) :
    ((Except.ok a : Except CpError α) >>= f) = f a := rfl

theorem readByte_drop (buf : List Nat) (i b : Nat) (rest : List Nat)
    (hd : buf.drop i = b :: rest) :
    readByte ⟨buf, i⟩ = .ok (b, ⟨buf, i + 1⟩) := by
  have hi : i < buf.length := by
    by_contra hc
    rw [List.drop_eq_nil_of_le (by omega)] at hd
    exact List.noConfusion hd
  have hget : buf.get ⟨i, hi⟩ = b := by
    have h0 : (buf.drop i)[0]? = some b := by rw [hd]; simp
    rw [List.getElem?_drop, Nat.add_zero] at h0
    have h1 : buf[i]? = some b := h0
    have h2 : buf[i]? = some (buf.get ⟨i, hi⟩) := by
      rw [List.getElem?_eq_getElem hi]
      rfl
    rw [h2] at h1
    exact Option.some.inj h1
  rw [readByte, dif_pos hi, hget]

theorem readBytes_drop (buf : List Nat) (i : Nat) (mid rest : List Nat)
    (hd : buf.drop i = mid ++ rest) (hi : i ≤ buf.length) :
    readBytes ⟨buf, i⟩ mid.length = .ok (mid, ⟨buf, i + mid.length⟩) := by
  have hlen : buf.length - i = mid.length + rest.length := by
    have := congrArg List.length hd
    simpa using this
  have hle : i + mid.length ≤ buf.length := by omega
  rw [readBytes, if_pos hle]
  have : (buf.drop i).take mid.length = mid := by rw [hd, List.take_left]
  rw [this]

theorem readU32_drop (buf : List Nat) (i n : Nat) (rest : List Nat)
    (hd : buf.drop i = be32 n ++ rest) (hi : i ≤ buf.length) (hn : n < 2 ^ 32) :
    readU32 ⟨buf, i⟩ = .ok (n, ⟨buf, i + 4⟩) := by
  unfold readU32
  rw [show (4 : Nat) = (be32 n).length from rfl, readBytes_drop buf i (be32 n) rest hd hi]
  simp [Except.map, bytesToNatBE_be32 n hn, be32_length]

theorem deserializeString_drop (buf : List Nat) (i : Nat) (s rest : List Nat)
    (hd : buf.drop i = (be32 s.length ++ s) ++ rest) (hi : i ≤ buf.length)
    (hs : s.length ≤ u32Max) :
    deserializeString ⟨buf, i⟩ = .ok (s, ⟨buf, i + 4 + s.length⟩) := by
  have h32 : s.length < 2 ^ 32 := by unfold u32Max at hs; omega
  have hd1 : buf.drop i = be32 s.length ++ (s ++ rest) := by rw [hd]; simp
  have hlen : buf.length - i = 4 + s.length + rest.length := by
    have := congrArg List.length hd1
    simp [be32_length] at this
    omega
  have hd2 : buf.drop (i + 4) = s ++ rest := by
    rw [← List.drop_drop, hd1,
      show (4 : Nat) = (be32 s.length).length from rfl, List.drop_left]
  unfold deserializeString
  rw [readU32_drop buf i s.length (s ++ rest) hd1 hi h32, except_ok_bind]
  show readBytes (⟨buf, i + 4⟩ : Deserializer) s.length = _
  rw [readBytes_drop buf (i + 4) s rest hd2 (by omega)]

theorem fromBytes_chunks_reqSet (k v : List Nat) (hk : k.length ≤ u32Max)
    (hv : v.length ≤ u32Max) :
    fromBytesMessage (chunksBytes (messageChunks (.reqSet k v))) = .ok (.reqSet k v) := by
  set m := calcLenPayload (.reqSet k v) % 2 ^ 32 with hm
  have hmlt : m < 2 ^ 32 := Nat.mod_lt _ (by norm_num)
  set buf := chunksBytes (messageChunks (.reqSet k v)) with hbufdef
  have hbuf : buf = 193 :: (be32 m ++ (0 :: ((be32 k.length ++ k) ++
      ((be32 v.length ++ v) ++ ([] : List Nat))))) := by
    rw [hbufdef]
    simp [chunksBytes, messageChunks, payloadChunks, msgTypeByte, PROTOCOL_VERSION, hm]
  have hlen : buf.length = 14 + k.length + v.length := by
    rw [hbuf]; simp [be32_length]; omega
  have hd0 : buf.drop 0 = 193 :: (be32 m ++ (0 :: ((be32 k.length ++ k) ++
      ((be32 v.length ++ v) ++ ([] : List Nat))))) := by
    rw [List.drop_zero, hbuf]
  have hd1 : buf.drop 1 = be32 m ++ (0 :: ((be32 k.length ++ k) ++
      ((be32 v.length ++ v) ++ ([] : List Nat)))) := by
    rw [hbuf]; rfl
  have hd5 : buf.drop 5 = 0 :: ((be32 k.length ++ k) ++
      ((be32 v.length ++ v) ++ ([] : List Nat))) := by
    rw [show (5 : Nat) = 1 + 4 from rfl, ← List.drop_drop, hd1,
      show (4 : Nat) = (be32 m).length from (be32_length m).symm, List.drop_left]
  have hd6 : buf.drop 6 = (be32 k.length ++ k) ++ ((be32 v.length ++ v) ++ ([] : List Nat)) := by
    rw [show (6 : Nat) = 5 + 1 from rfl, ← List.drop_drop, hd5]
    rfl
  have hd10 : buf.drop (6 + 4 + k.length) = (be32 v.length ++ v) ++ ([] : List Nat) := by
    rw [show 6 + 4 + k.length = 6 + (4 + k.length) by omega, ← List.drop_drop, hd6,
      show 4 + k.length = (be32 k.length ++ k).length by simp [be32_length], List.drop_left]
  unfold fromBytesMessage deserializeHeader deserializePayload
  rw [readByte_drop buf 0 193 _ hd0]
  simp only [except_ok_bind, except_bind_assoc, Nat.zero_add]
  rw [readU32_drop buf 1 m _ hd1 (by omega) hmlt]
  simp only [except_ok_bind, except_bind_assoc]
  rw [show (1 : Nat) + 4 = 5 from rfl, readByte_drop buf 5 0 _ hd5]
  simp only [except_ok_bind, except_bind_assoc]
  simp only [if_true]
  simp only [except_ok_bind, except_bind_assoc]
  rw [show (5 : Nat) + 1 = 6 from rfl, deserializeString_drop buf 6 k _ hd6 (by omega) hk]
  simp only [except_ok_bind, except_bind_assoc]
  rw [deserializeString_drop buf (6 + 4 + k.length) v _ hd10 (by omega) hv]
  simp only [except_ok_bind]

theorem statusCodeFromU8_toU8 (c : StatusCode) : statusCodeFromU8 c.toU8 = some c := by
  cases c <;> rfl

theorem deserializeStatusCode_drop (buf : List Nat) (i : Nat) (c : StatusCode)
    (rest : List Nat) (hd : buf.drop i = c.toU8 :: rest) :
    deserializeStatusCode ⟨buf, i⟩ = .ok (c, ⟨buf, i + 1⟩) := by
  unfold deserializeStatusCode
  rw [readByte_drop buf i c.toU8 _ hd, except_ok_bind]
  simp [statusCodeFromU8_toU8]

theorem deserializeOptionString_drop_none (buf : List Nat) (i : Nat) (rest : List Nat)
    (hd : buf.drop i = 0 :: rest) :
    deserializeOptionString ⟨buf, i⟩ = .ok (none, ⟨buf, i + 1⟩) := by
  unfold deserializeOptionString
  rw [readByte_drop buf i 0 _ hd, except_ok_bind]
  simp

theorem deserializeOptionString_drop_some (buf : List Nat) (i : Nat) (s rest : List Nat)
    (hd : buf.drop i = 1 :: ((be32 s.length ++ s) ++ rest)) (hs : s.length ≤ u32Max) :
    deserializeOptionString ⟨buf, i⟩ = .ok (some s, ⟨buf, i + 1 + 4 + s.length⟩) := by
  have hd1 : buf.drop (i + 1) = (be32 s.length ++ s) ++ rest := by
    rw [← List.drop_drop, hd]
    rfl
  have hi1 : i + 1 ≤ buf.length := by
    by_contra hc
    rw [List.drop_eq_nil_of_le (by omega)] at hd1
    have := congrArg List.length hd1
    simp [be32_length] at this
    omega
  unfold deserializeOptionString
  rw [readByte_drop buf i 1 _ hd, except_ok_bind]
  simp only [Nat.one_ne_zero, if_false, if_true]
  rw [deserializeString_drop buf (i + 1) s rest hd1 hi1 hs, except_ok_bind]

theorem fromBytes_chunks_reqGet (k : List Nat) (hk : k.length ≤ u32Max) :
    fromBytesMessage (chunksBytes (messageChunks (.reqGet k))) = .ok (.reqGet k) := by
  set m := calcLenPayload (.reqGet k) % 2 ^ 32 with hm
  have hmlt : m < 2 ^ 32 := Nat.mod_lt _ (by norm_num)
  set buf := chunksBytes (messageChunks (.reqGet k)) with hbufdef
  have hbuf : buf = 193 :: (be32 m ++ (1 :: ((be32 k.length ++ k) ++ ([] : List Nat)))) := by
    rw [hbufdef]
    simp [chunksBytes, messageChunks, payloadChunks, msgTypeByte, PROTOCOL_VERSION, hm]
  have hlen : buf.length = 10 + k.length := by
    rw [hbuf]; simp [be32_length]; omega
  have hd0 : buf.drop 0 = 193 :: (be32 m ++ (1 :: ((be32 k.length ++ k) ++ ([] : List Nat)))) := by
    rw [List.drop_zero, hbuf]
  have hd1 : buf.drop 1 = be32 m ++ (1 :: ((be32 k.length ++ k) ++ ([] : List Nat))) := by
    rw [hbuf]; rfl
  have hd5 : buf.drop 5 = 1 :: ((be32 k.length ++ k) ++ ([] : List Nat)) := by
    rw [show (5 : Nat) = 1 + 4 from rfl, ← List.drop_drop, hd1,
      show (4 : Nat) = (be32 m).length from (be32_length m).symm, List.drop_left]
  have hd6 : buf.drop 6 = (be32 k.length ++ k) ++ ([] : List Nat) := by
    rw [show (6 : Nat) = 5 + 1 from rfl, ← List.drop_drop, hd5]
    rfl
  unfold fromBytesMessage deserializeHeader deserializePayload
  rw [readByte_drop buf 0 193 _ hd0]
  simp only [except_ok_bind, except_bind_assoc, Nat.zero_add]
  rw [readU32_drop buf 1 m _ hd1 (by omega) hmlt]
  simp only [except_ok_bind, except_bind_assoc]
  rw [show (1 : Nat) + 4 = 5 from rfl, readByte_drop buf 5 1 _ hd5]
  simp only [except_ok_bind, except_bind_assoc, Nat.one_ne_zero, if_false, if_true]
  rw [show (5 : Nat) + 1 = 6 from rfl, deserializeString_drop buf 6 k _ hd6 (by omega) hk]
  simp only [except_ok_bind]

theorem fromBytes_chunks_reqRemove (k : List Nat) (hk : k.length ≤ u32Max) :
    fromBytesMessage (chunksBytes (messageChunks (.reqRemove k))) = .ok (.reqRemove k) := by
  set m := calcLenPayload (.reqRemove k) % 2 ^ 32 with hm
  have hmlt : m < 2 ^ 32 := Nat.mod_lt _ (by norm_num)
  set buf := chunksBytes (messageChunks (.reqRemove k)) with hbufdef
  have hbuf : buf = 193 :: (be32 m ++ (2 :: ((be32 k.length ++ k) ++ ([] : List Nat)))) := by
    rw [hbufdef]
    simp [chunksBytes, messageChunks, payloadChunks, msgTypeByte, PROTOCOL_VERSION, hm]
  have hlen : buf.length = 10 + k.length := by
    rw [hbuf]; simp [be32_length]; omega
  have hd0 : buf.drop 0 = 193 :: (be32 m ++ (2 :: ((be32 k.length ++ k) ++ ([] : List Nat)))) := by
    rw [List.drop_zero, hbuf]
  have hd1 : buf.drop 1 = be32 m ++ (2 :: ((be32 k.length ++ k) ++ ([] : List Nat))) := by
    rw [hbuf]; rfl
  have hd5 : buf.drop 5 = 2 :: ((be32 k.length ++ k) ++ ([] : List Nat)) := by
    rw [show (5 : Nat) = 1 + 4 from rfl, ← List.drop_drop, hd1,
      show (4 : Nat) = (be32 m).length from (be32_length m).symm, List.drop_left]
  have hd6 : buf.drop 6 = (be32 k.length ++ k) ++ ([] : List Nat) := by
    rw [show (6 : Nat) = 5 + 1 from rfl, ← List.drop_drop, hd5]
    rfl
  unfold fromBytesMessage deserializeHeader deserializePayload
  rw [readByte_drop buf 0 193 _ hd0]
  simp only [except_ok_bind, except_bind_assoc, Nat.zero_add]
  rw [readU32_drop buf 1 m _ hd1 (by omega) hmlt]
  simp only [except_ok_bind, except_bind_assoc]
  rw [show (1 : Nat) + 4 = 5 from rfl, readByte_drop buf 5 2 _ hd5]
  simp only [except_ok_bind, except_bind_assoc]
  norm_num
  rw [deserializeString_drop buf 6 k _ hd6 (by omega) hk]
  simp only [except_ok_bind]

theorem fromBytes_chunks_respSet (c : StatusCode) :
    fromBytesMessage (chunksBytes (messageChunks (.respSet c))) = .ok (.respSet c) := by
  set m := calcLenPayload (.respSet c) % 2 ^ 32 with hm
  have hmlt : m < 2 ^ 32 := Nat.mod_lt _ (by norm_num)
  set buf := chunksBytes (messageChunks (.respSet c)) with hbufdef
  have hbuf : buf = 193 :: (be32 m ++ (128 :: (c.toU8 :: ([] : List Nat)))) := by
    rw [hbufdef]
    simp [chunksBytes, messageChunks, payloadChunks, msgTypeByte, PROTOCOL_VERSION, hm]
  have hlen : buf.length = 7 := by rw [hbuf]; simp [be32_length]
  have hd0 : buf.drop 0 = 193 :: (be32 m ++ (128 :: (c.toU8 :: ([] : List Nat)))) := by
    rw [List.drop_zero, hbuf]
  have hd1 : buf.drop 1 = be32 m ++ (128 :: (c.toU8 :: ([] : List Nat))) := by
    rw [hbuf]; rfl
  have hd5 : buf.drop 5 = 128 :: (c.toU8 :: ([] : List Nat)) := by
    rw [show (5 : Nat) = 1 + 4 from rfl, ← List.drop_drop, hd1,
      show (4 : Nat) = (be32 m).length from (be32_length m).symm, List.drop_left]
  have hd6 : buf.drop 6 = c.toU8 :: ([] : List Nat) := by
    rw [show (6 : Nat) = 5 + 1 from rfl, ← List.drop_drop, hd5]
    rfl
  unfold fromBytesMessage deserializeHeader deserializePayload
  rw [readByte_drop buf 0 193 _ hd0]
  simp only [except_ok_bind, except_bind_assoc, Nat.zero_add]
  rw [readU32_drop buf 1 m _ hd1 (by omega) hmlt]
  simp only [except_ok_bind, except_bind_assoc]
  rw [show (1 : Nat) + 4 = 5 from rfl, readByte_drop buf 5 128 _ hd5]
  simp only [except_ok_bind, except_bind_assoc]
  norm_num
  rw [deserializeStatusCode_drop buf 6 c _ hd6]
  simp only [except_ok_bind]

theorem fromBytes_chunks_respRemove (c : StatusCode) :
    fromBytesMessage (chunksBytes (messageChunks (.respRemove c))) = .ok (.respRemove c) := by
  set m := calcLenPayload (.respRemove c) % 2 ^ 32 with hm
  have hmlt : m < 2 ^ 32 := Nat.mod_lt _ (by norm_num)
  set buf := chunksBytes (messageChunks (.respRemove c)) with hbufdef
  have hbuf : buf = 193 :: (be32 m ++ (130 :: (c.toU8 :: ([] : List Nat)))) := by
    rw [hbufdef]
    simp [chunksBytes, messageChunks, payloadChunks, msgTypeByte, PROTOCOL_VERSION, hm]
  have hlen : buf.length = 7 := by rw [hbuf]; simp [be32_length]
  have hd0 : buf.drop 0 = 193 :: (be32 m ++ (130 :: (c.toU8 :: ([] : List Nat)))) := by
    rw [List.drop_zero, hbuf]
  have hd1 : buf.drop 1 = be32 m ++ (130 :: (c.toU8 :: ([] : List Nat))) := by
    rw [hbuf]; rfl
  have hd5 : buf.drop 5 = 130 :: (c.toU8 :: ([] : List Nat)) := by
    rw [show (5 : Nat) = 1 + 4 from rfl, ← List.drop_drop, hd1,
      show (4 : Nat) = (be32 m).length from (be32_length m).symm, List.drop_left]
  have hd6 : buf.drop 6 = c.toU8 :: ([] : List Nat) := by
    rw [show (6 : Nat) = 5 + 1 from rfl, ← List.drop_drop, hd5]
    rfl
  unfold fromBytesMessage deserializeHeader deserializePayload
  rw [readByte_drop buf 0 193 _ hd0]
  simp only [except_ok_bind, except_bind_assoc, Nat.zero_add]
  rw [readU32_drop buf 1 m _ hd1 (by omega) hmlt]
  simp only [except_ok_bind, except_bind_assoc]
  rw [show (1 : Nat) + 4 = 5 from rfl, readByte_drop buf 5 130 _ hd5]
  simp only [except_ok_bind, except_bind_assoc]
  norm_num
  rw [deserializeStatusCode_drop buf 6 c _ hd6]
  simp only [except_ok_bind]

theorem fromBytes_chunks_respGet (c : StatusCode) (value : Option (List Nat))
    (hv : match value with | none => True | some v => v.length ≤ u32Max) :
    fromBytesMessage (chunksBytes (messageChunks (.respGet c value))) =
      .ok (.respGet c value) := by
  set m := calcLenPayload (.respGet c value) % 2 ^ 32 with hm
  have hmlt : m < 2 ^ 32 := Nat.mod_lt _ (by norm_num)
  set buf := chunksBytes (messageChunks (.respGet c value)) with hbufdef
  cases value with
  | none =>
    have hbuf : buf = 193 :: (be32 m ++ (129 :: (c.toU8 :: (0 :: ([] : List Nat))))) := by
      rw [hbufdef]
      simp [chunksBytes, messageChunks, payloadChunks, msgTypeByte, PROTOCOL_VERSION, hm]
    have hlen : buf.length = 8 := by rw [hbuf]; simp [be32_length]
    have hd0 : buf.drop 0 = 193 :: (be32 m ++ (129 :: (c.toU8 :: (0 :: ([] : List Nat))))) := by
      rw [List.drop_zero, hbuf]
    have hd1 : buf.drop 1 = be32 m ++ (129 :: (c.toU8 :: (0 :: ([] : List Nat)))) := by
      rw [hbuf]; rfl
    have hd5 : buf.drop 5 = 129 :: (c.toU8 :: (0 :: ([] : List Nat))) := by
      rw [show (5 : Nat) = 1 + 4 from rfl, ← List.drop_drop, hd1,
        show (4 : Nat) = (be32 m).length from (be32_length m).symm, List.drop_left]
    have hd6 : buf.drop 6 = c.toU8 :: (0 :: ([] : List Nat)) := by
      rw [show (6 : Nat) = 5 + 1 from rfl, ← List.drop_drop, hd5]
      rfl
    have hd7 : buf.drop 7 = 0 :: ([] : List Nat) := by
      rw [show (7 : Nat) = 6 + 1 from rfl, ← List.drop_drop, hd6]
      rfl
    unfold fromBytesMessage deserializeHeader deserializePayload
    rw [readByte_drop buf 0 193 _ hd0]
    simp only [except_ok_bind, except_bind_assoc, Nat.zero_add]
    rw [readU32_drop buf 1 m _ hd1 (by omega) hmlt]
    simp only [except_ok_bind, except_bind_assoc]
    rw [show (1 : Nat) + 4 = 5 from rfl, readByte_drop buf 5 129 _ hd5]
    simp only [except_ok_bind, except_bind_assoc]
    norm_num
    rw [deserializeStatusCode_drop buf 6 c _ hd6]
    simp only [except_ok_bind, except_bind_assoc]
    rw [deserializeOptionString_drop_none buf 7 _ hd7]
    simp only [except_ok_bind]
  | some v =>
    simp only at hv
    have hbuf : buf = 193 :: (be32 m ++ (129 :: (c.toU8 ::
        (1 :: ((be32 v.length ++ v) ++ ([] : List Nat)))))) := by
      rw [hbufdef]
      simp [chunksBytes, messageChunks, payloadChunks, msgTypeByte, PROTOCOL_VERSION, hm]
    have hlen : buf.length = 12 + v.length := by
      rw [hbuf]; simp [be32_length]; omega
    have hd0 : buf.drop 0 = 193 :: (be32 m ++ (129 :: (c.toU8 ::
        (1 :: ((be32 v.length ++ v) ++ ([] : List Nat)))))) := by
      rw [List.drop_zero, hbuf]
    have hd1 : buf.drop 1 = be32 m ++ (129 :: (c.toU8 ::
        (1 :: ((be32 v.length ++ v) ++ ([] : List Nat))))) := by
      rw [hbuf]; rfl
    have hd5 : buf.drop 5 = 129 :: (c.toU8 ::
        (1 :: ((be32 v.length ++ v) ++ ([] : List Nat)))) := by
      rw [show (5 : Nat) = 1 + 4 from rfl, ← List.drop_drop, hd1,
        show (4 : Nat) = (be32 m).length from (be32_length m).symm, List.drop_left]
    have hd6 : buf.drop 6 = c.toU8 :: (1 :: ((be32 v.length ++ v) ++ ([] : List Nat))) := by
      rw [show (6 : Nat) = 5 + 1 from rfl, ← List.drop_drop, hd5]
      rfl
    have hd7 : buf.drop 7 = 1 :: ((be32 v.length ++ v) ++ ([] : List Nat)) := by
      rw [show (7 : Nat) = 6 + 1 from rfl, ← List.drop_drop, hd6]
      rfl
    unfold fromBytesMessage deserializeHeader deserializePayload
    rw [readByte_drop buf 0 193 _ hd0]
    simp only [except_ok_bind, except_bind_assoc, Nat.zero_add]
    rw [readU32_drop buf 1 m _ hd1 (by omega) hmlt]
    simp only [except_ok_bind, except_bind_assoc]
    rw [show (1 : Nat) + 4 = 5 from rfl, readByte_drop buf 5 129 _ hd5]
    simp only [except_ok_bind, except_bind_assoc]
    norm_num
    rw [deserializeStatusCode_drop buf 6 c _ hd6]
    simp only [except_ok_bind, except_bind_assoc]
    rw [deserializeOptionString_drop_some buf 7 v _ hd7 hv]
    simp only [except_ok_bind]

theorem fromBytes_chunks (p : MessagePayload) (h : PayloadFits p) :
    fromBytesMessage (chunksBytes (messageChunks p)) = .ok p := by
  cases p with
  | reqSet key value => exact fromBytes_chunks_reqSet key value h.1 h.2
  | reqGet key => exact fromBytes_chunks_reqGet key h
  | reqRemove key => exact fromBytes_chunks_reqRemove key h
  | respSet code => exact fromBytes_chunks_respSet code
  | respGet code value => exact fromBytes_chunks_respGet code value h
  | respRemove code => exact fromBytes_chunks_respRemove code

theorem except_err_bind {α β : Type} (e : CpError) (f : α → Except CpError β) :
    ((Except.error e : Except CpError α) >>= f) = .error e := rfl

theorem writeAll_ok_inv (chunks : List (List Nat)) (L : Nat) (out : List Nat)
    (s' : Serializer) (h : writeAll ⟨L, out⟩ chunks = .ok s') :
    s' = ⟨L, out ++ chunksBytes chunks⟩ := by
  induction chunks generalizing out with
  | nil =>
    simp [writeAll] at h
    simp [chunksBytes, ← h]
  | cons c cs ih =>
    by_cases hc : out.length + c.length ≤ L
    · have hw : writeBytes ⟨L, out⟩ c = .ok ⟨L, out ++ c⟩ := by simp [writeBytes, hc]
      rw [writeAll, hw, except_ok_bind] at h
      have := ih (out ++ c) h
      rw [this]
      simp [chunksBytes]
    · have hw : writeBytes ⟨L, out⟩ c = .error .notEnoughSpaceInBuffer := by
        simp [writeBytes, hc]
      rw [writeAll, hw] at h
      exact absurd h (by simp [except_err_bind])
  
theorem serializeStr_err (s : Serializer) (str : List Nat) (h : u32Max < str.length) :
    serializeStr s str = .error .message := by
  simp [serializeStr, h]

theorem toBytes_ok_fits (p : MessagePayload) (L : Nat) (buf : List Nat)
    (h : toBytesMessage p L = .ok buf) : PayloadFits p := by
  by_contra hn
  unfold toBytesMessage serializeMessage serializePayload at h
  cases p with
  | reqSet key value =>
    simp only [PayloadFits, not_and_or, not_le] at hn
    rcases hw1 : writeBytes (⟨L, []⟩ : Serializer) [PROTOCOL_VERSION] with e1 | s1
    · rw [serializeU8, hw1] at h; exact absurd h (by simp [except_err_bind, Except.map])
    · rw [serializeU8, hw1] at h
      simp only [except_ok_bind] at h
      rcases hw2 : serializeU32 s1 (calcLenPayload (.reqSet key value)) with e2 | s2
      · rw [hw2] at h; exact absurd h (by simp [except_err_bind, Except.map])
      · rw [hw2] at h
        simp only [except_ok_bind] at h
        rcases hw3 : serializeU8 s2 (msgTypeByte (.reqSet key value)) with e3 | s3
        · rw [hw3] at h; exact absurd h (by simp [except_err_bind, Except.map])
        · rw [hw3] at h
          simp only [except_ok_bind] at h
          rcases hn with hn | hn
          · rw [serializeStr_err s3 key hn] at h
            exact absurd h (by simp [except_err_bind, Except.map])
          · rcases hw4 : serializeStr s3 key with e4 | s4
            · rw [hw4] at h; exact absurd h (by simp [except_err_bind, Except.map])
            · rw [hw4] at h
              simp only [except_ok_bind] at h
              rw [serializeStr_err s4 value hn] at h
              exact absurd h (by simp [Except.map])
  | reqGet key =>
    simp only [PayloadFits, not_le] at hn
    rcases hw1 : writeBytes (⟨L, []⟩ : Serializer) [PROTOCOL_VERSION] with e1 | s1
    · rw [serializeU8, hw1] at h; exact absurd h (by simp [except_err_bind, Except.map])
    · rw [serializeU8, hw1] at h
      simp only [except_ok_bind] at h
      rcases hw2 : serializeU32 s1 (calcLenPayload (.reqGet key)) with e2 | s2
      · rw [hw2] at h; exact absurd h (by simp [except_err_bind, Except.map])
      · rw [hw2] at h
        simp only [except_ok_bind] at h
        rcases hw3 : serializeU8 s2 (msgTypeByte (.reqGet key)) with e3 | s3
        · rw [hw3] at h; exact absurd h (by simp [except_err_bind, Except.map])
        · rw [hw3] at h
          simp only [except_ok_bind] at h
          rw [serializeStr_err s3 key hn] at h
          exact absurd h (by simp [Except.map])
  | reqRemove key =>
    simp only [PayloadFits, not_le] at hn
    rcases hw1 : writeBytes (⟨L, []⟩ : Serializer) [PROTOCOL_VERSION] with e1 | s1
    · rw [serializeU8, hw1] at h; exact absurd h (by simp [except_err_bind, Except.map])
    · rw [serializeU8, hw1] at h
      simp only [except_ok_bind] at h
      rcases hw2 : serializeU32 s1 (calcLenPayload (.reqRemove key)) with e2 | s2
      · rw [hw2] at h; exact absurd h (by simp [except_err_bind, Except.map])
      · rw [hw2] at h
        simp only [except_ok_bind] at h
        rcases hw3 : serializeU8 s2 (msgTypeByte (.reqRemove key)) with e3 | s3
        · rw [hw3] at h; exact absurd h (by simp [except_err_bind, Except.map])
        · rw [hw3] at h
          simp only [except_ok_bind] at h
          rw [serializeStr_err s3 key hn] at h
          exact absurd h (by simp [Except.map])
  | respSet code => exact hn trivial
  | respGet code value =>
    cases value with
    | none => exact hn trivial
    | some v =>
      simp only [PayloadFits, not_le] at hn
      rcases hw1 : writeBytes (⟨L, []⟩ : Serializer) [PROTOCOL_VERSION] with e1 | s1
      · rw [serializeU8, hw1] at h; exact absurd h (by simp [except_err_bind, Except.map])
      · rw [serializeU8, hw1] at h
        simp only [except_ok_bind] at h
        rcases hw2 : serializeU32 s1 (calcLenPayload (.respGet code (some v))) with e2 | s2
        · rw [hw2] at h; exact absurd h (by simp [except_err_bind, Except.map])
        · rw [hw2] at h
          simp only [except_ok_bind] at h
          rcases hw3 : serializeU8 s2 (msgTypeByte (.respGet code (some v))) with e3 | s3
          · rw [hw3] at h; exact absurd h (by simp [except_err_bind, Except.map])
          · rw [hw3] at h
            simp only [except_ok_bind] at h
            rcases hw4 : serializeStatusCode s3 code with e4 | s4
            · rw [hw4] at h; exact absurd h (by simp [except_err_bind, Except.map])
            · rw [hw4] at h
              simp only [except_ok_bind] at h
              unfold serializeOptionStr at h
              rcases hw5 : writeBytes s4 [1] with e5 | s5
              · rw [hw5] at h; exact absurd h (by simp [except_err_bind, Except.map])
              · rw [hw5] at h
                simp only [except_ok_bind] at h
                rw [serializeStr_err s5 v hn] at h
                exact absurd h (by simp [Except.map])
  | respRemove code => exact hn trivial

theorem toBytes_ok_inv (p : MessagePayload) (L : Nat) (buf : List Nat)
    (h : toBytesMessage p L = .ok buf) :
    PayloadFits p ∧ buf = chunksBytes (messageChunks p) := by
  have hfits := toBytes_ok_fits p L buf h
  refine ⟨hfits, ?_⟩
  unfold toBytesMessage at h
  rw [serializeMessage_eq _ p hfits] at h
  rcases hw : writeAll (⟨L, []⟩ : Serializer) (messageChunks p) with e | s'
  · rw [hw] at h; exact absurd h (by simp [Except.map])
  · rw [hw] at h
    have := writeAll_ok_inv (messageChunks p) L [] s' hw
    rw [this] at h
    simp [Except.map] at h
    simp [← h]

/-- C7: encode-decode round-trip.  Whenever encoding a message succeeds —
into a buffer of any size, in particular the `calc_len`-sized buffers the
server, client and tests use — decoding the produced bytes yields the
original message. -/
theorem c7_decode_encode_roundtrip (p : MessagePayload) (bufLen : Nat) (buf : List Nat)
    (h : toBytesMessage p bufLen = .ok buf) :
    fromBytesMessage buf = .ok p := by
  obtain ⟨hfits, rfl⟩ := toBytes_ok_inv p bufLen buf h
  exact fromBytes_chunks p hfits

/-- Witness for `c7_decode_encode_roundtrip` at the concrete message
`ResponseGet(Ok, Some("value"))` (the spec's own wire example, scenario 5 of
section 8) in a buffer of exactly 17 bytes. -/
theorem c7_witness :
    toBytesMessage (.respGet .ok (some [118, 97, 108, 117, 101])) 17 =
      .ok [193, 0, 0, 0, 12, 129, 0, 1, 0, 0, 0, 5, 118, 97, 108, 117, 101] ∧
    fromBytesMessage [193, 0, 0, 0, 12, 129, 0, 1, 0, 0, 0, 5, 118, 97, 108, 117, 101] =
      .ok (.respGet .ok (some [118, 97, 108, 117, 101])) :=
  ⟨by decide,
    c7_decode_encode_roundtrip (.respGet .ok (some [118, 97, 108, 117, 101])) 17
      [193, 0, 0, 0, 12, 129, 0, 1, 0, 0, 0, 5, 118, 97, 108, 117, 101] (by decide)⟩

/-! ### C8 -/

/-- C8 as stated is false: opening `truncatedDisk` (segment 0 holds a full
22-byte `Set("a","x")` record followed by a 3-byte truncated record, and
record decoding fails with `UnexpectedEof` at offset 22) succeeds and
ignores the partial record, but the append offset is 25 — the end of the
file, where `LogFileWriter::open` seeks (`SeekFrom::End(0)`) — not the
offset 22 at which decoding failed. -/
theorem c8_counterexample_append_offset_is_file_end :
    openStore truncatedDisk =
      .ok
        { storage_index := [([97], ⟨0, 0, 22⟩)]
          files := [(0, bincodeSerialize (.set [97] [120]) ++ [0, 0, 0])]
          curr_log := ⟨0, 1, 25⟩
          total_cmd_counter := 1
          curr_log_r := 0
          last_collected_file_index := -1
          io_ok := true } ∧
    scanStop (bincodeSerialize (.set [97] [120]) ++ [0, 0, 0]) = 22 ∧
    (25 : Nat) ≠ 22 := by decide

/-! ### The engine invariant: preservation by every operation, establishment
at `open`, and the claims C2 and C8 -/

theorem bincodeSerialize_length_set (k v : List Nat) :
    (bincodeSerialize (.set k v)).length = 20 + k.length + v.length := by
  simp [bincodeSerialize, le32, le64]
  omega

theorem bincodeSerialize_length_remove (k : List Nat) :
    (bincodeSerialize (.remove k)).length = 12 + k.length := by
  simp [bincodeSerialize, le32, le64]
  omega

theorem bincodeSerialize_length_pos (c : Command) : 0 < (bincodeSerialize c).length := by
  cases c with
  | set k v => rw [bincodeSerialize_length_set]; omega
  | remove k => rw [bincodeSerialize_length_remove]; omega

theorem bytesToNatLE_le64 (n : Nat) (h : n < 2 ^ 64) : bytesToNatLE (le64 n) = n := by
  simp [le64, bytesToNatLE]
  omega

theorem bytesToNatLE_le32 (n : Nat) (h : n < 2 ^ 32) : bytesToNatLE (le32 n) = n := by
  simp [le32, bytesToNatLE]
  omega

theorem binTake_append (a rest : List Nat) :
    binTake a.length (a ++ rest) = .ok (a, rest) := by
  rw [binTake, if_pos (by simp), List.take_left, List.drop_left]

theorem except_ok_bindB {α β : Type} (a : α) (f : α → Except BincodeErr β) :
    ((Except.ok a : Except BincodeErr α) >>= f) = f a := rfl

theorem except_err_bindB {α β : Type} (e : BincodeErr) (f : α → Except BincodeErr β) :
    ((Except.error e : Except BincodeErr α) >>= f) = .error e := rfl

theorem binReadString_append (s rest : List Nat) (h : s.length < 2 ^ 64) :
    binReadString ((le64 s.length ++ s) ++ rest) = .ok (s, rest) := by
  unfold binReadString
  rw [show (le64 s.length ++ s) ++ rest = le64 s.length ++ (s ++ rest) by simp,
    show (8 : Nat) = (le64 s.length).length from rfl, binTake_append, except_ok_bindB]
  have h0 : bytesToNatLE (le64 s.length) = s.length := bytesToNatLE_le64 s.length h
  simp only [h0]
  exact binTake_append s rest

theorem bincodeDeserialize_encode (c : Command) (hwf : WfCmd c) (rest : List Nat) :
    bincodeDeserialize (bincodeSerialize c ++ rest) = .ok (c, rest) := by
  cases c with
  | set k v =>
    obtain ⟨hk, hv⟩ := hwf
    unfold bincodeDeserialize bincodeSerialize
    rw [show (le32 0 ++ le64 k.length ++ k ++ le64 v.length ++ v) ++ rest =
      le32 0 ++ (((le64 k.length ++ k) ++ ((le64 v.length ++ v) ++ rest))) by simp,
      show (4 : Nat) = (le32 0).length from rfl, binTake_append, except_ok_bindB]
    have h0 : bytesToNatLE (le32 0) = 0 := bytesToNatLE_le32 0 (by norm_num)
    simp only [h0, if_true, reduceIte]
    rw [binReadString_append k _ hk]
    simp only [except_ok_bindB]
    rw [binReadString_append v rest hv]
    simp only [except_ok_bindB]
  | remove k =>
    unfold bincodeDeserialize bincodeSerialize
    rw [show (le32 1 ++ le64 k.length ++ k) ++ rest =
      le32 1 ++ ((le64 k.length ++ k) ++ rest) by simp,
      show (4 : Nat) = (le32 1).length from rfl, binTake_append, except_ok_bindB]
    have h1 : bytesToNatLE (le32 1) = 1 := bytesToNatLE_le32 1 (by norm_num)
    simp only [h1, Nat.one_ne_zero, if_false, if_true, reduceIte]
    rw [binReadString_append k rest hwf]
    simp only [except_ok_bindB]

theorem binTake_inv (n : Nat) (l a r : List Nat) (h : binTake n l = .ok (a, r)) :
    l = a ++ r ∧ a.length = n ∧ n ≤ l.length := by
  unfold binTake at h
  by_cases hn : n ≤ l.length
  · rw [if_pos hn] at h
    simp only [Except.ok.injEq, Prod.mk.injEq] at h
    obtain ⟨ha, hr⟩ := h
    refine ⟨?_, ?_, hn⟩
    · rw [← ha, ← hr, List.take_append_drop]
    · rw [← ha, List.length_take]; omega
  · rw [if_neg hn] at h
    exact absurd h (by simp)

theorem bytesLt_append_left {a b : List Nat} (h : bytesLt (a ++ b)) : bytesLt a :=
  fun x hx => h x (List.mem_append_left b hx)

theorem bytesLt_append_right {a b : List Nat} (h : bytesLt (a ++ b)) : bytesLt b :=
  fun x hx => h x (List.mem_append_right a hx)

theorem le64_of_bytes (l : List Nat) (h8 : l.length = 8) (hb : bytesLt l) :
    le64 (bytesToNatLE l) = l := by
  match l, h8 with
  | [b0, b1, b2, b3, b4, b5, b6, b7], _ =>
    have h0 := hb b0 (by simp)
    have h1 := hb b1 (by simp)
    have h2 := hb b2 (by simp)
    have h3 := hb b3 (by simp)
    have h4 := hb b4 (by simp)
    have h5 := hb b5 (by simp)
    have h6 := hb b6 (by simp)
    have h7 := hb b7 (by simp)
    simp only [le64, bytesToNatLE, List.foldr, List.cons.injEq, and_true]
    omega

theorem le32_of_bytes (l : List Nat) (h4 : l.length = 4) (hb : bytesLt l) :
    le32 (bytesToNatLE l) = l := by
  match l, h4 with
  | [b0, b1, b2, b3], _ =>
    have h0 := hb b0 (by simp)
    have h1 := hb b1 (by simp)
    have h2 := hb b2 (by simp)
    have h3 := hb b3 (by simp)
    simp only [le32, bytesToNatLE, List.foldr, List.cons.injEq, and_true]
    omega

theorem bytesToNatLE_lt (l : List Nat) (h8 : l.length = 8) (hb : bytesLt l) :
    bytesToNatLE l < 2 ^ 64 := by
  match l, h8 with
  | [b0, b1, b2, b3, b4, b5, b6, b7], _ =>
    have h0 := hb b0 (by simp)
    have h1 := hb b1 (by simp)
    have h2 := hb b2 (by simp)
    have h3 := hb b3 (by simp)
    have h4 := hb b4 (by simp)
    have h5 := hb b5 (by simp)
    have h6 := hb b6 (by simp)
    have h7 := hb b7 (by simp)
    simp only [bytesToNatLE, List.foldr]
    omega

theorem binReadString_inv (l s r : List Nat) (h : binReadString l = .ok (s, r))
    (hb : bytesLt l) :
    l = (le64 s.length ++ s) ++ r ∧ s.length < 2 ^ 64 := by
  unfold binReadString at h
  cases h8 : binTake 8 l with
  | error e => rw [h8] at h; exact absurd h (by simp [except_err_bindB])
  | ok pair =>
    obtain ⟨lenBytes, l1⟩ := pair
    rw [h8] at h
    simp only [except_ok_bindB] at h
    obtain ⟨hl, hlen8, _⟩ := binTake_inv 8 l lenBytes l1 h8
    obtain ⟨hl1, hslen, _⟩ := binTake_inv _ l1 s r h
    have hbLen : bytesLt lenBytes := by rw [hl] at hb; exact bytesLt_append_left hb
    have hlt : bytesToNatLE lenBytes < 2 ^ 64 := bytesToNatLE_lt lenBytes hlen8 hbLen
    have hle64 : le64 s.length = lenBytes := by
      rw [hslen, le64_of_bytes lenBytes hlen8 hbLen]
    constructor
    · rw [hl, hl1, hle64]
      simp
    · rw [hslen]; exact hlt

theorem bincodeDeserialize_inv (l : List Nat) (c : Command) (r : List Nat)
    (h : bincodeDeserialize l = .ok (c, r)) (hb : bytesLt l) :
    l = bincodeSerialize c ++ r ∧ WfCmd c := by
  unfold bincodeDeserialize at h
  cases h4 : binTake 4 l with
  | error e => rw [h4] at h; exact absurd h (by simp [except_err_bindB])
  | ok pair =>
    obtain ⟨tagBytes, l1⟩ := pair
    rw [h4] at h
    simp only [except_ok_bindB] at h
    obtain ⟨hl, hlen4, _⟩ := binTake_inv 4 l tagBytes l1 h4
    have hbTag : bytesLt tagBytes := by rw [hl] at hb; exact bytesLt_append_left hb
    have hbl1 : bytesLt l1 := by rw [hl] at hb; exact bytesLt_append_right hb
    by_cases ht0 : bytesToNatLE tagBytes = 0
    · rw [if_pos ht0] at h
      cases hk : binReadString l1 with
      | error e => rw [hk] at h; exact absurd h (by simp [except_err_bindB])
      | ok pk =>
        obtain ⟨k, l2⟩ := pk
        rw [hk] at h
        simp only [except_ok_bindB] at h
        cases hv : binReadString l2 with
        | error e => rw [hv] at h; exact absurd h (by simp [except_err_bindB])
        | ok pv =>
          obtain ⟨v, l3⟩ := pv
          rw [hv] at h
          simp only [except_ok_bindB, Except.ok.injEq, Prod.mk.injEq] at h
          obtain ⟨hc, hr⟩ := h
          obtain ⟨hl1eq, hklt⟩ := binReadString_inv l1 k l2 hk hbl1
          have hbl2 : bytesLt l2 := by
            rw [hl1eq] at hbl1; exact bytesLt_append_right hbl1
          obtain ⟨hl2eq, hvlt⟩ := binReadString_inv l2 v l3 hv hbl2
          have htag : tagBytes = le32 0 := by
            rw [← ht0, le32_of_bytes tagBytes hlen4 hbTag]
          subst hc hr
          refine ⟨?_, ⟨hklt, hvlt⟩⟩
          rw [hl, hl1eq, hl2eq, htag]
          simp [bincodeSerialize]
    · by_cases ht1 : bytesToNatLE tagBytes = 1
      · rw [if_neg ht0, if_pos ht1] at h
        cases hk : binReadString l1 with
        | error e => rw [hk] at h; exact absurd h (by simp [except_err_bindB])
        | ok pk =>
          obtain ⟨k, l2⟩ := pk
          rw [hk] at h
          simp only [except_ok_bindB, Except.ok.injEq, Prod.mk.injEq] at h
          obtain ⟨hc, hr⟩ := h
          obtain ⟨hl1eq, hklt⟩ := binReadString_inv l1 k l2 hk hbl1
          have htag : tagBytes = le32 1 := by
            rw [← ht1, le32_of_bytes tagBytes hlen4 hbTag]
          subst hc hr
          refine ⟨?_, hklt⟩
          rw [hl, hl1eq, htag]
          simp [bincodeSerialize]
      · rw [if_neg ht0, if_neg ht1] at h
        exact absurd h (by simp)

theorem cmdsBytes_nil : cmdsBytes [] = [] := rfl

theorem cmdsBytes_cons (c : Command) (cs : List Command) :
    cmdsBytes (c :: cs) = bincodeSerialize c ++ cmdsBytes cs := rfl

theorem cmdsBytes_append (a b : List Command) :
    cmdsBytes (a ++ b) = cmdsBytes a ++ cmdsBytes b := by
  induction a with
  | nil => simp [cmdsBytes_nil, cmdsBytes]
  | cons c cs ih => simp [cmdsBytes_cons, ih]

theorem recordsFrom_append (off : Nat) (a b : List Command) :
    recordsFrom off (a ++ b) =
      recordsFrom off a ++ recordsFrom (off + (cmdsBytes a).length) b := by
  induction a generalizing off with
  | nil => simp [recordsFrom, cmdsBytes_nil]
  | cons c cs ih =>
    simp only [List.cons_append, List.append_eq, recordsFrom, ih, cmdsBytes_cons,
      List.length_append, Nat.add_assoc]

theorem scanAux_eof (fuel : Nat) (junk : List Nat) (off : Nat)
    (hjunk : bincodeDeserialize junk = .error .eof) (hf : 0 < fuel) :
    scanAux fuel junk off = .ok [] off := by
  cases fuel with
  | zero => omega
  | succ f => rw [scanAux, hjunk]

theorem scanAux_step_other (f : Nat) (rem : List Nat) (off : Nat)
    (hdec : bincodeDeserialize rem = .error .other) :
    scanAux (f + 1) rem off = .fatal := by
  rw [scanAux, hdec]

theorem scanAux_step_ok (f : Nat) (rem : List Nat) (off : Nat) (c : Command)
    (rest : List Nat) (hdec : bincodeDeserialize rem = .ok (c, rest)) :
    scanAux (f + 1) rem off =
      (match scanAux f rest (off + (rem.length - rest.length)) with
       | .ok records stop => .ok ((off, c) :: records) stop
       | .fatal => .fatal) := by
  rw [scanAux, hdec]

theorem scanAux_encode (cmds : List Command) (junk : List Nat) (off fuel : Nat)
    (hwf : WfCmds cmds) (hjunk : bincodeDeserialize junk = .error .eof)
    (hfuel : (cmdsBytes cmds ++ junk).length < fuel) :
    scanAux fuel (cmdsBytes cmds ++ junk) off =
      .ok (recordsFrom off cmds) (off + (cmdsBytes cmds).length) := by
  induction cmds generalizing off fuel with
  | nil =>
    simp only [cmdsBytes_nil, List.nil_append] at hfuel ⊢
    rw [scanAux_eof fuel junk off hjunk (by omega), recordsFrom]
    simp
  | cons c cs ih =>
    have hc : WfCmd c := hwf c (by simp)
    have hcs : WfCmds cs := fun x hx => hwf x (by simp [hx])
    cases fuel with
    | zero => simp at hfuel
    | succ f =>
      rw [cmdsBytes_cons, List.append_assoc,
        scanAux_step_ok f _ off c _ (bincodeDeserialize_encode c hc (cmdsBytes cs ++ junk))]
      have hn : (bincodeSerialize c ++ (cmdsBytes cs ++ junk)).length -
          (cmdsBytes cs ++ junk).length = (bincodeSerialize c).length := by
        simp
      rw [hn]
      have hfuel' : (cmdsBytes cs ++ junk).length < f := by
        have hpos := bincodeSerialize_length_pos c
        simp only [cmdsBytes_cons] at hfuel
        simp only [List.length_append] at hfuel ⊢
        omega
      rw [ih (off + (bincodeSerialize c).length) f hcs hfuel']
      simp only [recordsFrom, cmdsBytes_cons, List.length_append, Nat.add_assoc]

theorem scanAux_sound (fuel : Nat) (rem : List Nat) (off : Nat)
    (recs : List (Nat × Command)) (stop : Nat)
    (h : scanAux fuel rem off = .ok recs stop) (hb : bytesLt rem) :
    ∃ cmds junk, rem = cmdsBytes cmds ++ junk ∧ recs = recordsFrom off cmds ∧
      stop = off + (cmdsBytes cmds).length ∧
      bincodeDeserialize junk = .error .eof ∧ WfCmds cmds := by
  induction fuel generalizing rem off recs stop with
  | zero => exact absurd h (by simp [scanAux])
  | succ f ih =>
    cases hdec : bincodeDeserialize rem with
    | error e =>
      cases e with
      | eof =>
        rw [scanAux_eof (f + 1) rem off hdec (by omega)] at h
        simp only [ScanOut.ok.injEq] at h
        obtain ⟨hrecs, hstop⟩ := h
        exact ⟨[], rem, by simp [cmdsBytes_nil], by simp [recordsFrom, ← hrecs],
          by simp [← hstop, cmdsBytes_nil], hdec, fun c hc => absurd hc (by simp)⟩
      | other =>
        rw [scanAux_step_other f rem off hdec] at h
        exact absurd h (by simp)
    | ok pair =>
      obtain ⟨c, rest⟩ := pair
      rw [scanAux_step_ok f rem off c rest hdec] at h
      obtain ⟨hremEq, hwfc⟩ := bincodeDeserialize_inv rem c rest hdec hb
      cases hrec : scanAux f rest (off + (rem.length - rest.length)) with
      | fatal => rw [hrec] at h; exact absurd h (by simp)
      | ok recs' stop' =>
        rw [hrec] at h
        simp only [ScanOut.ok.injEq] at h
        obtain ⟨hrecs, hstop⟩ := h
        have hbrest : bytesLt rest := by
          rw [hremEq] at hb; exact bytesLt_append_right hb
        have hn : rem.length - rest.length = (bincodeSerialize c).length := by
          rw [hremEq]; simp
        rw [hn] at hrec
        obtain ⟨cmds2, junk, hrest, hrecs2, hstop2, hjunk, hwf2⟩ :=
          ih rest (off + (bincodeSerialize c).length) recs' stop' hrec hbrest
        refine ⟨c :: cmds2, junk, ?_, ?_, ?_, hjunk, ?_⟩
        · rw [hremEq, hrest, cmdsBytes_cons]; simp
        · rw [← hrecs, hrecs2, recordsFrom]
        · rw [← hstop, hstop2, cmdsBytes_cons]
          simp only [List.length_append]
          omega
        · intro x hx
          rcases List.mem_cons.mp hx with hx | hx
          · rw [hx]; exact hwfc
          · exact hwf2 x hx

theorem mem_recordsFrom_ge (o : Nat) (x : Command) (off : Nat) (cmds : List Command)
    (h : (o, x) ∈ recordsFrom off cmds) : off ≤ o := by
  induction cmds generalizing off with
  | nil => simp [recordsFrom] at h
  | cons c cs ih =>
    rcases List.mem_cons.mp h with h | h
    · simp only [Prod.mk.injEq] at h
      omega
    · have := ih (off + (bincodeSerialize c).length) h
      omega

theorem mem_recordsFrom_cons (o : Nat) (x : Command) (off : Nat) (c : Command)
    (cs : List Command) (h : (o, x) ∈ recordsFrom off (c :: cs)) :
    (o = off ∧ x = c) ∨
      ((o, x) ∈ recordsFrom (off + (bincodeSerialize c).length) cs ∧
        off + (bincodeSerialize c).length ≤ o) := by
  rcases List.mem_cons.mp h with h | h
  · simp only [Prod.mk.injEq] at h
    exact Or.inl ⟨h.1, h.2⟩
  · exact Or.inr ⟨h, mem_recordsFrom_ge o x _ cs h⟩

theorem recordsFrom_offset_unique (o : Nat) (x y : Command) (off : Nat) (cmds : List Command)
    (hx : (o, x) ∈ recordsFrom off cmds) (hy : (o, y) ∈ recordsFrom off cmds) : x = y := by
  induction cmds generalizing off with
  | nil => simp [recordsFrom] at hx
  | cons c cs ih =>
    have hpos := bincodeSerialize_length_pos c
    rcases mem_recordsFrom_cons o x off c cs hx with ⟨ho, hx'⟩ | ⟨hx', hox⟩
    · rcases mem_recordsFrom_cons o y off c cs hy with ⟨_, hy'⟩ | ⟨_, hoy⟩
      · rw [hx', hy']
      · omega
    · rcases mem_recordsFrom_cons o y off c cs hy with ⟨ho, _⟩ | ⟨hy', _⟩
      · omega
      · exact ih (off + (bincodeSerialize c).length) hx' hy'

theorem mem_recordsFrom_slice (o : Nat) (x : Command) (off : Nat) (cmds : List Command)
    (h : (o, x) ∈ recordsFrom off cmds) :
    ∃ pre post, cmdsBytes cmds = pre ++ (bincodeSerialize x ++ post) ∧
      o = off + pre.length := by
  induction cmds generalizing off with
  | nil => simp [recordsFrom] at h
  | cons c cs ih =>
    rcases List.mem_cons.mp h with h | h
    · simp only [Prod.mk.injEq] at h
      refine ⟨[], cmdsBytes cs, ?_, ?_⟩
      · rw [cmdsBytes_cons, h.2]; simp
      · simp [h.1]
    · obtain ⟨pre, post, hcb, ho⟩ := ih (off + (bincodeSerialize c).length) h
      refine ⟨bincodeSerialize c ++ pre, post, ?_, ?_⟩
      · rw [cmdsBytes_cons, hcb]; simp
      · rw [ho]; simp; omega

theorem bincodeDeserialize_nil : bincodeDeserialize ([] : List Nat) = .error .eof := rfl

theorem scanFile_cmdsBytes (cmds : List Command) (hwf : WfCmds cmds) :
    scanFile (cmdsBytes cmds) = .ok (recordsFrom 0 cmds) (cmdsBytes cmds).length := by
  unfold scanFile
  have := scanAux_encode cmds [] 0 ((cmdsBytes cmds).length + 1) hwf bincodeDeserialize_nil
    (by simp)
  simp only [List.append_nil] at this
  rw [this]
  simp

theorem WfFile_decomp (content : List Nat) (h : WfFile content) :
    ∃ cmds, content = cmdsBytes cmds ∧ WfCmds cmds ∧
      recordsOf content = recordsFrom 0 cmds := by
  obtain ⟨hok, hstop, hb⟩ := h
  cases hscan : scanFile content with
  | fatal => rw [scanOk, hscan] at hok; exact absurd hok (by simp)
  | ok recs stop =>
    obtain ⟨cmds, junk, hcontent, hrecs, hstop', hjunk, hwf⟩ :=
      scanAux_sound (content.length + 1) content 0 recs stop hscan hb
    rw [scanStop, hscan] at hstop
    have hstop2 : stop = content.length := hstop
    have hjunkNil : junk = [] := by
      have hlen := congrArg List.length hcontent
      simp only [List.length_append] at hlen
      refine List.eq_nil_of_length_eq_zero ?_
      omega
    refine ⟨cmds, ?_, hwf, ?_⟩
    · rw [hcontent, hjunkNil]; simp
    · rw [recordsOf, hscan, hrecs]

theorem ScanTolerant_decomp (content : List Nat) (h : ScanTolerant content) :
    ∃ cmds junk, content = cmdsBytes cmds ++ junk ∧ WfCmds cmds ∧
      recordsOf content = recordsFrom 0 cmds ∧
      scanStop content = (cmdsBytes cmds).length ∧
      bincodeDeserialize junk = .error .eof := by
  obtain ⟨hok, hb⟩ := h
  cases hscan : scanFile content with
  | fatal => rw [scanOk, hscan] at hok; exact absurd hok (by simp)
  | ok recs stop =>
    obtain ⟨cmds, junk, hcontent, hrecs, hstop', hjunk, hwf⟩ :=
      scanAux_sound (content.length + 1) content 0 recs stop hscan hb
    refine ⟨cmds, junk, hcontent, hwf, ?_, ?_, hjunk⟩
    · rw [recordsOf, hscan, hrecs]
    · rw [scanStop, hscan]
      show stop = (cmdsBytes cmds).length
      omega

theorem bytesLt_le32 (n : Nat) : bytesLt (le32 n) := by
  intro b hb
  simp [le32] at hb
  rcases hb with h | h | h | h <;> omega

theorem bytesLt_le64 (n : Nat) : bytesLt (le64 n) := by
  intro b hb
  simp [le64] at hb
  rcases hb with h | h | h | h | h | h | h | h <;> omega

theorem bytesLt_append {a b : List Nat} (ha : bytesLt a) (hb : bytesLt b) :
    bytesLt (a ++ b) := by
  intro x hx
  rcases List.mem_append.mp hx with h | h
  · exact ha x h
  · exact hb x h

theorem bytesLt_bincodeSerialize (c : Command) (h : CmdBytesOk c) :
    bytesLt (bincodeSerialize c) := by
  cases c with
  | set k v =>
    exact bytesLt_append (bytesLt_append (bytesLt_append
      (bytesLt_append (bytesLt_le32 0) (bytesLt_le64 k.length)) h.1)
      (bytesLt_le64 v.length)) h.2
  | remove k =>
    exact bytesLt_append (bytesLt_append (bytesLt_le32 1) (bytesLt_le64 k.length)) h

theorem CmdBytesOk_of_bytesLt (c : Command) (h : bytesLt (bincodeSerialize c)) :
    CmdBytesOk c := by
  cases c with
  | set k v =>
    constructor
    · intro b hb
      exact h b (by simp [bincodeSerialize, hb])
    · intro b hb
      exact h b (by simp [bincodeSerialize, hb])
  | remove k =>
    intro b hb
    exact h b (by simp [bincodeSerialize, hb])

theorem WfFile_nil : WfFile ([] : List Nat) := by
  refine ⟨?_, ?_, ?_⟩
  · rfl
  · rfl
  · intro b hb
    simp at hb

theorem recordsOf_nil : recordsOf ([] : List Nat) = [] := rfl

theorem WfFile_append (content : List Nat) (cmd : Command) (h : WfFile content)
    (hc : WfCmd cmd) (hcb : CmdBytesOk cmd) :
    WfFile (content ++ bincodeSerialize cmd) ∧
    recordsOf (content ++ bincodeSerialize cmd) =
      recordsOf content ++ [(content.length, cmd)] := by
  obtain ⟨cmds, hcontent, hwf, hrecs⟩ := WfFile_decomp content h
  have hwf' : WfCmds (cmds ++ [cmd]) := by
    intro x hx
    rcases List.mem_append.mp hx with hx | hx
    · exact hwf x hx
    · simp at hx; rw [hx]; exact hc
  have hnew : content ++ bincodeSerialize cmd = cmdsBytes (cmds ++ [cmd]) := by
    rw [hcontent, cmdsBytes_append, cmdsBytes_cons, cmdsBytes_nil]
    simp
  have hscan := scanFile_cmdsBytes (cmds ++ [cmd]) hwf'
  have hbytes : bytesLt (content ++ bincodeSerialize cmd) :=
    bytesLt_append h.2.2 (bytesLt_bincodeSerialize cmd hcb)
  constructor
  · refine ⟨?_, ?_, hbytes⟩
    · rw [scanOk, hnew, hscan]
    · rw [scanStop, hnew, hscan]
  · rw [recordsOf, hnew, hscan, recordsFrom_append, hrecs, hcontent]
    simp [recordsFrom]

theorem records_within (content : List Nat) (h : WfFile content) (o : Nat) (c : Command)
    (hmem : (o, c) ∈ recordsOf content) :
    (content.drop o).take (bincodeSerialize c).length = bincodeSerialize c ∧
      o + (bincodeSerialize c).length ≤ content.length := by
  obtain ⟨cmds, hcontent, hwf, hrecs⟩ := WfFile_decomp content h
  rw [hrecs] at hmem
  obtain ⟨pre, post, hcb, ho⟩ := mem_recordsFrom_slice o c 0 cmds hmem
  have ho' : o = pre.length := by omega
  constructor
  · rw [hcontent, hcb, ho', List.drop_left, List.take_left]
  · rw [hcontent, hcb, ho']
    simp

theorem records_within_stop (content : List Nat) (h : ScanTolerant content) (o : Nat)
    (c : Command) (hmem : (o, c) ∈ recordsOf content) :
    o + (bincodeSerialize c).length ≤ scanStop content := by
  obtain ⟨cmds, junk, hcontent, hwf, hrecs, hstop, hjunk⟩ := ScanTolerant_decomp content h
  rw [hrecs] at hmem
  obtain ⟨pre, post, hcb, ho⟩ := mem_recordsFrom_slice o c 0 cmds hmem
  have := congrArg List.length hcb
  simp only [List.length_append] at this
  rw [hstop]
  omega

theorem fileLookup_mem (files : List (Nat × List Nat)) (id : Nat) (c : List Nat)
    (h : fileLookup files id = some c) : (id, c) ∈ files := by
  unfold fileLookup at h
  cases hf : files.find? (fun f => f.1 = id) with
  | none => rw [hf] at h; exact absurd h (by simp)
  | some e =>
    rw [hf] at h
    simp at h
    have hmem := List.mem_of_find?_eq_some hf
    have hpred := List.find?_some hf
    simp only [decide_eq_true_eq] at hpred
    have he : e = (id, c) := by rw [← hpred, ← h]
    rw [← he]
    exact hmem

theorem mem_fileLookup (files : List (Nat × List Nat)) (id : Nat) (c : List Nat)
    (hp : files.Pairwise (fun a b => a.1 < b.1)) (h : (id, c) ∈ files) :
    fileLookup files id = some c := by
  induction files with
  | nil => simp at h
  | cons f fs ih =>
    rcases List.mem_cons.mp h with h | h
    · rw [← h]
      unfold fileLookup
      rw [List.find?_cons_of_pos _ (by simp)]
      rfl
    · have hne : ¬ f.1 = id := by
        have := (List.pairwise_cons.mp hp).1 (id, c) h
        simp only at this
        omega
      unfold fileLookup
      rw [List.find?_cons_of_neg _ (by simpa using hne)]
      exact ih (List.pairwise_cons.mp hp).2 h

theorem fileLookup_fileAppend_self (files : List (Nat × List Nat)) (id : Nat)
    (bs c : List Nat) (h : fileLookup files id = some c) :
    fileLookup (fileAppendBytes files id bs) id = some (c ++ bs) := by
  unfold fileLookup fileAppendBytes at *
  induction files with
  | nil => simp at h
  | cons f fs ih =>
    by_cases hf : f.1 = id
    · rw [List.find?_cons_of_pos _ (by simpa using hf)] at h
      simp at h
      simp only [List.map_cons, if_pos hf]
      rw [List.find?_cons_of_pos _ (by simpa using hf)]
      show some (f.2 ++ bs) = some (c ++ bs)
      rw [h]
    · rw [List.find?_cons_of_neg _ (by simpa using hf)] at h
      simp only [List.map_cons, if_neg hf]
      rw [List.find?_cons_of_neg _ (by simpa using hf)]
      exact ih h

theorem fileLookup_fileAppend_ne (files : List (Nat × List Nat)) (id : Nat)
    (bs : List Nat) (id' : Nat) (h : id' ≠ id) :
    fileLookup (fileAppendBytes files id bs) id' = fileLookup files id' := by
  unfold fileLookup fileAppendBytes
  congr 1
  induction files with
  | nil => rfl
  | cons f fs ih =>
    by_cases hf : f.1 = id
    · have hf' : ¬ f.1 = id' := by rw [hf]; exact Ne.symm h
      simp only [List.map_cons, if_pos hf]
      rw [List.find?_cons_of_neg _ (by simpa using hf'),
        List.find?_cons_of_neg _ (by simpa using hf'), ih]
    · simp only [List.map_cons, if_neg hf]
      by_cases hf' : f.1 = id'
      · rw [List.find?_cons_of_pos _ (by simpa using hf'),
          List.find?_cons_of_pos _ (by simpa using hf')]
      · rw [List.find?_cons_of_neg _ (by simpa using hf'),
          List.find?_cons_of_neg _ (by simpa using hf'), ih]

theorem mem_fileAppendBytes (files : List (Nat × List Nat)) (id : Nat) (bs : List Nat)
    (f' : Nat × List Nat) (h : f' ∈ fileAppendBytes files id bs) :
    (f' ∈ files ∧ f'.1 ≠ id) ∨ ∃ c, (id, c) ∈ files ∧ f' = (id, c ++ bs) := by
  unfold fileAppendBytes at h
  obtain ⟨f, hfmem, hf⟩ := List.mem_map.mp h
  by_cases hid : f.1 = id
  · right
    refine ⟨f.2, ?_, ?_⟩
    · have : f = (id, f.2) := by
        obtain ⟨f1, f2⟩ := f
        simp only at hid
        rw [hid]
      rw [← this]; exact hfmem
    · rw [← hf, if_pos hid, hid]
  · left
    rw [← hf, if_neg hid]
    exact ⟨hfmem, hid⟩

theorem fileAppendBytes_pairwise (files : List (Nat × List Nat)) (id : Nat) (bs : List Nat)
    (h : files.Pairwise (fun a b => a.1 < b.1)) :
    (fileAppendBytes files id bs).Pairwise (fun a b => a.1 < b.1) := by
  unfold fileAppendBytes
  refine h.map _ ?_
  intro a b hab
  by_cases ha : a.1 = id <;> by_cases hb : b.1 = id <;>
    simp only [if_pos, if_neg, ha, hb, reduceIte] <;> omega

theorem fileAppendBytes_maxId (files : List (Nat × List Nat)) (id : Nat) (bs : List Nat)
    (bound : Nat) (h : ∀ f ∈ files, f.1 ≤ bound) :
    ∀ f ∈ fileAppendBytes files id bs, f.1 ≤ bound := by
  intro f' hf'
  rcases mem_fileAppendBytes files id bs f' hf' with ⟨hmem, _⟩ | ⟨c, hmem, hf⟩
  · exact h f' hmem
  · rw [hf]
    exact h (id, c) hmem

theorem mem_fileDelete (files : List (Nat × List Nat)) (id : Nat) (f : Nat × List Nat)
    (h : f ∈ fileDelete files id) : f ∈ files ∧ ¬ f.1 = id := by
  unfold fileDelete at h
  refine ⟨List.mem_of_mem_filter h, ?_⟩
  have := List.of_mem_filter h
  simpa using this

theorem fileDelete_pairwise (files : List (Nat × List Nat)) (id : Nat)
    (h : files.Pairwise (fun a b => a.1 < b.1)) :
    (fileDelete files id).Pairwise (fun a b => a.1 < b.1) :=
  h.sublist (List.filter_sublist files)

theorem fileLookup_fileDelete_ne (files : List (Nat × List Nat)) (id id' : Nat)
    (h : id' ≠ id) : fileLookup (fileDelete files id) id' = fileLookup files id' := by
  unfold fileLookup fileDelete
  congr 1
  induction files with
  | nil => rfl
  | cons f fs ih =>
    by_cases hf : f.1 = id
    · have hf' : ¬ f.1 = id' := by rw [hf]; exact Ne.symm h
      rw [List.filter_cons_of_neg (by simpa using hf),
        List.find?_cons_of_neg _ (by simpa using hf'), ih]
    · by_cases hf' : f.1 = id'
      · rw [List.filter_cons_of_pos (by simpa using hf),
          List.find?_cons_of_pos _ (by simpa using hf'),
          List.find?_cons_of_pos _ (by simpa using hf')]
      · rw [List.filter_cons_of_pos (by simpa using hf),
          List.find?_cons_of_neg _ (by simpa using hf'),
          List.find?_cons_of_neg _ (by simpa using hf'), ih]

theorem fileLookup_append_single_self (files : List (Nat × List Nat)) (id : Nat)
    (c : List Nat) (h : ∀ f ∈ files, ¬ f.1 = id) :
    fileLookup (files ++ [(id, c)]) id = some c := by
  unfold fileLookup
  induction files with
  | nil =>
    rw [List.nil_append, List.find?_cons_of_pos _ (by simp)]
    rfl
  | cons f fs ih =>
    rw [List.cons_append, List.find?_cons_of_neg _ (by simpa using h f (by simp))]
    exact ih (fun g hg => h g (by simp [hg]))

theorem fileLookup_append_single_ne (files : List (Nat × List Nat)) (id : Nat)
    (c : List Nat) (id' : Nat) (h : id' ≠ id) :
    fileLookup (files ++ [(id, c)]) id' = fileLookup files id' := by
  unfold fileLookup
  congr 1
  induction files with
  | nil =>
    rw [List.nil_append, List.find?_cons_of_neg _ (by simpa using Ne.symm h)]
  | cons f fs ih =>
    by_cases hf : f.1 = id'
    · rw [List.cons_append, List.find?_cons_of_pos _ (by simpa using hf),
        List.find?_cons_of_pos _ (by simpa using hf)]
    · rw [List.cons_append, List.find?_cons_of_neg _ (by simpa using hf),
        List.find?_cons_of_neg _ (by simpa using hf), ih]

theorem pairwise_append_single (files : List (Nat × List Nat)) (id : Nat) (c : List Nat)
    (hp : files.Pairwise (fun a b => a.1 < b.1)) (h : ∀ f ∈ files, f.1 < id) :
    (files ++ [(id, c)]).Pairwise (fun a b => a.1 < b.1) := by
  rw [List.pairwise_append]
  refine ⟨hp, by simp, ?_⟩
  intro a ha b hb
  simp only [List.mem_singleton] at hb
  rw [hb]
  exact h a ha

theorem idxLookup_mem (idx : List (List Nat × CommandIndex)) (k : List Nat)
    (ci : CommandIndex) (h : idxLookup idx k = some ci) : (k, ci) ∈ idx := by
  unfold idxLookup at h
  cases hf : idx.find? (fun e => e.1 = k) with
  | none => rw [hf] at h; exact absurd h (by simp)
  | some e =>
    rw [hf] at h
    simp at h
    have hmem := List.mem_of_find?_eq_some hf
    have hpred := List.find?_some hf
    simp only [decide_eq_true_eq] at hpred
    have he : e = (k, ci) := by rw [← hpred, ← h]
    rw [← he]
    exact hmem

theorem mem_idxInsert (idx : List (List Nat × CommandIndex)) (k : List Nat)
    (ci : CommandIndex) (e : List Nat × CommandIndex) (h : e ∈ idxInsert idx k ci) :
    e = (k, ci) ∨ (e ∈ idx ∧ e.1 ≠ k) := by
  unfold idxInsert at h
  by_cases hany : idx.any (fun e => e.1 = k)
  · rw [if_pos hany] at h
    obtain ⟨f, hfmem, hf⟩ := List.mem_map.mp h
    by_cases hfk : f.1 = k
    · left; rw [← hf, if_pos hfk]
    · right
      rw [← hf, if_neg hfk]
      exact ⟨hfmem, hfk⟩
  · rw [if_neg hany] at h
    rcases List.mem_append.mp h with h | h
    · right
      refine ⟨h, ?_⟩
      intro hk
      rw [List.any_eq_true] at hany
      exact hany ⟨e, h, by simpa using hk⟩
    · left
      simpa using h

theorem idxInsert_pairwise (idx : List (List Nat × CommandIndex)) (k : List Nat)
    (ci : CommandIndex) (hp : idx.Pairwise (fun a b => a.1 ≠ b.1)) :
    (idxInsert idx k ci).Pairwise (fun a b => a.1 ≠ b.1) := by
  unfold idxInsert
  by_cases hany : idx.any (fun e => e.1 = k)
  · rw [if_pos hany]
    refine hp.map _ ?_
    intro a b hab
    by_cases ha : a.1 = k <;> by_cases hb : b.1 = k <;>
      simp only [if_pos, if_neg, ha, hb, reduceIte] <;> simp_all
  · rw [if_neg hany]
    rw [List.pairwise_append]
    refine ⟨hp, by simp, ?_⟩
    intro a ha b hb
    simp only [List.mem_singleton] at hb
    rw [hb]
    intro hk
    rw [List.any_eq_true] at hany
    exact hany ⟨a, ha, by simpa using hk⟩

theorem mem_idxRemove (idx : List (List Nat × CommandIndex)) (k : List Nat)
    (e : List Nat × CommandIndex) (h : e ∈ idxRemove idx k) : e ∈ idx ∧ ¬ e.1 = k := by
  unfold idxRemove at h
  refine ⟨List.mem_of_mem_filter h, ?_⟩
  have := List.of_mem_filter h
  simpa using this

theorem idxRemove_pairwise (idx : List (List Nat × CommandIndex)) (k : List Nat)
    (hp : idx.Pairwise (fun a b => a.1 ≠ b.1)) :
    (idxRemove idx k).Pairwise (fun a b => a.1 ≠ b.1) :=
  hp.sublist (List.filter_sublist idx)

theorem write_cmd_eval_ok (st : KvState) (cmd : Command) (hio : st.io_ok = true) :
    write_cmd_to_curr_log st cmd =
      (.ok (bincodeSerialize cmd).length,
        { st with
          files := fileAppendBytes st.files st.curr_log.id (bincodeSerialize cmd)
          curr_log :=
            { st.curr_log with
              offset := st.curr_log.offset + (bincodeSerialize cmd).length
              cmd_counter := st.curr_log.cmd_counter + 1 }
          total_cmd_counter := st.total_cmd_counter + 1 }) := by
  simp [write_cmd_to_curr_log, appendCmd, hio]

theorem write_cmd_eval_err (st : KvState) (cmd : Command) (hio : st.io_ok = false) :
    write_cmd_to_curr_log st cmd = (.error .ioErrK, st) := by
  simp [write_cmd_to_curr_log, appendCmd, hio]

theorem insert_entry_eval_ok (st : KvState) (key value : List Nat) (hio : st.io_ok = true) :
    insert_entry st key value =
      (.ok (),
        { st with
          storage_index := idxInsert st.storage_index key
            ⟨st.curr_log.id, st.curr_log.offset,
              (bincodeSerialize (.set key value)).length⟩
          files := fileAppendBytes st.files st.curr_log.id
            (bincodeSerialize (.set key value))
          curr_log :=
            { st.curr_log with
              offset := st.curr_log.offset + (bincodeSerialize (.set key value)).length
              cmd_counter := st.curr_log.cmd_counter + 1 }
          total_cmd_counter := st.total_cmd_counter + 1 }) := by
  rw [insert_entry, write_cmd_eval_ok st (.set key value) hio]

theorem insert_entry_eval_err (st : KvState) (key value : List Nat)
    (hio : st.io_ok = false) :
    insert_entry st key value = (.error .ioErrK, st) := by
  rw [insert_entry, write_cmd_eval_err st (.set key value) hio]

theorem read_tail_state (st1 : KvState) (oldId offset len : Nat) :
    (match fileLookup st1.files oldId with
      | none => ((Except.error KvErr.ioErrK : Except KvErr (List Nat)), st1)
      | some content =>
        if offset + len ≤ content.length then
          match bincodeDeserialize ((content.drop offset).take len) with
          | .ok (.set _ value, _) => (.ok value, st1)
          | .ok (.remove _, _) => (.error .wrongFileOffset, st1)
          | .error _ => (.error .bincode, st1)
        else (.error .ioErrK, st1)).2 = st1 := by
  cases hf : fileLookup st1.files oldId with
  | none => rfl
  | some content =>
    show (if offset + len ≤ content.length then
        match bincodeDeserialize ((content.drop offset).take len) with
        | .ok (.set _ value, _) => ((Except.ok value : Except KvErr (List Nat)), st1)
        | .ok (.remove _, _) => (.error .wrongFileOffset, st1)
        | .error _ => (.error .bincode, st1)
      else (.error .ioErrK, st1)).2 = st1
    by_cases hle : offset + len ≤ content.length
    · rw [if_pos hle]
      cases hdec : bincodeDeserialize ((content.drop offset).take len) with
      | error e => rfl
      | ok p =>
        obtain ⟨c, rest⟩ := p
        cases c with
        | set k v => rfl
        | remove k => rfl
    · rw [if_neg hle]

theorem read_value_state (st : KvState) (log_id offset len : Nat) :
    ∃ r, (read_value_from_log_at st log_id offset len).2 = { st with curr_log_r := r } := by
  by_cases hid : log_id ≠ st.curr_log_r
  · simp only [read_value_from_log_at, if_pos hid]
    cases hf : fileLookup st.files log_id with
    | none => exact ⟨st.curr_log_r, rfl⟩
    | some _ =>
      refine ⟨log_id, ?_⟩
      exact read_tail_state { st with curr_log_r := log_id } st.curr_log_r offset len
  · simp only [read_value_from_log_at, if_neg hid]
    refine ⟨st.curr_log_r, ?_⟩
    exact read_tail_state st st.curr_log_r offset len

theorem kvGet_state (st : KvState) (key : List Nat) :
    ∃ r, (kvGet st key).2 = { st with curr_log_r := r } := by
  unfold kvGet
  cases hl : idxLookup st.storage_index key with
  | none => exact ⟨st.curr_log_r, rfl⟩
  | some ci =>
    obtain ⟨r0, hr0⟩ := read_value_state st ci.log_id ci.offset ci.len
    refine ⟨r0, ?_⟩
    show (match read_value_from_log_at st ci.log_id ci.offset ci.len with
        | (Except.ok v, st1) => ((Except.ok (some v) : Except KvErr (Option (List Nat))), st1)
        | (Except.error e, st1) => (Except.error e, st1)).2 = { st with curr_log_r := r0 }
    cases hres : read_value_from_log_at st ci.log_id ci.offset ci.len with
    | mk res st1 =>
      rw [hres] at hr0
      cases res with
      | ok v => simpa using hr0
      | error e => simpa using hr0

theorem cmdsBytes_bytesOk (cmds : List Command) (h : bytesLt (cmdsBytes cmds)) :
    ∀ c ∈ cmds, CmdBytesOk c := by
  induction cmds with
  | nil => intro c hc; simp at hc
  | cons c cs ih =>
    rw [cmdsBytes_cons] at h
    intro x hx
    rcases List.mem_cons.mp hx with hx | hx
    · rw [hx]
      exact CmdBytesOk_of_bytesLt c (bytesLt_append_left h)
    · exact ih (bytesLt_append_right h) x hx

theorem mem_recordsFrom_ub (r : Nat × Command) (off : Nat) (cmds : List Command)
    (h : r ∈ recordsFrom off cmds) :
    r.1 + (bincodeSerialize r.2).length ≤ off + (cmdsBytes cmds).length := by
  obtain ⟨o, x⟩ := r
  obtain ⟨pre, post, hcb, ho⟩ := mem_recordsFrom_slice o x off cmds h
  have := congrArg List.length hcb
  simp only [List.length_append] at this
  simp only at ho ⊢
  omega

theorem mem_activeOffsetsFor (idx : List (List Nat × CommandIndex)) (fid : Nat)
    (e : List Nat × CommandIndex) (he : e ∈ idx) (hid : e.2.log_id = fid) :
    e.2.offset ∈ activeOffsetsFor idx fid := by
  unfold activeOffsetsFor
  exact List.mem_map.mpr ⟨e, List.mem_filter.mpr ⟨he, by simpa using hid⟩, rfl⟩

theorem mem_of_getLast_opt {α : Type} : ∀ (l : List α) (a : α), l.getLast? = some a → a ∈ l
  | [], a, h => by simp at h
  | [x], a, h => by
    simp only [List.getLast?_singleton, Option.some.injEq] at h
    simp [h]
  | x :: y :: l, a, h => by
    rw [List.getLast?_cons_cons] at h
    exact List.mem_cons_of_mem x (mem_of_getLast_opt (y :: l) a h)

theorem sorted_getLast_max (files : List (Nat × List Nat)) (l : Nat × List Nat)
    (hp : files.Pairwise (fun a b => a.1 < b.1)) (h : files.getLast? = some l) :
    ∀ f ∈ files, f.1 ≤ l.1 := by
  induction files with
  | nil => intro f hf; simp at hf
  | cons x xs ih =>
    intro f hf
    cases xs with
    | nil =>
      simp only [List.getLast?_singleton, Option.some.injEq] at h
      simp only [List.mem_singleton] at hf
      rw [hf, h]
    | cons y ys =>
      rw [List.getLast?_cons_cons] at h
      have hl : l ∈ y :: ys := mem_of_getLast_opt (y :: ys) l h
      rcases List.mem_cons.mp hf with hf | hf
      · have := (List.pairwise_cons.mp hp).1 l hl
        rw [hf]
        omega
      · exact ih (List.pairwise_cons.mp hp).2 h f hf

theorem NoLaterRecord_append (files : List (Nat × List Nat)) (aid : Nat) (cmd : Command)
    (hfwf : ∀ f ∈ files, WfFile f.2) (hwf : WfCmd cmd) (hcb : CmdBytesOk cmd)
    (k : List Nat) (ci : CommandIndex) (hk : cmd.key ≠ k)
    (h : NoLaterRecord files k ci) :
    NoLaterRecord (fileAppendBytes files aid (bincodeSerialize cmd)) k ci := by
  intro f' hf' r hr hkey
  rcases mem_fileAppendBytes files aid _ f' hf' with ⟨hmem, _⟩ | ⟨c, hmem, hfeq⟩
  · exact h f' hmem r hr hkey
  · rw [hfeq] at hr ⊢
    simp only at hr ⊢
    rw [(WfFile_append c cmd (hfwf (aid, c) hmem) hwf hcb).2] at hr
    rcases List.mem_append.mp hr with hr | hr
    · exact h (aid, c) hmem r hr hkey
    · simp only [List.mem_singleton] at hr
      rw [hr] at hkey
      exact absurd hkey hk

theorem EntryOk_append_ne (files : List (Nat × List Nat)) (aid : Nat) (cmd : Command)
    (hsort : files.Pairwise (fun a b => a.1 < b.1))
    (hfwf : ∀ f ∈ files, WfFile f.2)
    (hwf : WfCmd cmd) (hcb : CmdBytesOk cmd)
    (k : List Nat) (ci : CommandIndex) (hk : k ≠ cmd.key)
    (h : EntryOk files k ci) :
    EntryOk (fileAppendBytes files aid (bincodeSerialize cmd)) k ci := by
  obtain ⟨content, v, hlook, hmem, hwfs, hcbs, hlen, hnlr⟩ := h
  have hnlr' := NoLaterRecord_append files aid cmd hfwf hwf hcb k ci
    (fun hkk => hk hkk.symm) hnlr
  by_cases hid : ci.log_id = aid
  · refine ⟨content ++ bincodeSerialize cmd, v, ?_, ?_, hwfs, hcbs, hlen, hnlr'⟩
    · rw [hid] at hlook ⊢
      exact fileLookup_fileAppend_self files aid (bincodeSerialize cmd) content hlook
    · have hwfc : WfFile content := hfwf (ci.log_id, content) (fileLookup_mem files _ _ hlook)
      rw [(WfFile_append content cmd hwfc hwf hcb).2]
      exact List.mem_append_left _ hmem
  · refine ⟨content, v, ?_, hmem, hwfs, hcbs, hlen, hnlr'⟩
    rw [fileLookup_fileAppend_ne files aid (bincodeSerialize cmd) ci.log_id hid]
    exact hlook

theorem EntryOk_append_new (files : List (Nat × List Nat)) (aid : Nat) (c0 : List Nat)
    (key value : List Nat)
    (hsort : files.Pairwise (fun a b => a.1 < b.1))
    (hfwf : ∀ f ∈ files, WfFile f.2)
    (hmax : ∀ f ∈ files, f.1 ≤ aid)
    (hlook : fileLookup files aid = some c0)
    (hwf : WfCmd (.set key value)) (hcb : CmdBytesOk (.set key value)) :
    EntryOk (fileAppendBytes files aid (bincodeSerialize (.set key value))) key
      ⟨aid, c0.length, (bincodeSerialize (.set key value)).length⟩ := by
  have hwf0 : WfFile c0 := hfwf (aid, c0) (fileLookup_mem files aid c0 hlook)
  refine ⟨c0 ++ bincodeSerialize (.set key value), value, ?_, ?_, hwf, hcb, rfl, ?_⟩
  · exact fileLookup_fileAppend_self files aid _ c0 hlook
  · rw [(WfFile_append c0 (.set key value) hwf0 hwf hcb).2]
    exact List.mem_append_right _ (by simp)
  · intro f' hf' r hr hkey
    rcases mem_fileAppendBytes files aid _ f' hf' with ⟨hmem, hne⟩ | ⟨c, hmem, hfeq⟩
    · left
      have := hmax f' hmem
      simp only at hne ⊢
      omega
    · have hc : c = c0 := by
        have := mem_fileLookup files aid c hsort hmem
        rw [hlook] at this
        exact (Option.some.injEq _ _ ▸ this).symm
      rw [hfeq] at hr ⊢
      simp only at hr ⊢
      right
      refine ⟨trivial, ?_⟩
      rw [hc] at hr
      rw [(WfFile_append c0 (.set key value) hwf0 hwf hcb).2] at hr
      rcases List.mem_append.mp hr with hr | hr
      · have hub := records_within c0 hwf0 r.1 r.2 (by simpa using hr)
        have hpos := bincodeSerialize_length_pos r.2
        omega
      · simp only [List.mem_singleton] at hr
        rw [hr]

theorem EntryOk_newfile (files : List (Nat × List Nat)) (aid : Nat)
    (k : List Nat) (ci : CommandIndex)
    (hmax : ∀ f ∈ files, f.1 ≤ aid)
    (h : EntryOk files k ci) :
    EntryOk (files ++ [(aid + 1, [])]) k ci := by
  obtain ⟨content, v, hlook, hmem, hwfs, hcbs, hlen, hnlr⟩ := h
  have hid : ci.log_id ≠ aid + 1 := by
    have := hmax (ci.log_id, content) (fileLookup_mem files _ _ hlook)
    simp only at this
    omega
  refine ⟨content, v, ?_, hmem, hwfs, hcbs, hlen, ?_⟩
  · rw [fileLookup_append_single_ne files (aid + 1) [] ci.log_id hid]
    exact hlook
  · intro f' hf' r hr hkey
    rcases List.mem_append.mp hf' with hf' | hf'
    · exact hnlr f' hf' r hr hkey
    · simp only [List.mem_singleton] at hf'
      rw [hf'] at hr
      simp only [recordsOf_nil] at hr
      exact absurd hr (List.not_mem_nil r)

theorem EntryOk_delete (files : List (Nat × List Nat)) (fid : Nat)
    (k : List Nat) (ci : CommandIndex) (hne : ci.log_id ≠ fid)
    (h : EntryOk files k ci) :
    EntryOk (fileDelete files fid) k ci := by
  obtain ⟨content, v, hlook, hmem, hwfs, hcbs, hlen, hnlr⟩ := h
  refine ⟨content, v, ?_, hmem, hwfs, hcbs, hlen, ?_⟩
  · rw [fileLookup_fileDelete_ne files fid ci.log_id hne]
    exact hlook
  · intro f' hf' r hr hkey
    exact hnlr f' (mem_fileDelete files fid f' hf').1 r hr hkey

theorem insert_entry_spec (st : KvState) (key value : List Nat) (hInv : Inv st)
    (hwf : WfCmd (.set key value)) (hcb : CmdBytesOk (.set key value)) :
    Inv (insert_entry st key value).2 ∧
    (insert_entry st key value).2.curr_log.id = st.curr_log.id ∧
    (∀ e ∈ (insert_entry st key value).2.storage_index,
      (e : List Nat × CommandIndex).2.log_id = st.curr_log.id ∨ e ∈ st.storage_index) ∧
    ((insert_entry st key value).1 = .ok () →
      ∀ e ∈ (insert_entry st key value).2.storage_index,
        e = (key, (⟨st.curr_log.id, st.curr_log.offset,
            (bincodeSerialize (.set key value)).length⟩ : CommandIndex)) ∨
          (e ∈ st.storage_index ∧ (e : List Nat × CommandIndex).1 ≠ key)) := by
  cases hio : st.io_ok with
  | false =>
    rw [insert_entry_eval_err st key value hio]
    refine ⟨hInv, rfl, fun e he => Or.inr he, ?_⟩
    intro h
    exact absurd h (by simp)
  | true =>
    rw [insert_entry_eval_ok st key value hio]
    obtain ⟨c0, hc0, hoff⟩ := hInv.active
    have henc := bincodeSerialize_length_pos (.set key value)
    refine ⟨?_, rfl, ?_, ?_⟩
    · refine ⟨?_, ?_, ?_, ?_, ?_, ?_⟩
      · exact fileAppendBytes_pairwise st.files st.curr_log.id _ hInv.filesSorted
      · intro f hf
        rcases mem_fileAppendBytes st.files st.curr_log.id _ f hf with ⟨hmem, _⟩ |
          ⟨c, hmem, hfeq⟩
        · exact hInv.filesWf f hmem
        · rw [hfeq]
          exact (WfFile_append c (.set key value) (hInv.filesWf (st.curr_log.id, c) hmem)
            hwf hcb).1
      · refine ⟨c0 ++ bincodeSerialize (.set key value), ?_, ?_⟩
        · exact fileLookup_fileAppend_self st.files st.curr_log.id _ c0 hc0
        · simp only [List.length_append]
          omega
      · exact fileAppendBytes_maxId st.files st.curr_log.id _ st.curr_log.id hInv.maxId
      · exact idxInsert_pairwise st.storage_index key _ hInv.keysUnique
      · intro e he
        rcases mem_idxInsert st.storage_index key _ e he with he | ⟨he, hne⟩
        · rw [he]
          simp only
          rw [hoff]
          exact EntryOk_append_new st.files st.curr_log.id c0 key value hInv.filesSorted
            hInv.filesWf hInv.maxId hc0 hwf hcb
        · exact EntryOk_append_ne st.files st.curr_log.id (.set key value) hInv.filesSorted
            hInv.filesWf hwf hcb e.1 e.2 hne (hInv.entries e he)
    · intro e he
      rcases mem_idxInsert st.storage_index key _ e he with he | ⟨he, _⟩
      · left
        rw [he]
      · exact Or.inr he
    · intro _ e he
      rcases mem_idxInsert st.storage_index key _ e he with he | ⟨he, hne⟩
      · exact Or.inl he
      · exact Or.inr ⟨he, hne⟩

theorem idxRemove_state_inv (st : KvState) (key : List Nat) (hInv : Inv st) :
    Inv { st with storage_index := idxRemove st.storage_index key } := by
  refine ⟨hInv.filesSorted, hInv.filesWf, hInv.active, hInv.maxId, ?_, ?_⟩
  · exact idxRemove_pairwise st.storage_index key hInv.keysUnique
  · intro e he
    exact hInv.entries e (mem_idxRemove st.storage_index key e he).1

theorem kvRemove_eval_miss (st : KvState) (key : List Nat)
    (hl : idxLookup st.storage_index key = none) :
    kvRemove st key = (.error .removeNonExistentKey, st) := by
  simp [kvRemove, hl]

theorem kvRemove_eval_hit_err (st : KvState) (key : List Nat) (ci : CommandIndex)
    (hl : idxLookup st.storage_index key = some ci) (hio : st.io_ok = false) :
    kvRemove st key =
      (.error .ioErrK, { st with storage_index := idxRemove st.storage_index key }) := by
  simp [kvRemove, hl, write_cmd_to_curr_log, appendCmd, hio]

theorem kvRemove_eval_hit_ok (st : KvState) (key : List Nat) (ci : CommandIndex)
    (hl : idxLookup st.storage_index key = some ci) (hio : st.io_ok = true) :
    kvRemove st key =
      (.ok (),
        { st with
          storage_index := idxRemove st.storage_index key
          files := fileAppendBytes st.files st.curr_log.id
            (bincodeSerialize (.remove key))
          curr_log :=
            { st.curr_log with
              offset := st.curr_log.offset + (bincodeSerialize (.remove key)).length
              cmd_counter := st.curr_log.cmd_counter + 1 }
          total_cmd_counter := st.total_cmd_counter + 1 }) := by
  simp [kvRemove, hl, write_cmd_to_curr_log, appendCmd, hio]

theorem kvRemove_spec (st : KvState) (key : List Nat) (hInv : Inv st)
    (hwf : WfCmd (.remove key)) (hcb : CmdBytesOk (.remove key)) :
    Inv (kvRemove st key).2 ∧
    (kvRemove st key).2.curr_log.id = st.curr_log.id ∧
    (∀ e ∈ (kvRemove st key).2.storage_index, e ∈ st.storage_index) := by
  cases hl : idxLookup st.storage_index key with
  | none =>
    rw [kvRemove_eval_miss st key hl]
    exact ⟨hInv, rfl, fun e he => he⟩
  | some ci =>
    have hInv1 := idxRemove_state_inv st key hInv
    cases hio : st.io_ok with
    | false =>
      rw [kvRemove_eval_hit_err st key ci hl hio]
      exact ⟨hInv1, rfl, fun e he => (mem_idxRemove st.storage_index key e he).1⟩
    | true =>
      rw [kvRemove_eval_hit_ok st key ci hl hio]
      obtain ⟨c0, hc0, hoff⟩ := hInv.active
      refine ⟨?_, rfl, ?_⟩
      · refine ⟨?_, ?_, ?_, ?_, ?_, ?_⟩
        · exact fileAppendBytes_pairwise st.files st.curr_log.id _ hInv.filesSorted
        · intro f hf
          rcases mem_fileAppendBytes st.files st.curr_log.id _ f hf with ⟨hmem, _⟩ |
            ⟨c, hmem, hfeq⟩
          · exact hInv.filesWf f hmem
          · rw [hfeq]
            exact (WfFile_append c (.remove key) (hInv.filesWf (st.curr_log.id, c) hmem)
              hwf hcb).1
        · refine ⟨c0 ++ bincodeSerialize (.remove key), ?_, ?_⟩
          · exact fileLookup_fileAppend_self st.files st.curr_log.id _ c0 hc0
          · simp only [List.length_append]
            omega
        · exact fileAppendBytes_maxId st.files st.curr_log.id _ st.curr_log.id hInv.maxId
        · exact idxRemove_pairwise st.storage_index key hInv.keysUnique
        · intro e he
          have hne : (e : List Nat × CommandIndex).1 ≠ key :=
            (mem_idxRemove st.storage_index key e he).2
          exact EntryOk_append_ne st.files st.curr_log.id (.remove key) hInv.filesSorted
            hInv.filesWf hwf hcb e.1 e.2 hne
            (hInv.entries e (mem_idxRemove st.storage_index key e he).1)
      · intro e he
        exact (mem_idxRemove st.storage_index key e he).1

theorem Inv_kvGet (st : KvState) (key : List Nat) (hInv : Inv st) :
    Inv (kvGet st key).2 ∧ (kvGet st key).2.curr_log.id = st.curr_log.id ∧
    (kvGet st key).2.storage_index = st.storage_index := by
  obtain ⟨r, hr⟩ := kvGet_state st key
  rw [hr]
  exact ⟨⟨hInv.filesSorted, hInv.filesWf, hInv.active, hInv.maxId, hInv.keysUnique,
    hInv.entries⟩, rfl, rfl⟩

theorem do_create_eval_err (st : KvState) (hio : st.io_ok = false) :
    do_create_new_file st = (.error .ioErrK, st) := by
  simp [do_create_new_file, hio]

theorem do_create_eval_ok (st : KvState) (hio : st.io_ok = true)
    (hl : fileLookup st.files (st.curr_log.id + 1) = none) :
    do_create_new_file st =
      (.ok (),
        { st with
          files := st.files ++ [(st.curr_log.id + 1, [])]
          curr_log := ⟨st.curr_log.id + 1, 0, 0⟩ }) := by
  simp [do_create_new_file, hio, hl]

theorem do_create_spec (st : KvState) (hInv : Inv st) :
    Inv (do_create_new_file st).2 ∧
    (do_create_new_file st).2.storage_index = st.storage_index := by
  cases hio : st.io_ok with
  | false =>
    rw [do_create_eval_err st hio]
    exact ⟨hInv, rfl⟩
  | true =>
    cases hl : fileLookup st.files (st.curr_log.id + 1) with
    | some c =>
      have := hInv.maxId (st.curr_log.id + 1, c) (fileLookup_mem st.files _ _ hl)
      simp only at this
      omega
    | none =>
      rw [do_create_eval_ok st hio hl]
      have hlt : ∀ f ∈ st.files, f.1 < st.curr_log.id + 1 := by
        intro f hf
        have := hInv.maxId f hf
        omega
      refine ⟨⟨?_, ?_, ?_, ?_, hInv.keysUnique, ?_⟩, rfl⟩
      · exact pairwise_append_single st.files (st.curr_log.id + 1) [] hInv.filesSorted hlt
      · intro f hf
        rcases List.mem_append.mp hf with hf | hf
        · exact hInv.filesWf f hf
        · simp only [List.mem_singleton] at hf
          rw [hf]
          exact WfFile_nil
      · refine ⟨[], ?_, rfl⟩
        exact fileLookup_append_single_self st.files (st.curr_log.id + 1) []
          (fun f hf => by have := hlt f hf; omega)
      · intro f hf
        rcases List.mem_append.mp hf with hf | hf
        · have := hInv.maxId f hf
          simp only
          omega
        · simp only [List.mem_singleton] at hf
          rw [hf]
      · intro e he
        exact EntryOk_newfile st.files st.curr_log.id e.1 e.2 hInv.maxId (hInv.entries e he)

theorem compactScan_eof (f : Nat) (rem : List Nat) (off : Nat) (active : List Nat)
    (counter : Nat) (st : KvState) (hdec : bincodeDeserialize rem = .error .eof) :
    compactScan (f + 1) rem off active counter st = (.ok counter, st) := by
  rw [compactScan, hdec]

theorem compactScan_step_set (f : Nat) (rem : List Nat) (off : Nat) (active : List Nat)
    (counter : Nat) (st : KvState) (k v rest : List Nat)
    (hdec : bincodeDeserialize rem = .ok (.set k v, rest)) :
    compactScan (f + 1) rem off active counter st =
      (if off ∈ active then
        match insert_entry st k v with
        | (.ok _, st1) =>
          compactScan f rest (off + (rem.length - rest.length)) active (counter + 1) st1
        | (.error e, st1) => (.error e, st1)
      else
        compactScan f rest (off + (rem.length - rest.length)) active (counter + 1) st) := by
  rw [compactScan, hdec]

theorem compactScan_step_remove (f : Nat) (rem : List Nat) (off : Nat) (active : List Nat)
    (counter : Nat) (st : KvState) (k rest : List Nat)
    (hdec : bincodeDeserialize rem = .ok (.remove k, rest)) :
    compactScan (f + 1) rem off active counter st =
      compactScan f rest (off + (rem.length - rest.length)) active (counter + 1) st := by
  rw [compactScan, hdec]

theorem compactScan_spec (fid curr0 : Nat) (idx0 : List (List Nat × CommandIndex))
    (hfid : fid < curr0) :
    ∀ (cs : List Command) (fuel off counter : Nat) (st : KvState),
      (cmdsBytes cs).length < fuel →
      WfCmds cs → (∀ c ∈ cs, CmdBytesOk c) →
      Inv st → st.curr_log.id = curr0 →
      (∀ e ∈ st.storage_index,
        (e : List Nat × CommandIndex).2.log_id = curr0 ∨ e ∈ idx0) →
      (∀ e ∈ st.storage_index, (e : List Nat × CommandIndex).2.log_id = fid →
        ∃ v, ((e : List Nat × CommandIndex).2.offset, Command.set e.1 v) ∈
          recordsFrom off cs) →
      ∀ res, res = compactScan fuel (cmdsBytes cs) off (activeOffsetsFor idx0 fid) counter st →
        Inv res.2 ∧ res.2.curr_log.id = curr0 ∧
        (∀ e ∈ res.2.storage_index,
          (e : List Nat × CommandIndex).2.log_id = curr0 ∨ e ∈ idx0) ∧
        (∀ n, res.1 = .ok n →
          ∀ e ∈ res.2.storage_index, (e : List Nat × CommandIndex).2.log_id ≠ fid) := by
  intro cs
  induction cs with
  | nil =>
    intro fuel off counter st hfuel hwf hcbs hInv hcurr hI3 hI4 res hres
    cases fuel with
    | zero => exact absurd hfuel (by simp [cmdsBytes_nil])
    | succ f =>
      rw [cmdsBytes_nil, compactScan_eof f [] off _ counter st bincodeDeserialize_nil]
        at hres
      rw [hres]
      refine ⟨hInv, hcurr, hI3, ?_⟩
      intro n _ e he heq
      obtain ⟨v, hv⟩ := hI4 e he heq
      simp [recordsFrom] at hv
  | cons c cs' ih =>
    intro fuel off counter st hfuel hwf hcbs hInv hcurr hI3 hI4 res hres
    cases fuel with
    | zero => exact absurd hfuel (by omega)
    | succ f =>
      have hfuel' : (cmdsBytes cs').length < f := by
        have := bincodeSerialize_length_pos c
        rw [cmdsBytes_cons] at hfuel
        simp only [List.length_append] at hfuel
        omega
      have hwf' : WfCmds cs' := fun x hx => hwf x (by simp [hx])
      have hcbs' : ∀ x ∈ cs', CmdBytesOk x := fun x hx => hcbs x (by simp [hx])
      have hn : (cmdsBytes (c :: cs')).length - (cmdsBytes cs').length =
          (bincodeSerialize c).length := by
        rw [cmdsBytes_cons]
        simp
      cases c with
      | remove k =>
        have hdec : bincodeDeserialize (cmdsBytes (Command.remove k :: cs')) =
            .ok (.remove k, cmdsBytes cs') := by
          rw [cmdsBytes_cons]
          exact bincodeDeserialize_encode (.remove k) (hwf _ (by simp)) (cmdsBytes cs')
        rw [compactScan_step_remove f _ off _ counter st k _ hdec, hn] at hres
        refine ih f (off + (bincodeSerialize (Command.remove k)).length) (counter + 1) st
          hfuel' hwf' hcbs' hInv hcurr hI3 ?_ res hres
        intro e he heq
        obtain ⟨v, hv⟩ := hI4 e he heq
        rcases mem_recordsFrom_cons _ _ off (.remove k) cs' hv with ⟨_, hcmd⟩ | ⟨hmem, _⟩
        · exact absurd hcmd (by simp)
        · exact ⟨v, hmem⟩
      | set k v =>
        have hdec : bincodeDeserialize (cmdsBytes (Command.set k v :: cs')) =
            .ok (.set k v, cmdsBytes cs') := by
          rw [cmdsBytes_cons]
          exact bincodeDeserialize_encode (.set k v) (hwf _ (by simp)) (cmdsBytes cs')
        rw [compactScan_step_set f _ off _ counter st k v _ hdec, hn] at hres
        by_cases hoff : off ∈ activeOffsetsFor idx0 fid
        · rw [if_pos hoff] at hres
          obtain ⟨hI1s, hIds, hI3s, hOks⟩ := insert_entry_spec st k v hInv
            (hwf _ (by simp)) (hcbs _ (by simp))
          cases hie : insert_entry st k v with
          | mk r1 st1 =>
            rw [hie] at hres hI1s hIds hI3s hOks
            cases r1 with
            | error e1 =>
              rw [hres]
              refine ⟨hI1s, hIds.trans hcurr, ?_, ?_⟩
              · intro e he
                rcases hI3s e he with h | h
                · exact Or.inl (h.trans hcurr)
                · exact hI3 e h
              · intro n hok
                exact absurd hok (by simp)
            | ok u =>
              cases u
              refine ih f (off + (bincodeSerialize (Command.set k v)).length) (counter + 1)
                st1 hfuel' hwf' hcbs' hI1s (hIds.trans hcurr) ?_ ?_ res hres
              · intro e he
                rcases hI3s e he with h | h
                · exact Or.inl (h.trans hcurr)
                · exact hI3 e h
              · intro e he heq
                rcases hOks rfl e he with h | ⟨hmem, hne⟩
                · rw [h] at heq
                  simp only at heq
                  rw [hcurr] at heq
                  omega
                · obtain ⟨v', hv'⟩ := hI4 e hmem heq
                  rcases mem_recordsFrom_cons _ _ off (.set k v) cs' hv' with
                    ⟨_, hcmd⟩ | ⟨hmem2, _⟩
                  · simp only [Command.set.injEq] at hcmd
                    exact absurd hcmd.1 hne
                  · exact ⟨v', hmem2⟩
        · rw [if_neg hoff] at hres
          refine ih f (off + (bincodeSerialize (Command.set k v)).length) (counter + 1) st
            hfuel' hwf' hcbs' hInv hcurr hI3 ?_ res hres
          intro e he heq
          obtain ⟨v', hv'⟩ := hI4 e he heq
          rcases mem_recordsFrom_cons _ _ off (.set k v) cs' hv' with ⟨ho, _⟩ | ⟨hmem2, _⟩
          · rcases hI3 e he with h | h
            · rw [heq] at h
              omega
            · have := mem_activeOffsetsFor idx0 fid e h heq
              rw [ho] at this
              exact absurd this hoff
          · exact ⟨v', hmem2⟩

theorem processFiles_eval_none (idx0 : List (List Nat × CommandIndex)) (fid : Nat)
    (rest : List Nat) (st : KvState) (hfl : fileLookup st.files fid = none) :
    processFiles idx0 (fid :: rest) st = (.error .ioErrK, st) := by
  rw [processFiles, hfl]

theorem processFiles_eval_some (idx0 : List (List Nat × CommandIndex)) (fid : Nat)
    (rest : List Nat) (st : KvState) (content : List Nat)
    (hfl : fileLookup st.files fid = some content) :
    processFiles idx0 (fid :: rest) st =
      (match compactScan (content.length + 1) content 0 (activeOffsetsFor idx0 fid) 0 st with
       | (.error e, st1) => (.error e, st1)
       | (.ok counter, st1) =>
         processFiles idx0 rest
           { st1 with
             total_cmd_counter := st1.total_cmd_counter - counter
             last_collected_file_index := (fid : Int)
             files := fileDelete st1.files fid }) := by
  rw [processFiles, hfl]

theorem processFiles_spec (idx0 : List (List Nat × CommandIndex)) (curr0 : Nat) :
    ∀ (pending : List Nat) (st : KvState),
      Inv st → st.curr_log.id = curr0 →
      (∀ e ∈ st.storage_index,
        (e : List Nat × CommandIndex).2.log_id = curr0 ∨ e ∈ idx0) →
      (∀ fid ∈ pending, fid < curr0) →
      Inv (processFiles idx0 pending st).2 := by
  intro pending
  induction pending with
  | nil => intro st hInv _ _ _; exact hInv
  | cons fid rest ih =>
    intro st hInv hcurr hI3 hpend
    have hfidlt : fid < curr0 := hpend fid (by simp)
    cases hfl : fileLookup st.files fid with
    | none =>
      rw [processFiles_eval_none idx0 fid rest st hfl]
      exact hInv
    | some content =>
      rw [processFiles_eval_some idx0 fid rest st content hfl]
      have hwfile : WfFile content :=
        hInv.filesWf (fid, content) (fileLookup_mem st.files fid content hfl)
      obtain ⟨cmds, hcontent, hwfc, hrecs⟩ := WfFile_decomp content hwfile
      have hcb : ∀ c ∈ cmds, CmdBytesOk c := by
        apply cmdsBytes_bytesOk
        rw [← hcontent]
        exact hwfile.2.2
      have hI4 : ∀ e ∈ st.storage_index, (e : List Nat × CommandIndex).2.log_id = fid →
          ∃ v, ((e : List Nat × CommandIndex).2.offset, Command.set e.1 v) ∈
            recordsFrom 0 cmds := by
        intro e he heq
        obtain ⟨content_e, v, hlook_e, hmem_e, _, _, _, _⟩ := hInv.entries e he
        rw [heq, hfl] at hlook_e
        have hce : content_e = content := by
          simpa using hlook_e.symm
        rw [hce, hrecs] at hmem_e
        exact ⟨v, hmem_e⟩
      have hspec := compactScan_spec fid curr0 idx0 hfidlt cmds (content.length + 1) 0 0 st
        (by rw [hcontent]; omega) hwfc hcb hInv hcurr hI3 hI4
        (compactScan (content.length + 1) content 0 (activeOffsetsFor idx0 fid) 0 st)
        (by rw [hcontent])
      cases hcs : compactScan (content.length + 1) content 0 (activeOffsetsFor idx0 fid) 0 st
        with
      | mk rc st1 =>
        rw [hcs] at hspec
        obtain ⟨hInv1, hcurr1, hI31, hNof⟩ := hspec
        cases rc with
        | error e1 => exact hInv1
        | ok counter =>
          have hnofid : ∀ e ∈ st1.storage_index,
              (e : List Nat × CommandIndex).2.log_id ≠ fid := hNof counter rfl
          have hcurr1a : st1.curr_log.id = curr0 := hcurr1
          have hne : st1.curr_log.id ≠ fid := by rw [hcurr1a]; omega
          apply ih
          · obtain ⟨cA, hcA, hoffA⟩ := hInv1.active
            refine ⟨?_, ?_, ?_, ?_, hInv1.keysUnique, ?_⟩
            · exact fileDelete_pairwise st1.files fid hInv1.filesSorted
            · intro f hf
              exact hInv1.filesWf f (mem_fileDelete st1.files fid f hf).1
            · refine ⟨cA, ?_, hoffA⟩
              rw [fileLookup_fileDelete_ne st1.files fid st1.curr_log.id hne]
              exact hcA
            · intro f hf
              exact hInv1.maxId f (mem_fileDelete st1.files fid f hf).1
            · intro e he
              exact EntryOk_delete st1.files fid e.1 e.2 (hnofid e he) (hInv1.entries e he)
          · exact hcurr1
          · exact hI31
          · exact fun x hx => hpend x (by simp [hx])

theorem do_compaction_spec (st : KvState) (hInv : Inv st) : Inv (do_compaction st).2 := by
  show Inv (processFiles st.storage_index
    ((st.files.filter
      (fun f => f.1 < st.curr_log.id ∧ st.last_collected_file_index < (f.1 : Int))).map
        (·.1)) st).2
  apply processFiles_spec st.storage_index st.curr_log.id _ st hInv rfl
    (fun e he => Or.inr he)
  intro fid hfid
  obtain ⟨f, hfmem, hfeq⟩ := List.mem_map.mp hfid
  have := List.of_mem_filter hfmem
  simp only [decide_eq_true_eq] at this
  rw [← hfeq]
  exact this.1

theorem kvCompact_spec (st : KvState) (p : Except KvErr Unit × KvState) (hInv : Inv st)
    (h : kvCompact st = some p) : Inv p.2 := by
  unfold kvCompact at h
  cases hb : should_create_new_file st with
  | false =>
    rw [hb] at h
    simp only [Bool.false_eq_true, if_false] at h
    cases hsr : should_run_compaction st with
    | none => rw [hsr] at h; exact absurd h (by simp)
    | some b =>
      rw [hsr] at h
      cases b with
      | true =>
        simp only [Option.some.injEq] at h
        rw [← h]
        exact do_compaction_spec st hInv
      | false =>
        simp only [Option.some.injEq] at h
        rw [← h]
        exact hInv
  | true =>
    rw [hb] at h
    simp only [if_true] at h
    have hspec := do_create_spec st hInv
    cases hdc : do_create_new_file st with
    | mk r1 st1 =>
      rw [hdc] at h hspec
      cases r1 with
      | error e1 =>
        simp only [Option.some.injEq] at h
        rw [← h]
        exact hspec.1
      | ok u =>
        have h2 : (match should_run_compaction st1 with
            | none => none
            | some true => some (do_compaction st1)
            | some false => some ((.ok () : Except KvErr Unit), st1)) = some p := h
        cases hsr : should_run_compaction st1 with
        | none => rw [hsr] at h2; exact absurd h2 (by simp)
        | some b =>
          rw [hsr] at h2
          cases b with
          | true =>
            simp only [Option.some.injEq] at h2
            rw [← h2]
            exact do_compaction_spec st1 hspec.1
          | false =>
            simp only [Option.some.injEq] at h2
            rw [← h2]
            exact hspec.1

theorem applyOp_inv (st : KvState) (op : Op) (st' : KvState) (hInv : KvsProof.Inv st)
    (hop : WfOp op) (h : applyOp st op = some st') : KvsProof.Inv st' := by
  cases op with
  | opSet key value =>
    simp only [applyOp, Option.some.injEq] at h
    rw [← h]
    exact (insert_entry_spec st key value hInv ⟨hop.1.1, hop.2.1⟩ ⟨hop.1.2, hop.2.2⟩).1
  | opGet key =>
    simp only [applyOp, Option.some.injEq] at h
    rw [← h]
    exact (Inv_kvGet st key hInv).1
  | opRemove key =>
    simp only [applyOp, Option.some.injEq] at h
    rw [← h]
    exact (kvRemove_spec st key hInv hop.1 hop.2).1
  | opCompact =>
    simp only [applyOp] at h
    cases hk : kvCompact st with
    | none => rw [hk] at h; exact absurd h (by simp)
    | some p =>
      rw [hk] at h
      simp only [Option.map_some', Option.some.injEq] at h
      rw [← h]
      exact kvCompact_spec st p hInv hk

theorem IndexClaim_of_Inv (st : KvState) (hInv : Inv st) : IndexClaim st := by
  intro k ci hl
  have he := idxLookup_mem st.storage_index k ci hl
  obtain ⟨content, v, hlook, hmem, hwfs, hcbs, hlen, hnlr⟩ := hInv.entries (k, ci) he
  have hwfile : WfFile content :=
    hInv.filesWf (ci.log_id, content) (fileLookup_mem st.files _ _ hlook)
  obtain ⟨htake, hle⟩ := records_within content hwfile ci.offset (.set k v) hmem
  refine ⟨content, v, hlook, ?_, ?_, hnlr⟩
  · rw [hlen]
    exact hle
  · rw [hlen, htake]
    have := bincodeDeserialize_encode (.set k v) hwfs []
    rw [List.append_nil] at this
    exact this

theorem runOps_claim (ops : List Op) : ∀ st, KvsProof.Inv st → WfOps ops →
    IndexClaimOpt (runOps st ops) := by
  induction ops with
  | nil =>
    intro st hInv _
    exact IndexClaim_of_Inv st hInv
  | cons op ops' ih =>
    intro st hInv hops
    cases ha : applyOp st op with
    | none =>
      rw [runOps, ha]
      trivial
    | some st1 =>
      rw [runOps, ha]
      exact ih st1 (applyOp_inv st op st1 hInv (hops op (by simp)) ha)
        (fun x hx => hops x (by simp [hx]))

theorem EntryOkMid_start (disk done : List (Nat × List Nat)) (fid : Nat)
    (k : List Nat) (ci : CommandIndex) (h : EntryOkDone disk done k ci) :
    EntryOkMid disk done fid [] k ci := by
  obtain ⟨content, v, hlook, hmem, hwf, hcb, hlen, hloc, hnl⟩ := h
  refine ⟨content, v, hlook, hmem, hwf, hcb, hlen, Or.inl hloc, hnl, ?_⟩
  intro r hr
  simp [recordsFrom] at hr

theorem EntryOkDone_of_mid (disk done : List (Nat × List Nat)) (fid : Nat)
    (content : List Nat) (cmds : List Command)
    (hrecs : recordsOf content = recordsFrom 0 cmds)
    (k : List Nat) (ci : CommandIndex) (h : EntryOkMid disk done fid cmds k ci) :
    EntryOkDone disk (done ++ [(fid, content)]) k ci := by
  obtain ⟨content_e, v, hlook, hmem, hwf, hcb, hlen, hloc, hnl, hnlc⟩ := h
  refine ⟨content_e, v, hlook, hmem, hwf, hcb, hlen, ?_, ?_⟩
  · rcases hloc with ⟨cf, hcf, hid⟩ | ⟨hid, _⟩
    · exact ⟨cf, List.mem_append_left _ hcf, hid⟩
    · exact ⟨(fid, content), List.mem_append_right _ (by simp), hid.symm⟩
  · intro f hf r hr hkey
    rcases List.mem_append.mp hf with hf | hf
    · exact hnl f hf r hr hkey
    · simp only [List.mem_singleton] at hf
      rw [hf] at hr ⊢
      simp only at hr ⊢
      rw [hrecs] at hr
      exact hnlc r hr hkey

theorem EntryOkMid_extend (disk done : List (Nat × List Nat)) (fid : Nat)
    (pre : List Command) (c : Command) (k : List Nat) (ci : CommandIndex)
    (hk : c.key ≠ k) (h : EntryOkMid disk done fid pre k ci) :
    EntryOkMid disk done fid (pre ++ [c]) k ci := by
  obtain ⟨content_e, v, hlook, hmem, hwf, hcb, hlen, hloc, hnl, hnlc⟩ := h
  have hsplit : recordsFrom 0 (pre ++ [c]) =
      recordsFrom 0 pre ++ [((cmdsBytes pre).length, c)] := by
    rw [recordsFrom_append]
    simp [recordsFrom]
  refine ⟨content_e, v, hlook, hmem, hwf, hcb, hlen, ?_, hnl, ?_⟩
  · rcases hloc with hloc | ⟨hid, hmem2⟩
    · exact Or.inl hloc
    · refine Or.inr ⟨hid, ?_⟩
      rw [hsplit]
      exact List.mem_append_left _ hmem2
  · intro r hr hkey
    rw [hsplit] at hr
    rcases List.mem_append.mp hr with hr | hr
    · exact hnlc r hr hkey
    · simp only [List.mem_singleton] at hr
      rw [hr] at hkey
      exact absurd hkey hk

theorem replayRecord_set (fid : Nat) (idx : List (List Nat × CommandIndex)) (t cnt : Nat)
    (off : Nat) (k v : List Nat) :
    replayRecord fid (idx, t, cnt) (off, .set k v) =
      (idxInsert idx k ⟨fid, off, (bincodeSerialize (.set k v)).length⟩, t + 1, cnt + 1) :=
  rfl

theorem replayRecord_remove (fid : Nat) (idx : List (List Nat × CommandIndex)) (t cnt : Nat)
    (off : Nat) (k : List Nat) :
    replayRecord fid (idx, t, cnt) (off, .remove k) = (idxRemove idx k, t + 1, cnt + 1) :=
  rfl

theorem replay_fold (disk done : List (Nat × List Nat)) (fid : Nat) (content : List Nat)
    (cmds : List Command)
    (hlook : fileLookup disk fid = some content)
    (hrecs : recordsOf content = recordsFrom 0 cmds)
    (hwfc : WfCmds cmds) (hcbs : ∀ c ∈ cmds, CmdBytesOk c)
    (hdone : ∀ f ∈ done, (f : Nat × List Nat).1 < fid) :
    ∀ (cs pre : List Command), cmds = pre ++ cs →
      ∀ (idx : List (List Nat × CommandIndex)) (t cnt : Nat),
        idx.Pairwise (fun a b => a.1 ≠ b.1) →
        (∀ e ∈ idx, EntryOkMid disk done fid pre e.1 e.2) →
        ((recordsFrom (cmdsBytes pre).length cs).foldl (replayRecord fid)
            (idx, t, cnt)).1.Pairwise (fun a b => a.1 ≠ b.1) ∧
        ∀ e ∈ ((recordsFrom (cmdsBytes pre).length cs).foldl (replayRecord fid)
            (idx, t, cnt)).1,
          EntryOkMid disk done fid cmds e.1 e.2 := by
  intro cs
  induction cs with
  | nil =>
    intro pre hpre idx t cnt hpair hmid
    rw [List.append_nil] at hpre
    subst hpre
    exact ⟨hpair, hmid⟩
  | cons c cs' ih =>
    intro pre hpre idx t cnt hpair hmid
    have hcmem : c ∈ cmds := by rw [hpre]; simp
    have hosplit : (cmdsBytes (pre ++ [c])).length =
        (cmdsBytes pre).length + (bincodeSerialize c).length := by
      rw [cmdsBytes_append]
      simp [cmdsBytes]
    have hpre' : cmds = (pre ++ [c]) ++ cs' := by
      rw [hpre]
      simp
    have hstep : recordsFrom (cmdsBytes pre).length (c :: cs') =
        ((cmdsBytes pre).length, c) ::
          recordsFrom ((cmdsBytes pre).length + (bincodeSerialize c).length) cs' := rfl
    rw [hstep, List.foldl_cons, ← hosplit]
    have hmemrec : ((cmdsBytes pre).length, c) ∈ recordsOf content := by
      rw [hrecs, hpre, recordsFrom_append]
      refine List.mem_append_right _ ?_
      rw [recordsFrom]
      simp
    have hmemrec' : ((cmdsBytes pre).length, c) ∈ recordsFrom 0 (pre ++ [c]) := by
      rw [recordsFrom_append]
      refine List.mem_append_right _ ?_
      rw [recordsFrom]
      simp
    have hprelt : ∀ r ∈ recordsFrom 0 (pre ++ [c]), (r : Nat × Command).1 ≤
        (cmdsBytes pre).length := by
      intro r hr
      rw [recordsFrom_append] at hr
      rcases List.mem_append.mp hr with hr | hr
      · have := mem_recordsFrom_ub r 0 pre hr
        have := bincodeSerialize_length_pos r.2
        omega
      · rw [recordsFrom] at hr
        simp only [Nat.zero_add, recordsFrom, List.mem_singleton] at hr
        rw [hr]
    cases c with
    | set k v =>
      rw [replayRecord_set]
      refine ih (pre ++ [.set k v]) hpre' _ (t + 1) (cnt + 1) ?_ ?_
      · exact idxInsert_pairwise idx k _ hpair
      · intro e he
        rcases mem_idxInsert idx k _ e he with he | ⟨he, hne⟩
        · rw [he]
          refine ⟨content, v, hlook, hmemrec, ?_, ?_, rfl, ?_, ?_, ?_⟩
          · exact hwfc _ hcmem
          · exact hcbs _ hcmem
          · exact Or.inr ⟨rfl, hmemrec'⟩
          · intro f hf r hr hkey
            exact Or.inl (hdone f hf)
          · intro r hr hkey
            exact Or.inr ⟨rfl, hprelt r hr⟩
        · exact EntryOkMid_extend disk done fid pre (.set k v) e.1 e.2
            (by simpa [Command.key] using Ne.symm hne) (hmid e he)
    | remove k =>
      rw [replayRecord_remove]
      refine ih (pre ++ [.remove k]) hpre' _ (t + 1) (cnt + 1) ?_ ?_
      · exact idxRemove_pairwise idx k hpair
      · intro e he
        obtain ⟨he, hne⟩ := mem_idxRemove idx k e he
        exact EntryOkMid_extend disk done fid pre (.remove k) e.1 e.2
          (by simpa [Command.key] using Ne.symm hne) (hmid e he)

theorem except_bind_okE {ε α β : Type} (a : α) (f : α → Except ε β) :
    ((Except.ok a : Except ε α) >>= f) = f a := rfl

theorem build_fold_spec (disk : List (Nat × List Nat))
    (hsort : disk.Pairwise (fun a b => a.1 < b.1))
    (htol : ∀ f ∈ disk, ScanTolerant (f : Nat × List Nat).2) :
    ∀ (rem done : List (Nat × List Nat)), disk = done ++ rem →
      ∀ (idx0 : List (List Nat × CommandIndex)) (t0 lid0 cc0 : Nat),
        idx0.Pairwise (fun a b => a.1 ≠ b.1) →
        (∀ e ∈ idx0, EntryOkDone disk done e.1 e.2) →
        ∃ idx total logId cc,
          rem.foldlM
            (fun acc f =>
              match scanFile (f : Nat × List Nat).2 with
              | .fatal => Except.error KvErr.bincode
              | .ok records _ =>
                let r := records.foldl (replayRecord f.1) (acc.1, acc.2.1, 0)
                Except.ok (r.1, r.2.1, f.1, r.2.2))
            (idx0, t0, lid0, cc0) = .ok (idx, total, logId, cc) ∧
          idx.Pairwise (fun a b => a.1 ≠ b.1) ∧
          (∀ e ∈ idx, EntryOkDone disk (done ++ rem) e.1 e.2) ∧
          ((rem = [] ∧ logId = lid0) ∨ ∃ cl, rem.getLast? = some (logId, cl)) := by
  intro rem
  induction rem with
  | nil =>
    intro done hsplit idx0 t0 lid0 cc0 hp he
    refine ⟨idx0, t0, lid0, cc0, ?_, hp, ?_, Or.inl ⟨rfl, rfl⟩⟩
    · rw [List.foldlM_nil]
      rfl
    · simpa using he
  | cons f rest ih =>
    intro done hsplit idx0 t0 lid0 cc0 hp he
    obtain ⟨fid, content⟩ := f
    have hfmem : (fid, content) ∈ disk := by rw [hsplit]; simp
    have htolf : ScanTolerant content := htol (fid, content) hfmem
    cases hscan : scanFile content with
    | fatal =>
      have hok := htolf.1
      rw [scanOk, hscan] at hok
      exact absurd hok (by simp)
    | ok records stop =>
      have hrecseq : records = recordsOf content := by rw [recordsOf, hscan]
      obtain ⟨cmds, junk, hcontent, hwfc, hrecs, hstop, hjunk⟩ :=
        ScanTolerant_decomp content htolf
      have hlook : fileLookup disk fid = some content :=
        mem_fileLookup disk fid content hsort hfmem
      have hdonelt : ∀ g ∈ done, (g : Nat × List Nat).1 < fid := by
        rw [hsplit] at hsort
        have hcross := (List.pairwise_append.mp hsort).2.2
        intro g hg
        exact hcross g hg (fid, content) (by simp)
      have hcbs : ∀ c ∈ cmds, CmdBytesOk c := by
        apply cmdsBytes_bytesOk
        have hb : bytesLt content := htolf.2
        rw [hcontent] at hb
        exact bytesLt_append_left hb
      have hfold := replay_fold disk done fid content cmds hlook hrecs hwfc hcbs hdonelt
        cmds [] (by simp) idx0 t0 0 hp
        (fun e he2 => EntryOkMid_start disk done fid e.1 e.2 (he e he2))
      simp only [cmdsBytes_nil, List.length_nil] at hfold
      rw [← hrecs, ← hrecseq] at hfold
      have hsplit' : disk = (done ++ [(fid, content)]) ++ rest := by
        rw [hsplit]
        simp
      obtain ⟨idx, total, logId, cc, heval, hp2, hent2, hlast⟩ :=
        ih (done ++ [(fid, content)]) hsplit'
          (records.foldl (replayRecord fid) (idx0, t0, 0)).1
          (records.foldl (replayRecord fid) (idx0, t0, 0)).2.1 fid
          (records.foldl (replayRecord fid) (idx0, t0, 0)).2.2 hfold.1
          (fun e he2 => EntryOkDone_of_mid disk done fid content cmds hrecs e.1 e.2
            (hfold.2 e he2))
      refine ⟨idx, total, logId, cc, ?_, hp2, ?_, ?_⟩
      · rw [List.foldlM_cons]
        simp only [hscan, except_bind_okE]
        exact heval
      · intro e he2
        have := hent2 e he2
        simpa using this
      · rcases hlast with ⟨hrest, hlid⟩ | ⟨cl, hgl⟩
        · subst hrest
          right
          refine ⟨content, ?_⟩
          rw [hlid]
          simp [List.getLast?_singleton]
        · right
          cases rest with
          | nil => simp at hgl
          | cons y ys =>
            refine ⟨cl, ?_⟩
            rw [List.getLast?_cons_cons]
            exact hgl

theorem build_index_spec (disk : List (Nat × List Nat))
    (hsort : disk.Pairwise (fun a b => a.1 < b.1))
    (htol : ∀ f ∈ disk, ScanTolerant (f : Nat × List Nat).2) :
    ∃ idx total logId cc,
      build_index disk = .ok (idx, total, logId, cc) ∧
      idx.Pairwise (fun a b => a.1 ≠ b.1) ∧
      (∀ e ∈ idx, EntryOkDone disk disk e.1 e.2) ∧
      ((disk = [] ∧ logId = 0) ∨ ∃ cl, disk.getLast? = some (logId, cl)) := by
  obtain ⟨idx, total, logId, cc, heval, hp, hent, hlast⟩ :=
    build_fold_spec disk hsort htol disk [] rfl [] 0 0 0 (by simp)
      (fun e he => absurd he (List.not_mem_nil e))
  refine ⟨idx, total, logId, cc, heval, hp, ?_, hlast⟩
  intro e he
  have := hent e he
  simpa using this

theorem openStore_eval_some (disk : List (Nat × List Nat))
    (idx : List (List Nat × CommandIndex)) (total logId cc : Nat) (c : List Nat)
    (h : build_index disk = .ok (idx, total, logId, cc))
    (hl : fileLookup disk logId = some c) :
    openStore disk = .ok
      { storage_index := idx
        files := disk
        curr_log := ⟨logId, cc, c.length⟩
        total_cmd_counter := total
        curr_log_r := logId
        last_collected_file_index := (logId : Int) - 1
        io_ok := true } := by
  simp [openStore, h, hl, except_bind_okE]

theorem openStore_spec (disk : List (Nat × List Nat))
    (hsort : disk.Pairwise (fun a b => a.1 < b.1))
    (htol : ∀ f ∈ disk, ScanTolerant (f : Nat × List Nat).2) :
    ∃ st, openStore disk = .ok st ∧
      st.files.Pairwise (fun a b => a.1 < b.1) ∧
      (∀ f ∈ st.files, (f : Nat × List Nat).1 ≤ st.curr_log.id) ∧
      (∃ c, fileLookup st.files st.curr_log.id = some c ∧
        st.curr_log.offset = c.length) ∧
      st.storage_index.Pairwise (fun a b => a.1 ≠ b.1) ∧
      (∀ e ∈ st.storage_index, EntryOkDone st.files st.files e.1 e.2) ∧
      (st.files = disk ∨ (disk = [] ∧ st.files = [(0, [])])) := by
  obtain ⟨idx, total, logId, cc, heval, hp, hent, hlast⟩ := build_index_spec disk hsort htol
  rcases hlast with ⟨hdisk, hlid⟩ | ⟨cl, hgl⟩
  · subst hdisk
    have hbl : build_index ([] : List (Nat × List Nat)) = .ok ([], 0, 0, 0) := rfl
    rw [heval] at hbl
    simp only [Except.ok.injEq, Prod.mk.injEq] at hbl
    obtain ⟨hidx, htot, hlid2, hcc⟩ := hbl
    refine ⟨{ storage_index := []
              files := [(0, [])]
              curr_log := ⟨0, 0, 0⟩
              total_cmd_counter := 0
              curr_log_r := 0
              last_collected_file_index := -1
              io_ok := true }, ?_, ?_, ?_, ?_, ?_, ?_, ?_⟩
    · rfl
    · simp
    · intro f hf
      simp only [List.mem_singleton] at hf
      rw [hf]
    · exact ⟨[], rfl, rfl⟩
    · simp
    · intro e he
      simp at he
    · exact Or.inr ⟨rfl, rfl⟩
  · have hmem : (logId, cl) ∈ disk := mem_of_getLast_opt disk (logId, cl) hgl
    have hlook : fileLookup disk logId = some cl := mem_fileLookup disk logId cl hsort hmem
    refine ⟨_, openStore_eval_some disk idx total logId cc cl heval hlook, ?_, ?_, ?_, ?_,
      ?_, ?_⟩
    · exact hsort
    · exact sorted_getLast_max disk (logId, cl) hsort hgl
    · exact ⟨cl, hlook, rfl⟩
    · exact hp
    · exact hent
    · exact Or.inl rfl

theorem EntryOk_of_done (files : List (Nat × List Nat)) (k : List Nat)
    (ci : CommandIndex) (h : EntryOkDone files files k ci) : EntryOk files k ci := by
  obtain ⟨content, v, hlook, hmem, hwf, hcb, hlen, _, hnl⟩ := h
  exact ⟨content, v, hlook, hmem, hwf, hcb, hlen, hnl⟩

theorem Inv_openStore (disk : List (Nat × List Nat)) (hdisk : WfDisk disk) :
    ∃ st, openStore disk = .ok st ∧ KvsProof.Inv st := by
  obtain ⟨st, hopen, hsort, hmax, hactive, hp, hent, hfiles⟩ :=
    openStore_spec disk hdisk.1
      (fun f hf => ⟨(hdisk.2 f hf).1, (hdisk.2 f hf).2.2⟩)
  refine ⟨st, hopen, hsort, ?_, hactive, hmax, hp,
    fun e he => EntryOk_of_done st.files e.1 e.2 (hent e he)⟩
  intro f hf
  rcases hfiles with hfiles | ⟨_, hfiles⟩
  · rw [hfiles] at hf
    exact hdisk.2 f hf
  · rw [hfiles] at hf
    simp only [List.mem_singleton] at hf
    rw [hf]
    exact WfFile_nil

/-- C2: after `open` on any well-formed data directory followed by any
sequence of well-formed `set`/`get`/`remove`/`compact` calls (stopping at a
panic), every index entry `(k, ci)` names an existing segment, its byte
range `[offset, offset+len)` lies inside that segment and decodes with
bincode to exactly `Command::Set { key: k, .. }` consuming the whole
range, and no later record for `k` exists in any segment. -/
theorem c2_index_entry_points_to_latest_set (disk : List (Nat × List Nat)) (ops : List Op)
    (hdisk : WfDisk disk) (hops : WfOps ops) :
    IndexClaimOpt (openRun disk ops) := by
  unfold openRun
  obtain ⟨st, hopen, hInv⟩ := Inv_openStore disk hdisk
  rw [hopen]
  exact runOps_claim ops st hInv hops

/-- Witness for `c2_index_entry_points_to_latest_set`: the empty directory
followed by a set, a get and a remove of the key `"k"`. -/
theorem c2_witness :
    WfDisk ([] : List (Nat × List Nat)) ∧
    WfOps [Op.opSet [107] [118], Op.opGet [107], Op.opRemove [107]] ∧
    IndexClaimOpt (openRun [] [Op.opSet [107] [118], Op.opGet [107], Op.opRemove [107]]) :=
  ⟨by decide, by decide, c2_index_entry_points_to_latest_set [] _ (by decide) (by decide)⟩

/-- C8, amended: for every data directory whose segments scan (the last
possibly ending in a truncated record), `open` succeeds, the writer's
append cursor equals the full length of the active segment file (the
`SeekFrom::End(0)` of `LogFileWriter::open`), and every rebuilt index
entry lies within the scanned (pre-truncation) prefix of its segment —
so the partial record is not indexed, but the append cursor is the file
end, not the offset at which decoding failed. -/
theorem c8_amended_truncated_open_cursor_at_file_end (disk : List (Nat × List Nat))
    (hd : TolerantDisk disk) :
    ∃ st, openStore disk = .ok st ∧
      (∃ content, fileLookup st.files st.curr_log.id = some content ∧
        st.curr_log.offset = content.length) ∧
      (∀ k ci, idxLookup st.storage_index k = some ci →
        ∃ content, fileLookup st.files ci.log_id = some content ∧
          ci.offset + ci.len ≤ scanStop content) := by
  obtain ⟨st, hopen, hsort, hmax, hactive, hp, hent, hfiles⟩ :=
    openStore_spec disk hd.1 hd.2
  refine ⟨st, hopen, hactive, ?_⟩
  intro k ci hl
  have he := idxLookup_mem st.storage_index k ci hl
  obtain ⟨content, v, hlook, hmem, hwf, hcb, hlen, _, _⟩ := hent (k, ci) he
  have htolc : ScanTolerant content := by
    have hcmem := fileLookup_mem st.files ci.log_id content hlook
    rcases hfiles with hfiles | ⟨_, hfiles⟩
    · rw [hfiles] at hcmem
      exact hd.2 (ci.log_id, content) hcmem
    · rw [hfiles] at hcmem
      simp only [List.mem_singleton, Prod.mk.injEq] at hcmem
      rw [hcmem.2]
      exact ⟨rfl, fun b hb => absurd hb (List.not_mem_nil b)⟩
  refine ⟨content, hlook, ?_⟩
  rw [hlen]
  exact records_within_stop content htolc ci.offset (.set k v) hmem

/-- Witness for `c8_amended_truncated_open_cursor_at_file_end` at the
truncated directory of the C8 counterexample. -/
theorem c8_witness :
    TolerantDisk truncatedDisk ∧
    (∃ st, openStore truncatedDisk = .ok st ∧
      (∃ content, fileLookup st.files st.curr_log.id = some content ∧
        st.curr_log.offset = content.length) ∧
      (∀ k ci, idxLookup st.storage_index k = some ci →
        ∃ content, fileLookup st.files ci.log_id = some content ∧
          ci.offset + ci.len ≤ scanStop content)) :=
  ⟨by decide, c8_amended_truncated_open_cursor_at_file_end truncatedDisk (by decide)⟩

end KvsProof
